import Mathlib

/-!
mcdb: lookup over the mapped constant database, and the registry of mappings.

A shallow embedding of `src/mcdb.c`.

* 32-bit machine integers (`uint32_t`) are natural numbers, and every
  operation that can overflow in C is followed by `% U32`.
* Offsets added to the base pointer `m->map->ptr` are pointer arithmetic and
  do not wrap at 32 bits.
* `size_t klen` is the length of the key list; `klen + 1` does not wrap, a key
  being an object in memory.
* A loop of the code is a recursion on a bound of its passes that returns `none`
  when the bound is used up; the theorems show that it returns.
-/

namespace Mcdb

/-! ## Byte codec (uint32.h) -/

/-- The modulus of `uint32_t` arithmetic, 2^32. -/
def U32 : Nat := 4294967296

/-- Modelled from the spec: the constant UINT32_HASH_DJB_INIT of uint32.h, which is
not in the sources; the spec gives the seed `5381`. -/
def UINT32_HASH_DJB_INIT : Nat := 5381

/-- Modelled from the spec: the macro uint32_hash_djb_uchar of uint32.h, which is not
in the sources; the spec gives `h' = (h + (h << 5)) ^ b` on 32-bit values. -/
def uint32_hash_djb_uchar (h : Nat) (c : UInt8) : Nat :=
  ((h + (h <<< 5) % U32) % U32) ^^^ c.toNat

/-- Modelled from the spec: the function uint32_hash_djb of uint32.h/uint32.c, which
is not in the sources; the spec gives the DJB2-XOR hash folded over the bytes
from the given seed. -/
def uint32_hash_djb (h : Nat) (key : List UInt8) : Nat :=
  key.foldl uint32_hash_djb_uchar h

/-- Modelled from the spec: the constant MCDB_HEADER_MASK of mcdb.h, which is not in
the sources; the header is 256 pairs of 8 bytes, so the mask is `2048 - 1`. -/
def MCDB_HEADER_MASK : Nat := 2047

/-! ## The mapping and the handle (mcdb.h) -/

/-- The three values `map->fname` takes: NULL, the struct's own `fnamebuf`, or a
block obtained from `fn_malloc`. -/
inductive fname_ptr where
  | null : fname_ptr
  | fnamebuf : fname_ptr
  | heap : Nat → fname_ptr
  deriving DecidableEq, Repr

/-- Modelled from the spec: struct mcdb_mmap of mcdb.h, which is not in the sources.
`ptr` is NULL (`none`) or the mapped bytes by offset; `size` and `refcnt` are
32-bit values (the file is at most `2^32 - page_size` bytes, and `mcdb_read`
takes `size` into a `uint32_t`); `next` is NULL or the address of the next
generation; `fn_malloc` and `fn_free` are kept as the flags "the callback is
not NULL". -/
structure mcdb_mmap where
  ptr : Option (Nat → UInt8)
  size : Nat
  mtime : Nat
  next : Option Nat
  fn_malloc : Bool
  fn_free : Bool
  refcnt : Nat
  dfd : Int
  fname : fname_ptr

/-- The byte `map->ptr[off]`. Reading through a NULL `ptr` is undefined in C; the
model answers `0` there. -/
def mcdb_mmap.byte (map : mcdb_mmap) (off : Nat) : UInt8 :=
  match map.ptr with
  | some p => p off
  | none => 0

/-- The `n` bytes `map->ptr[off .. off+n)`. -/
def mcdb_mmap.bytes (map : mcdb_mmap) (off n : Nat) : List UInt8 :=
  (List.range' off n).map map.byte

/-- Modelled from the spec: the macros uint32_strunpack_bigendian_macro and
uint32_strunpack_bigendian_aligned_macro of uint32.h, which are not in the
sources; the spec gives "interpret 4 bytes in big-endian". -/
def uint32_strunpack_bigendian (map : mcdb_mmap) (off : Nat) : Nat :=
  (map.byte off).toNat * 16777216 + (map.byte (off + 1)).toNat * 65536
    + (map.byte (off + 2)).toNat * 256 + (map.byte (off + 3)).toNat

/-- Modelled from the spec: struct mcdb of mcdb.h, which is not in the sources. `map`
is the mapping the handle points to; the other fields are the `uint32_t`
cursor of a lookup. -/
structure mcdb where
  map : mcdb_mmap
  khash : Nat
  hpos : Nat
  hslots : Nat
  kpos : Nat
  loop : Nat
  dpos : Nat
  dlen : Nat

/-! ## Lookup -/

/-- The initial hash of `mcdb_findtagstart`: the tag is hashed iff it is not 0. -/
def khash_init (tagc : UInt8) : Nat :=
  if tagc ≠ 0 then uint32_hash_djb_uchar UINT32_HASH_DJB_INIT tagc
  else UINT32_HASH_DJB_INIT

/-- The offset of the header pair, `(khash << 3) & MCDB_HEADER_MASK`. -/
def header_offset (khash : Nat) : Nat :=
  ((khash <<< 3) % U32) &&& MCDB_HEADER_MASK

/-- The function `mcdb_findtagstart` (mcdb.c lines 42-66). The call of
`mcdb_thread_refresh_self(m)` before the header is read can only replace
`m->map`: `m.map` is the mapping in place after that call. -/
def mcdb_findtagstart (m : mcdb) (key : List UInt8) (tagc : UInt8) : Bool × mcdb :=
  let khash := uint32_hash_djb (khash_init tagc) key
  let off := header_offset khash
  let hslots := uint32_strunpack_bigendian m.map (off + 4)
  if hslots = 0 then
    (false, { m with hslots := hslots })
  else
    let hpos := uint32_strunpack_bigendian m.map off
    (true, { m with
      hslots := hslots
      hpos := hpos
      kpos := (hpos + (((khash >>> 8) % hslots) <<< 3) % U32) % U32
      khash := khash
      loop := 0 })

/-- The test `memcmp(key, ptr + off, klen) == 0`. -/
def memcmp_eq (map : mcdb_mmap) (key : List UInt8) (off : Nat) : Bool :=
  decide (key = map.bytes off key.length)

/-- The key test of `mcdb_findtagnext` (mcdb.c lines 90-92) on the record at
`vpos`, whose key length field is `len`. -/
def key_match (map : mcdb_mmap) (vpos len : Nat) (key : List UInt8) (tagc : UInt8) : Bool :=
  if tagc ≠ 0 then
    decide (len = key.length + 1) && decide (tagc = map.byte (vpos + 8))
      && memcmp_eq map key (vpos + 9)
  else
    decide (len = key.length) && memcmp_eq map key (vpos + 8)

/-- What one pass through the body of the `while` loop does: return from the
function, or go back to the loop test. -/
inductive loop_step where
  | ret : Bool → mcdb → loop_step
  | again : mcdb → loop_step

/-- The cursor after `m->kpos += 8; if (m->kpos == m->hpos + (m->hslots << 3))
m->kpos = m->hpos; m->loop += 1;` (mcdb.c lines 83-86). -/
def advance (m : mcdb) : mcdb :=
  let kpos := (m.kpos + 8) % U32
  { m with
    kpos := if kpos = (m.hpos + (m.hslots <<< 3) % U32) % U32 then m.hpos else kpos
    loop := (m.loop + 1) % U32 }

/-- The body of the `while` loop of `mcdb_findtagnext` (mcdb.c lines 78-97). -/
def findtagnext_body (m : mcdb) (key : List UInt8) (tagc : UInt8) : loop_step :=
  let vpos := uint32_strunpack_bigendian m.map (m.kpos + 4)
  if vpos = 0 then
    .ret false m
  else
    let khash := uint32_strunpack_bigendian m.map m.kpos
    let m1 := advance m
    if khash = m1.khash then
      let len := uint32_strunpack_bigendian m.map vpos
      if key_match m.map vpos len key tagc then
        .ret true { m1 with
          dlen := uint32_strunpack_bigendian m.map (vpos + 4)
          dpos := (vpos + 8 + len) % U32 }
      else .again m1
    else .again m1

/-- The `while` loop of `mcdb_findtagnext` with a bound on the number of passes
through the body; `none` when the bound is used up. Next to the returned
value and handle it gives the handle at the entry of each pass, in order. -/
def findtagnext_loop : Nat → mcdb → List UInt8 → UInt8 → Option (Bool × mcdb × List mcdb)
  | fuel, m, key, tagc =>
    if m.loop < m.hslots then
      match fuel with
      | 0 => none
      | fuel + 1 =>
        match findtagnext_body m key tagc with
        | .ret rc m1 => some (rc, m1, [m])
        | .again m1 =>
          match findtagnext_loop fuel m1 key tagc with
          | some (rc, m2, tr) => some (rc, m2, m :: tr)
          | none => none
    else some (false, m, [])

/-- The function `mcdb_findtagnext` (mcdb.c lines 68-100), with the handles at
the entry of each pass of its loop. The loop counter is a `uint32_t`, so the
bound on the passes is 2^32. -/
def mcdb_findtagnext_trace (m : mcdb) (key : List UInt8) (tagc : UInt8) :
    Option (Bool × mcdb × List mcdb) :=
  findtagnext_loop U32 m key tagc

/-- The function `mcdb_findtagnext` (mcdb.c lines 68-100): the returned value and
the handle it leaves. -/
def mcdb_findtagnext (m : mcdb) (key : List UInt8) (tagc : UInt8) : Option (Bool × mcdb) :=
  (mcdb_findtagnext_trace m key tagc).map fun r => (r.1, r.2.1)

/-- The function `mcdb_read` (mcdb.c lines 106-114): `none` is NULL, `some bs` is
`buf` holding `bs`. The subtraction is evaluated only when `pos <= mapsz`. -/
def mcdb_read (m : mcdb) (pos len : Nat) : Option (List UInt8) :=
  let mapsz := m.map.size % U32
  if pos ≤ mapsz ∧ mapsz - pos ≥ len then some (m.map.bytes pos len) else none

/-- The offsets `memcpy(buf, m->map->ptr + pos, len)` reads in `mcdb_read`: none
when the bounds check fails. -/
def mcdb_read_offsets (m : mcdb) (pos len : Nat) : List Nat :=
  let mapsz := m.map.size % U32
  if pos ≤ mapsz ∧ mapsz - pos ≥ len then List.range' pos len else []

/-- A mapping of the given bytes and size, with the other fields as
`mcdb_mmap_init` leaves them. -/
def mcdb_mmap.of_file (f : Nat → UInt8) (size : Nat) : mcdb_mmap :=
  { ptr := some f, size := size, mtime := 0, next := none, fn_malloc := true,
    fn_free := true, refcnt := 0, dfd := -1, fname := .fnamebuf }

/-- A handle on the given mapping with a zeroed cursor. -/
def mcdb.of_map (map : mcdb_mmap) : mcdb :=
  { map := map, khash := 0, hpos := 0, hslots := 0, kpos := 0, loop := 0, dpos := 0, dlen := 0 }

/-- The bytes of a file given as a list; offsets past the end read as 0. -/
def file_of_list (l : List UInt8) : Nat → UInt8 := fun i => l.getD i 0

/-! ## Sample files -/

/-- The bytes of a file given by its non-zero stretches `(offset, bytes)`; every
other offset reads as 0. -/
def chunk_file : List (Nat × List UInt8) → Nat → UInt8
  | [], _ => 0
  | (o, bs) :: rest, i =>
    if o ≤ i ∧ i < o + bs.length then bs.getD (i - o) 0 else chunk_file rest i

/-- A well-formed file of 2126 bytes holding the records ("a","1"), ("b","2"),
("a","3"): header pairs 196 and 199 (the pairs of the empty tables are zero),
the three records from offset 2048, table 196 (4 slots) at 2078 and table 199
(2 slots) at 2110. -/
def file_dup : mcdb_mmap :=
  mcdb_mmap.of_file (chunk_file
    [(1568, [0, 0, 8, 30, 0, 0, 0, 4]),
     (1592, [0, 0, 8, 62, 0, 0, 0, 2]),
     (2048, [0, 0, 0, 1, 0, 0, 0, 1, 97, 49, 0, 0, 0, 1, 0, 0, 0, 1, 98, 50,
             0, 0, 0, 1, 0, 0, 0, 1, 97, 51]),
     (2078, [0, 0, 0, 0, 0, 0, 0, 0, 0, 2, 181, 196, 0, 0, 8, 0,
             0, 2, 181, 196, 0, 0, 8, 20, 0, 0, 0, 0, 0, 0, 0, 0]),
     (2110, [0, 0, 0, 0, 0, 0, 0, 0, 0, 2, 181, 199, 0, 0, 8, 10])]) 2126

/-- A well-formed file of 2104 bytes holding the tagged records (tag 'x', "k", "V1")
and (tag 'y', "k", "V2"): header pairs 22 and 55 (the pairs of the empty tables
are zero), the two records from offset 2048, table 22 at 2072 and table 55 at
2088, of 2 slots each. -/
def file_tagged : mcdb_mmap :=
  mcdb_mmap.of_file (chunk_file
    [(176, [0, 0, 8, 24, 0, 0, 0, 2]),
     (440, [0, 0, 8, 40, 0, 0, 0, 2]),
     (2048, [0, 0, 0, 2, 0, 0, 0, 2, 120, 107, 86, 49, 0, 0, 0, 2, 0, 0, 0, 2, 121, 107, 86, 50]),
     (2072, [0, 0, 0, 0, 0, 0, 0, 0, 0, 89, 113, 22, 0, 0, 8, 0]),
     (2088, [0, 0, 0, 0, 0, 0, 0, 0, 0, 89, 113, 55, 0, 0, 8, 12])]) 2104

/-- The key "ootpwgq", whose DJB2-XOR hash from seed 5381 is 0. -/
def key_hash0 : List UInt8 := [111, 111, 116, 112, 119, 103, 113]

/-- A file of 2072 bytes whose header pair 0 announces `hslots = 2^29 + 1` slots at
`hpos = 2048`, so that `hslots << 3` is 8 in 32-bit arithmetic. Slot 0 at 2048
holds `(hash 0, vpos 2056)` and the record at 2056 is ("ootpwgq", "v"). -/
def file_wrap : mcdb_mmap :=
  mcdb_mmap.of_file (chunk_file
    [(0, [0, 0, 8, 0, 0x20, 0, 0, 1]),
     (2048, [0, 0, 0, 0, 0, 0, 8, 8]),
     (2056, [0, 0, 0, 7, 0, 0, 0, 1, 111, 111, 116, 112, 119, 103, 113, 118])]) 2072

/-! ## Successive calls and the probe order -/

/-- The call number `i + 1` of `mcdb_findtagnext` in a run of successive calls with
the same arguments, each call starting from the handle the previous one left:
its returned value and the handle it leaves. -/
def findtagnext_nth : Nat → mcdb → List UInt8 → UInt8 → Option (Bool × mcdb)
  | 0, m, key, tagc => mcdb_findtagnext m key tagc
  | i + 1, m, key, tagc =>
    match mcdb_findtagnext m key tagc with
    | some (_, m1) => findtagnext_nth i m1 key tagc
    | none => none

/-- The handles at the entry of every pass of the loop over `n` successive calls
of `mcdb_findtagnext` with the same arguments, in order. -/
def findtagnext_calls_trace : Nat → mcdb → List UInt8 → UInt8 → Option (List mcdb)
  | 0, _, _, _ => some []
  | n + 1, m, key, tagc =>
    match mcdb_findtagnext_trace m key tagc with
    | some (_, m1, tr) =>
      match findtagnext_calls_trace n m1 key tagc with
      | some rest => some (tr ++ rest)
      | none => none
    | none => none

/-- The record at `vpos` stores the key `ks`: its key length field is `|ks|` and
the bytes from `vpos + 8` are `ks`. -/
def stored_key (map : mcdb_mmap) (vpos : Nat) (ks : List UInt8) : Prop :=
  uint32_strunpack_bigendian map vpos = ks.length ∧ map.bytes (vpos + 8) ks.length = ks

instance (map : mcdb_mmap) (vpos : Nat) (ks : List UInt8) : Decidable (stored_key map vpos ks) := by
  unfold stored_key
  infer_instance

/-- The `vpos` field of the slot at offset `p`. -/
def slot_vpos (map : mcdb_mmap) (p : Nat) : Nat := uint32_strunpack_bigendian map (p + 4)

/-- The offset of the slot probed in position `j` of the probe order of a table at
`hpos` with `hslots` slots: slot `((khash >> 8) mod hslots + j) mod hslots`. -/
def probe_pos (hpos hslots khash j : Nat) : Nat :=
  hpos + 8 * (((khash >>> 8) % hslots + j) % hslots)

/-- The slot at offset `p` answers the query: its stored hash is `khash` and the
key of its record matches. -/
def slot_hits (map : mcdb_mmap) (khash : Nat) (key : List UInt8) (tagc : UInt8) (p : Nat) : Bool :=
  decide (uint32_strunpack_bigendian map p = khash)
    && key_match map (slot_vpos map p) (uint32_strunpack_bigendian map (slot_vpos map p)) key tagc

/-- The slots of the probe order from position `m.loop` on, up to `hslots` slots in
all, cut before the first empty slot. -/
def probe_run (m : mcdb) : List Nat :=
  ((List.range' m.loop (m.hslots - m.loop)).map (probe_pos m.hpos m.hslots m.khash)).takeWhile
    fun p => decide (slot_vpos m.map p ≠ 0)

/-- The slots of `probe_run` that answer the query, in probe order. -/
def probe_hits (m : mcdb) (key : List UInt8) (tagc : UInt8) : List Nat :=
  (probe_run m).filter (slot_hits m.map m.khash key tagc)

/-- The cursor of a lookup in progress on a table whose extent `hpos + 8 * hslots`
stays in 32-bit range: `loop` has not passed `hslots`, and `kpos` is the slot
of probe position `loop`. -/
def cursor_ok (m : mcdb) : Prop :=
  m.hslots ≠ 0 ∧ m.hpos + 8 * m.hslots < U32 ∧ m.loop ≤ m.hslots
    ∧ m.kpos = probe_pos m.hpos m.hslots m.khash m.loop

instance (m : mcdb) : Decidable (cursor_ok m) := by
  unfold cursor_ok
  infer_instance

/-- The handle `mcdb_findtagnext` leaves on a match at the slot at `m.kpos`
(mcdb.c lines 93-95). -/
def hit_handle (m : mcdb) : mcdb :=
  { advance m with
    dlen := uint32_strunpack_bigendian m.map (slot_vpos m.map m.kpos + 4)
    dpos := (slot_vpos m.map m.kpos + 8
      + uint32_strunpack_bigendian m.map (slot_vpos m.map m.kpos)) % U32 }

/-- The executions of the loop of `mcdb_findtagnext` as a relation: from handle
`m` the call returns `rc`, leaves `m1`, and entered the body at the handles
`tr`. -/
inductive loop_run (key : List UInt8) (tagc : UInt8) : mcdb → Bool → mcdb → List mcdb → Prop
  | done (m : mcdb) : ¬ m.loop < m.hslots → loop_run key tagc m false m []
  | empty (m : mcdb) : m.loop < m.hslots → slot_vpos m.map m.kpos = 0 →
      loop_run key tagc m false m [m]
  | hit (m : mcdb) : m.loop < m.hslots → slot_vpos m.map m.kpos ≠ 0 →
      slot_hits m.map m.khash key tagc m.kpos = true →
      loop_run key tagc m true (hit_handle m) [m]
  | miss (m : mcdb) (rc : Bool) (m1 : mcdb) (tr : List mcdb) : m.loop < m.hslots →
      slot_vpos m.map m.kpos ≠ 0 → slot_hits m.map m.khash key tagc m.kpos = false →
      loop_run key tagc (advance m) rc m1 tr → loop_run key tagc m rc m1 (m :: tr)

/-- The handle after `mcdb_findtagstart` of "a", untagged, on `file_dup`. -/
def start_dup_a : mcdb := (mcdb_findtagstart (mcdb.of_map file_dup) [97] 0).2

/-- The handle the second call of `mcdb_findtagnext` for "a" leaves on `file_dup`:
both records of "a" are reported and the cursor is on the empty slot at 2102. -/
def empty_dup_a : mcdb := ((findtagnext_nth 1 start_dup_a [97] 0).getD (false, start_dup_a)).2

/-- The handle after `mcdb_findtagstart` of "ootpwgq", untagged, on `file_wrap`. -/
def start_wrap : mcdb := (mcdb_findtagstart (mcdb.of_map file_wrap) key_hash0 0).2

/-! ## The registry of mappings (mcdb.c lines 124-422)

The `struct mcdb_mmap` objects live in a heap indexed by address; a handle slot
is a `struct mcdb_mmap *` variable, NULL or an address. `fn_malloc` and
`fn_free` are the caller's callbacks: a struct passed to `fn_free` stays in
the heap with the bytes it had, and the call is recorded in `freed`. -/

/-- The function `f` with the value at `a` replaced by `v`. -/
def upd {α : Type} (f : Nat → α) (a : Nat) (v : α) : Nat → α :=
  fun x => if x = a then v else f x

/-- The memory the registry code works on. -/
structure registry where
  /-- The struct at each address. -/
  heap : Nat → mcdb_mmap
  /-- The addresses below `nalloc` hold structs handed out so far. -/
  nalloc : Nat
  /-- The handle slots: NULL or the address of a struct. -/
  slots : Nat → Option Nat
  /-- The structs whose mapping went through `munmap`, in order. -/
  munmapped : List Nat
  /-- The structs passed to `fn_free`, in order. -/
  freed : List Nat
  /-- The `fname` blocks obtained from `fn_malloc` so far. -/
  nfname : Nat
  /-- The `fname` blocks passed to `fn_free`, in order. -/
  fname_freed : List Nat
  /-- The descriptors passed to `nointr_close`, in order. -/
  closed : List Int

/-- The struct at `a` replaced by `f` of it. -/
def registry.modify (st : registry) (a : Nat) (f : mcdb_mmap → mcdb_mmap) : registry :=
  { st with heap := upd st.heap a (f (st.heap a)) }

/-- The handle slot `s` set to `v`. -/
def registry.set_slot (st : registry) (s : Nat) (v : Option Nat) : registry :=
  { st with slots := upd st.slots s v }

/-- Modelled from the spec: enum mcdb_flags of mcdb.h, which is not in the sources.
Each field is the test `flags & MCDB_REGISTER_...` of one bit; unregistering
is `use_incr = false`. -/
structure mcdb_flags where
  use_incr : Bool
  munmap_skip : Bool
  mutex_lock_hold : Bool
  mutex_unlock_hold : Bool
  deriving DecidableEq, Repr

/-- What `fstat` and `mmap` answer in `mcdb_mmap_init`. -/
inductive fd_result where
  | fstat_fails : fd_result
  | mmap_fails : fd_result
  | mapped (bytes : Nat → UInt8) (size mtime : Nat) : fd_result

/-- The `uint32_t` increment `++x`. -/
def incr32 (x : Nat) : Nat := (x + 1) % U32

/-- The `uint32_t` decrement `--x`. -/
def decr32 (x : Nat) : Nat := (x + U32 - 1) % U32

/-- The function `mcdb_mmap_unmap` (mcdb.c lines 128-135). -/
def mcdb_mmap_unmap (st : registry) (map : Nat) : registry :=
  let st1 : registry :=
    if (st.heap map).ptr.isSome then { st with munmapped := st.munmapped ++ [map] } else st
  st1.modify map fun mp => { mp with ptr := none, size := 0 }

/-- The function `mcdb_mmap_init` (mcdb.c lines 137-161). -/
def mcdb_mmap_init (st : registry) (map : Nat) (fd : fd_result) : Bool × registry :=
  let st1 := mcdb_mmap_unmap st map
  match fd with
  | .fstat_fails => (false, st1)
  | .mmap_fails => (false, st1)
  | .mapped bytes size mtime =>
    (true, st1.modify map fun mp =>
      { mp with ptr := some bytes, size := size, mtime := mtime, next := none, refcnt := 0 })

/-- The function `mcdb_mmap_free` (mcdb.c lines 163-174). -/
def mcdb_mmap_free (st : registry) (map : Nat) : registry :=
  let st1 := mcdb_mmap_unmap st map
  if (st1.heap map).fn_free then
    let st2 : registry :=
      match (st1.heap map).fname with
      | .heap b =>
        { st1.modify map fun mp => { mp with fname := .null } with
          fname_freed := st1.fname_freed ++ [b] }
      | _ => st1
    { st2 with freed := st2.freed ++ [map] }
  else st1

/-- The function `mcdb_mmap_destroy` (mcdb.c lines 176-182). -/
def mcdb_mmap_destroy (st : registry) (map : Nat) : registry :=
  let st1 : registry :=
    if (st.heap map).dfd ≠ -1 then { st with closed := st.closed ++ [(st.heap map).dfd] } else st
  mcdb_mmap_free st1 map

/-- The function `mcdb_mmap_reopen` (mcdb.c lines 184-206); `fd` is `none` when
the file cannot be opened. -/
def mcdb_mmap_reopen (st : registry) (map : Nat) (fd : Option fd_result) : Bool × registry :=
  match fd with
  | none => (false, st)
  | some r => mcdb_mmap_init st map r

/-- The walk `while (next->next != NULL) next = next->next;` (mcdb.c lines 353-354)
with a bound on the number of structs visited; `none` when the bound is used
up. -/
def chain_tail (heap : Nat → mcdb_mmap) : Nat → Nat → Option Nat
  | 0, _ => none
  | fuel + 1, next =>
    match (heap next).next with
    | none => some next
    | some n => chain_tail heap fuel n

/-- The loop `while ((next = map->next) != NULL && next->refcnt == 0) { map->next =
next->next; next->fname = NULL; mcdb_mmap_free(next); }` (mcdb.c lines
362-366) with a bound on the number of passes; `none` when the bound is used
up. -/
def reclaim_loop : Nat → registry → Nat → Option registry
  | fuel, st, map =>
    match (st.heap map).next with
    | none => some st
    | some next =>
      if (st.heap next).refcnt = 0 then
        match fuel with
        | 0 => none
        | fuel + 1 =>
          let st1 := st.modify map fun mp => { mp with next := (st.heap next).next }
          let st2 := st1.modify next fun mp => { mp with fname := .null }
          reclaim_loop fuel (mcdb_mmap_free st2 next) map
      else some st

/-- The end of `mcdb_mmap_thread_registration` once the first operand of `&&` on
line 360 holds: `--map->refcnt == 0` and what it guards (mcdb.c lines
360-373). -/
def registration_release (st : registry) (map mapptr : Nat) (flags : mcdb_flags) :
    Option (Bool × registry) :=
  let st2 := st.modify map fun mp => { mp with refcnt := decr32 mp.refcnt }
  if (st2.heap map).refcnt = 0 then
    match reclaim_loop st2.nalloc st2 map with
    | none => none
    | some st3 =>
      if !flags.munmap_skip then
        let st4 := mcdb_mmap_free (st3.modify map fun mp => { mp with fname := .null }) map
        if !flags.use_incr then some (true, st4.set_slot mapptr none)
        else some (true, st4)
      else some (true, st3)
  else some (true, st2)

/-- The function `mcdb_mmap_thread_registration` (mcdb.c lines 324-380) on the
handle slot `mapptr`. `lock_ok` says whether `pthread_mutex_lock` succeeds.
The walk to the tail and the reclaiming loop are bounded by the number of
structs handed out; `none` when a bound is used up (a cyclic chain). -/
def mcdb_mmap_thread_registration (st : registry) (mapptr : Nat) (flags : mcdb_flags)
    (lock_ok : Bool) : Option (Bool × registry) :=
  if !flags.mutex_unlock_hold && !lock_ok then some (false, st)
  else
    match st.slots mapptr with
    | none => some (!flags.use_incr, st)
    | some map =>
      if (st.heap map).ptr.isNone && flags.use_incr then some (!flags.use_incr, st)
      else if flags.use_incr then
        match (st.heap map).next with
        | none => some (true, st.modify map fun mp => { mp with refcnt := incr32 mp.refcnt })
        | some n =>
          match chain_tail st.heap st.nalloc n with
          | none => none
          | some next =>
            registration_release
              ((st.modify next fun mp => { mp with refcnt := incr32 mp.refcnt }).set_slot
                mapptr (some next))
              map mapptr flags
      else registration_release st map mapptr flags

/-- The flags of `mcdb_thread_register`: MCDB_REGISTER_USE_INCR alone. -/
def MCDB_REGISTER_USE_INCR : mcdb_flags :=
  { use_incr := true, munmap_skip := false, mutex_lock_hold := false, mutex_unlock_hold := false }

/-- The flags of `mcdb_thread_unregister`: no bit set. -/
def MCDB_REGISTER_USE_DECR : mcdb_flags :=
  { use_incr := false, munmap_skip := false, mutex_lock_hold := false, mutex_unlock_hold := false }

/-- The flags `mcdb_mmap_reopen_threadsafe` passes (mcdb.c lines 413-416). -/
def mcdb_flags_hold_lock : mcdb_flags :=
  { use_incr := true, munmap_skip := false, mutex_lock_hold := true, mutex_unlock_hold := true }

/-- The function `mcdb_mmap_reopen_threadsafe` (mcdb.c lines 385-422) on the handle
slot `mapptr`. `malloc_ok` says whether `fn_malloc` returns a block, which is
then the struct at address `nalloc`; `fd` is what opening and mapping the
file give. `none` when the code goes through a NULL pointer (`*mapptr` or
`fn_free`) or a bound of the registration is used up. -/
def mcdb_mmap_reopen_threadsafe (st : registry) (mapptr : Nat) (lock_ok malloc_ok : Bool)
    (fd : Option fd_result) : Option (Bool × registry) :=
  if !lock_ok then some (false, st)
  else
    match st.slots mapptr with
    | none => none
    | some map =>
      let created : Option (Bool × registry) :=
        match (st.heap map).next with
        | none =>
          if (st.heap map).fn_malloc && malloc_ok then
            let next := st.nalloc
            let st1 : registry :=
              { st with heap := upd st.heap next { st.heap map with ptr := none }
                        nalloc := st.nalloc + 1 }
            let r := mcdb_mmap_reopen st1 next fd
            if r.1 then some (true, r.2.modify map fun mp => { mp with next := some next })
            else if (st.heap map).fn_free then
              some (false, { r.2 with freed := r.2.freed ++ [next] })
            else none
          else some (false, st)
        | some _ => some (true, st)
      match created with
      | none => none
      | some (false, st2) => some (false, st2)
      | some (true, st2) => mcdb_mmap_thread_registration st2 mapptr mcdb_flags_hold_lock true

/-- The end of `mcdb_mmap_create` (mcdb.c lines 303-321): the name is stored and
the file is opened and mapped. -/
def mcdb_mmap_create_name (st : registry) (map : Nat) (short_name fname_ok : Bool)
    (fd : Option fd_result) : Option Nat × registry :=
  if !short_name && !fname_ok then (none, mcdb_mmap_destroy st map)
  else
    let st1 : registry :=
      if short_name then st.modify map fun mp => { mp with fname := .fnamebuf }
      else { st.modify map fun mp => { mp with fname := .heap st.nfname } with
             nfname := st.nfname + 1 }
    let r := mcdb_mmap_reopen st1 map fd
    if r.1 then (some map, r.2.modify map fun mp => { mp with refcnt := incr32 mp.refcnt })
    else (none, mcdb_mmap_destroy r.2 map)

/-- The function `mcdb_mmap_create` (mcdb.c lines 256-322) as compiled on Linux,
called with `map == NULL`. `has_malloc` says whether `fn_malloc` is not NULL
and `malloc_ok` whether it returns a block for the struct, which is then the
struct at address `nalloc`; `dname` is `none` for a NULL `dname` and otherwise
what `nointr_open` returns for it; `short_name` is the test
`sizeof(map->fnamebuf) > flen` and `fname_ok` says whether `fn_malloc` returns
a block for the name. The result is the pointer returned, `none` for NULL. -/
def mcdb_mmap_create (st : registry) (has_malloc malloc_ok has_free : Bool) (dname : Option Int)
    (short_name fname_ok : Bool) (fd : Option fd_result) : Option Nat × registry :=
  if !has_malloc then (none, st)
  else if !malloc_ok then (none, st)
  else
    let map := st.nalloc
    let st1 : registry :=
      { st with
        heap := upd st.heap map
          { ptr := none, size := 0, mtime := 0, next := none, fn_malloc := true,
            fn_free := has_free, refcnt := 0, dfd := -1, fname := .null }
        nalloc := st.nalloc + 1 }
    match dname with
    | none => mcdb_mmap_create_name st1 map short_name fname_ok fd
    | some d =>
      let st2 := st1.modify map fun mp => { mp with dfd := d }
      if d > 2 then mcdb_mmap_create_name st2 map short_name fname_ok fd
      else (none, mcdb_mmap_destroy st2 map)

/-- The chain from `a` ends at `t` after `k` steps along `next`, through structs
at addresses below `n`. -/
inductive tail_at (heap : Nat → mcdb_mmap) (n : Nat) : Nat → Nat → Nat → Prop
  | here (a : Nat) : a < n → (heap a).next = none → tail_at heap n a 0 a
  | step (a b k t : Nat) : a < n → (heap a).next = some b → tail_at heap n b k t →
      tail_at heap n a (k + 1) t

/-! ## Sequences of registry operations -/

/-- The operations of a maintenance actor and of readers on their handle slots.
`create` is `slot = mcdb_mmap_create(NULL, NULL, fname, malloc, free)` with a
short name and a file that maps; `attach` is the assignment by which a reader
points its slot to the mapping another slot holds, before it registers;
`register` and `unregister` are `mcdb_mmap_thread_registration` with
MCDB_REGISTER_USE_INCR and with no flag; `reopen` is
`mcdb_mmap_reopen_threadsafe` with an allocation and a file that succeed. -/
inductive registry_op where
  | create (slot : Nat) : registry_op
  | attach (slot src : Nat) : registry_op
  | register (slot : Nat) : registry_op
  | unregister (slot : Nat) : registry_op
  | reopen (slot : Nat) : registry_op
  deriving DecidableEq, Repr

/-- The memory before any operation: no struct handed out, every slot NULL. -/
def registry.init : registry :=
  { heap := fun _ =>
      { ptr := none, size := 0, mtime := 0, next := none, fn_malloc := false, fn_free := false,
        refcnt := 0, dfd := -1, fname := .null }
    nalloc := 0
    slots := fun _ => none
    munmapped := []
    freed := []
    nfname := 0
    fname_freed := []
    closed := [] }

/-- A file that opens and maps: 2048 zero bytes. -/
def fd_empty : Option fd_result := some (.mapped (fun _ => 0) 2048 0)

/-- One operation: the value returned (for `create`, whether the pointer is not
NULL) and the memory left. -/
def run_op (st : registry) : registry_op → Option (Bool × registry)
  | .create slot =>
    let r := mcdb_mmap_create st true true true none true true fd_empty
    some (r.1.isSome, r.2.set_slot slot r.1)
  | .attach slot src => some (true, st.set_slot slot (st.slots src))
  | .register slot => mcdb_mmap_thread_registration st slot MCDB_REGISTER_USE_INCR true
  | .unregister slot => mcdb_mmap_thread_registration st slot MCDB_REGISTER_USE_DECR true
  | .reopen slot => mcdb_mmap_reopen_threadsafe st slot true true fd_empty

/-- A sequence of operations from the memory `st`: the values returned, in order,
and the memory left. -/
def run_ops : registry → List registry_op → Option (List Bool × registry)
  | st, [] => some ([], st)
  | st, op :: ops =>
    match run_op st op with
    | none => none
    | some (rc, st1) =>
      match run_ops st1 ops with
      | none => none
      | some (rcs, st2) => some (rc :: rcs, st2)

/-- The creator's slot 0 and a reader's slot 1: the creator maps generation 0, the
reader registers on it, and the creator publishes generations 1 and 2. -/
def ops_two_reopens : List registry_op :=
  [.create 0, .attach 1 0, .register 1, .reopen 0, .reopen 0]

/-- What a memory shows of the struct at `a`: `ptr` not NULL, `refcnt`, `next`. -/
def registry.view (st : registry) (a : Nat) : Bool × Nat × Option Nat :=
  ((st.heap a).ptr.isSome, (st.heap a).refcnt, (st.heap a).next)

/-- The memory a sequence of operations leaves when run from `registry.init`
(`registry.init` itself if the sequence does not run to its end). -/
def registry_after (ops : List registry_op) : registry :=
  ((run_ops registry.init ops).getD ([], registry.init)).2

/-- The memory after the creator mapped generation 0 in slot 0 and a later
`mcdb_mmap_reopen` of it failed in `mmap`: the mapping is left unmapped, with
`refcnt` 1 and no `next`. -/
def registry_unmapped : registry :=
  (mcdb_mmap_reopen (registry_after [.create 0]) 0 (some .mmap_fails)).2

/-- The memory after `slot 0 = mcdb_mmap_create(NULL, NULL, fname, malloc, NULL)`:
generation 0 mapped, created with a NULL `fn_free`. -/
def registry_no_free : registry :=
  (mcdb_mmap_create registry.init true true false none true true fd_empty).2.set_slot 0
    (mcdb_mmap_create registry.init true true false none true true fd_empty).1

/-- The flags of an unregistration that leaves the final unmap to the caller:
MCDB_REGISTER_MUNMAP_SKIP alone. -/
def MCDB_REGISTER_MUNMAP_SKIP : mcdb_flags :=
  { use_incr := false, munmap_skip := true, mutex_lock_hold := false, mutex_unlock_hold := false }

/-- The memory after the creator mapped generation 0 in slot 0 and unregistered
with MCDB_REGISTER_MUNMAP_SKIP: generation 0 is still mapped and in slot 0,
with `refcnt` 0. -/
def registry_refcnt0 : registry :=
  ((mcdb_mmap_thread_registration (registry_after [.create 0]) 0 MCDB_REGISTER_MUNMAP_SKIP
    true).getD (false, registry.init)).2

/-- The memory after the creator mapped generation 0 (slot 0), a reader registered
on it (slot 1), the creator published generation 1, and the reader
unregistered with MCDB_REGISTER_MUNMAP_SKIP: slot 1 still holds generation 0,
which is mapped, has `next` set and `refcnt` 0. -/
def registry_stale0 : registry :=
  ((mcdb_mmap_thread_registration (registry_after [.create 0, .attach 1 0, .register 1, .reopen 0])
    1 MCDB_REGISTER_MUNMAP_SKIP true).getD (false, registry.init)).2

/-- The structs visited from `a` by following `next` until it is NULL, `a`
included, through at most `fuel` structs. -/
def chain_from (heap : Nat → mcdb_mmap) : Nat → Nat → List Nat
  | 0, _ => []
  | fuel + 1, a =>
    match (heap a).next with
    | none => [a]
    | some b => a :: chain_from heap fuel b

/-- The structs visited by following `next` from the mapping the slot holds; none
for a NULL slot. -/
def registry.slot_chain (st : registry) (slot : Nat) : List Nat :=
  match st.slots slot with
  | none => []
  | some a => chain_from st.heap st.nalloc a

/-- Successive calls of `mcdb_findtagnext`, one for each `(key, tagc)` of the list,
each call starting from the handle the previous one left: the returned values,
the last handle, and the handles at the entry of every pass of the loop. -/
def findtagnext_seq : mcdb → List (List UInt8 × UInt8) → Option (List Bool × mcdb × List mcdb)
  | m, [] => some ([], m, [])
  | m, q :: qs =>
    match mcdb_findtagnext_trace m q.1 q.2 with
    | some (rc, m1, tr) =>
      match findtagnext_seq m1 qs with
      | some (rcs, m2, tr2) => some (rc :: rcs, m2, tr ++ tr2)
      | none => none
    | none => none

/-! ## The offsets read and the 32-bit sums of a lookup -/

/-- The byte offsets `mcdb_findtagstart` reads from the mapping (mcdb.c lines
57-61): the four bytes of the `hslots` field of the header pair and, when
`hslots` is not 0, the four bytes of its `hpos` field. -/
def findtagstart_reads (m : mcdb) (key : List UInt8) (tagc : UInt8) : List Nat :=
  let khash := uint32_hash_djb (khash_init tagc) key
  let off := header_offset khash
  List.range' (off + 4) 4
    ++ (if uint32_strunpack_bigendian m.map (off + 4) = 0 then [] else List.range' off 4)

/-- The exact value of the 32-bit addition of `mcdb_findtagstart` on lines 57-62,
`m->hpos + (((khash >> 8) % m->hslots) << 3)`, when the line is reached. -/
def findtagstart_sums (m : mcdb) (key : List UInt8) (tagc : UInt8) : List Nat :=
  let khash := uint32_hash_djb (khash_init tagc) key
  let off := header_offset khash
  let hslots := uint32_strunpack_bigendian m.map (off + 4)
  if hslots = 0 then []
  else [uint32_strunpack_bigendian m.map off + (((khash >>> 8) % hslots) <<< 3) % U32]

/-- The byte offsets the key test of `mcdb_findtagnext` (mcdb.c lines 90-92) reads
on the record at `vpos` with key length field `len`: with a tag, the tag byte
`ptr[8]` when `len == klen+1` and then, when the tag is equal, the `klen`
bytes from `ptr+9` that `memcmp` may compare; without a tag, the `klen` bytes
from `ptr+8` when `len == klen`. -/
def key_match_reads (map : mcdb_mmap) (vpos len : Nat) (key : List UInt8) (tagc : UInt8) :
    List Nat :=
  if tagc ≠ 0 then
    if len = key.length + 1 then
      (vpos + 8) :: (if tagc = map.byte (vpos + 8) then List.range' (vpos + 9) key.length else [])
    else []
  else
    if len = key.length then List.range' (vpos + 8) key.length else []

/-- The byte offsets one pass through the body of the loop of `mcdb_findtagnext`
reads from the mapping (mcdb.c lines 78-96), entered with the handle `m`: the
`vpos` field of the slot; when it is not 0 the hash field of the slot; when
the hash is `m->khash` the key length field of the record and the bytes of the
key test; on a match the data length field of the record. -/
def findtagnext_body_reads (m : mcdb) (key : List UInt8) (tagc : UInt8) : List Nat :=
  let vpos := uint32_strunpack_bigendian m.map (m.kpos + 4)
  List.range' (m.kpos + 4) 4
    ++ (if vpos = 0 then []
        else List.range' m.kpos 4
          ++ (if uint32_strunpack_bigendian m.map m.kpos = m.khash then
                List.range' vpos 4
                  ++ key_match_reads m.map vpos (uint32_strunpack_bigendian m.map vpos) key tagc
                  ++ (if key_match m.map vpos (uint32_strunpack_bigendian m.map vpos) key tagc
                      then List.range' (vpos + 4) 4 else [])
              else []))

/-- The exact values of the 32-bit additions one pass through the body of the loop
of `mcdb_findtagnext` evaluates (mcdb.c lines 78-96), entered with the handle
`m`: past a non-empty slot `m->kpos += 8`, `m->hpos + (m->hslots << 3)` and
`m->loop += 1`; on a match `vpos + 8` and `(vpos + 8) + len`. -/
def findtagnext_body_sums (m : mcdb) (key : List UInt8) (tagc : UInt8) : List Nat :=
  let vpos := uint32_strunpack_bigendian m.map (m.kpos + 4)
  if vpos = 0 then []
  else [m.kpos + 8, m.hpos + (m.hslots <<< 3) % U32, m.loop + 1]
    ++ (if uint32_strunpack_bigendian m.map m.kpos = m.khash
          ∧ key_match m.map vpos (uint32_strunpack_bigendian m.map vpos) key tagc = true then
          [vpos + 8, (vpos + 8) % U32 + uint32_strunpack_bigendian m.map vpos]
        else [])

/-! # Theorems -/

/-! ## Byte codec -/

theorem byte_toNat_lt (c : UInt8) : c.toNat < 256 := UInt8.toNat_lt c

theorem uint32_strunpack_bigendian_lt (map : mcdb_mmap) (off : Nat) :
    uint32_strunpack_bigendian map off < U32 := by
  have h0 := byte_toNat_lt (map.byte off)
  have h1 := byte_toNat_lt (map.byte (off + 1))
  have h2 := byte_toNat_lt (map.byte (off + 2))
  have h3 := byte_toNat_lt (map.byte (off + 3))
  unfold uint32_strunpack_bigendian U32
  omega

theorem uint32_hash_djb_uchar_lt (h : Nat) (c : UInt8) : uint32_hash_djb_uchar h c < U32 := by
  unfold uint32_hash_djb_uchar
  have h1 : (h + (h <<< 5) % U32) % U32 < 2 ^ 32 := Nat.mod_lt _ (by decide)
  have h2 : c.toNat < 2 ^ 32 := lt_trans (byte_toNat_lt c) (by decide)
  exact Nat.xor_lt_two_pow h1 h2

theorem uint32_hash_djb_uchar_eq (h : Nat) (c : UInt8) :
    uint32_hash_djb_uchar h c = (h * 33 % U32) ^^^ c.toNat := by
  unfold uint32_hash_djb_uchar U32
  rw [Nat.shiftLeft_eq]
  congr 1
  omega

theorem uint32_hash_djb_lt (h : Nat) (key : List UInt8) (hh : h < U32) :
    uint32_hash_djb h key < U32 := by
  induction key generalizing h with
  | nil => simpa [uint32_hash_djb] using hh
  | cons c cs ih =>
    simp only [uint32_hash_djb, List.foldl_cons]
    exact ih _ (uint32_hash_djb_uchar_lt h c)

theorem khash_init_lt (tagc : UInt8) : khash_init tagc < U32 := by
  unfold khash_init
  split
  · exact uint32_hash_djb_uchar_lt _ _
  · decide

theorem header_offset_eq (khash : Nat) : header_offset khash = (khash &&& 255) * 8 := by
  have h1 : (2047 : Nat) = 2 ^ 11 - 1 := by norm_num
  have h2 : (255 : Nat) = 2 ^ 8 - 1 := by norm_num
  unfold header_offset MCDB_HEADER_MASK U32
  rw [h1, h2, Nat.and_pow_two_sub_one_eq_mod, Nat.and_pow_two_sub_one_eq_mod, Nat.shiftLeft_eq]
  omega

theorem and_255_lt (khash : Nat) : khash &&& 255 < 256 := by
  have h2 : (255 : Nat) = 2 ^ 8 - 1 := by norm_num
  rw [h2, Nat.and_pow_two_sub_one_eq_mod]
  omega

/-! ## mcdb_read -/

theorem bytes_length (map : mcdb_mmap) (off n : Nat) : (map.bytes off n).length = n := by
  simp [mcdb_mmap.bytes]

theorem bytes_succ (map : mcdb_mmap) (off n : Nat) :
    map.bytes off (n + 1) = map.byte off :: map.bytes (off + 1) n := by
  simp [mcdb_mmap.bytes, List.range'_succ]

theorem bytes_getElem (map : mcdb_mmap) (off n i : Nat) (h : i < (map.bytes off n).length) :
    (map.bytes off n)[i] = map.byte (off + i) := by
  simp [mcdb_mmap.bytes]

theorem mcdb_read_some_iff (m : mcdb) (pos len : Nat) (hsize : m.map.size < U32) :
    (mcdb_read m pos len).isSome = true ↔ pos + len ≤ m.map.size := by
  unfold mcdb_read
  simp only [Nat.mod_eq_of_lt hsize]
  split
  · rename_i h
    simp only [Option.isSome_some, true_iff]
    omega
  · rename_i h
    simp only [Option.isSome_none, Bool.false_eq_true, false_iff]
    omega

theorem mcdb_read_some_le (m : mcdb) (pos len : Nat) (h : (mcdb_read m pos len).isSome = true) :
    pos + len ≤ m.map.size := by
  dsimp only [mcdb_read] at h
  have hle : m.map.size % U32 ≤ m.map.size := Nat.mod_le _ _
  split at h
  · omega
  · simp at h

/-- C3. `mcdb_read` is a bounds-checked copy. A request that succeeds lies within
the mapping, the sum `pos + len` being taken in unbounded integers; for a
32-bit mapping size it succeeds exactly when `pos + len ≤ size`; on success
the buffer holds `ptr[pos .. pos+len)` and every offset read is below `size`;
and with `size ≥ 4` the request `(size-3, 4)` returns NULL and `(size-4, 4)`
returns the buffer. -/
theorem mcdb_read_bounds (m : mcdb) (pos len : Nat) :
    ((mcdb_read m pos len).isSome = true → pos + len ≤ m.map.size)
    ∧ (m.map.size < U32 → ((mcdb_read m pos len).isSome = true ↔ pos + len ≤ m.map.size))
    ∧ (∀ buf, mcdb_read m pos len = some buf →
        buf = m.map.bytes pos len ∧ buf.length = len
        ∧ ∀ i, ∀ h : i < buf.length, buf[i] = m.map.byte (pos + i))
    ∧ (∀ o ∈ mcdb_read_offsets m pos len, pos ≤ o ∧ o < pos + len ∧ o < m.map.size)
    ∧ (4 ≤ m.map.size → m.map.size < U32 → mcdb_read m (m.map.size - 3) 4 = none
        ∧ mcdb_read m (m.map.size - 4) 4 = some (m.map.bytes (m.map.size - 4) 4)) := by
  refine ⟨mcdb_read_some_le m pos len, mcdb_read_some_iff m pos len, ?_, ?_, ?_⟩
  · intro buf hbuf
    have hb : buf = m.map.bytes pos len := by
      dsimp only [mcdb_read] at hbuf
      split at hbuf
      · exact (Option.some.inj hbuf).symm
      · exact absurd hbuf (by simp)
    subst hb
    exact ⟨rfl, bytes_length _ _ _, fun i h => bytes_getElem _ _ _ _ h⟩
  · intro o ho
    dsimp only [mcdb_read_offsets] at ho
    have hle : m.map.size % U32 ≤ m.map.size := Nat.mod_le _ _
    split at ho
    · rename_i h
      rw [List.mem_range'_1] at ho
      omega
    · simp at ho
  · intro h4 hsize
    unfold mcdb_read
    simp only [Nat.mod_eq_of_lt hsize]
    constructor
    · rw [if_neg]
      omega
    · rw [if_pos]
      omega

/-- C3, at a mapping of 10 bytes: `(7, 4)` is refused and `(6, 4)` is served. -/
theorem mcdb_read_bounds_witness :
    (mcdb.of_map (mcdb_mmap.of_file (file_of_list [1, 2, 3, 4, 5, 6, 7, 8, 9, 10]) 10)).map.size < U32
    ∧ mcdb_read (mcdb.of_map (mcdb_mmap.of_file (file_of_list [1, 2, 3, 4, 5, 6, 7, 8, 9, 10]) 10)) 7 4
        = none
    ∧ mcdb_read (mcdb.of_map (mcdb_mmap.of_file (file_of_list [1, 2, 3, 4, 5, 6, 7, 8, 9, 10]) 10)) 6 4
        = some [7, 8, 9, 10] :=
  ⟨by decide,
   ((mcdb_read_bounds (mcdb.of_map (mcdb_mmap.of_file
      (file_of_list [1, 2, 3, 4, 5, 6, 7, 8, 9, 10]) 10)) 0 0).2.2.2.2
      (by decide) (by decide)).1,
   by decide⟩

/-! ## mcdb_findtagstart -/

theorem findtagstart_fst (m : mcdb) (key : List UInt8) (tagc : UInt8) :
    (mcdb_findtagstart m key tagc).1
      = !decide (uint32_strunpack_bigendian m.map
          (header_offset (uint32_hash_djb (khash_init tagc) key) + 4) = 0) := by
  dsimp only [mcdb_findtagstart]
  split <;> simp_all

theorem hash_tagged_eq (key : List UInt8) (tagc : UInt8) :
    uint32_hash_djb (khash_init tagc) key
      = uint32_hash_djb UINT32_HASH_DJB_INIT (if tagc ≠ 0 then tagc :: key else key) := by
  unfold khash_init
  split <;> simp [uint32_hash_djb]

theorem shift_slot_lt (khash hslots : Nat) (hk : khash < U32) :
    (((khash >>> 8) % hslots) <<< 3) % U32 = ((khash >>> 8) % hslots) * 8 := by
  rw [Nat.shiftLeft_eq, Nat.shiftRight_eq_div_pow]
  have h1 : khash / 2 ^ 8 % hslots ≤ khash / 2 ^ 8 := Nat.mod_le _ _
  unfold U32 at *
  omega

/-- C6. `mcdb_findtagstart` returns false exactly when the `hslots` field of the
header pair of table `khash & 0xFF` is 0; on a file whose 256 header pairs all
have `hslots = 0` it returns false for every key and tag. -/
theorem findtagstart_false_iff (m : mcdb) (key : List UInt8) (tagc : UInt8) :
    ((mcdb_findtagstart m key tagc).1 = false
      ↔ uint32_strunpack_bigendian m.map
          ((uint32_hash_djb (khash_init tagc) key &&& 0xFF) * 8 + 4) = 0)
    ∧ ((∀ i, i < 256 → uint32_strunpack_bigendian m.map (i * 8 + 4) = 0) →
        ∀ (key1 : List UInt8) (tagc1 : UInt8), (mcdb_findtagstart m key1 tagc1).1 = false) := by
  constructor
  · rw [findtagstart_fst, header_offset_eq]
    simp
  · intro hall key1 tagc1
    rw [findtagstart_fst, header_offset_eq]
    simp [hall _ (and_255_lt _)]

/-- C6, on the file of 2048 zero bytes: every header pair has `hslots = 0` and the
lookup of the key "a" does not start. -/
theorem findtagstart_false_iff_witness :
    (∀ i, i < 256 → uint32_strunpack_bigendian
        (mcdb.of_map (mcdb_mmap.of_file (fun _ => 0) 2048)).map (i * 8 + 4) = 0)
    ∧ (mcdb_findtagstart (mcdb.of_map (mcdb_mmap.of_file (fun _ => 0) 2048)) [97] 0).1 = false :=
  ⟨fun _ _ => by simp [uint32_strunpack_bigendian, mcdb_mmap.byte, mcdb.of_map, mcdb_mmap.of_file],
   (findtagstart_false_iff (mcdb.of_map (mcdb_mmap.of_file (fun _ => 0) 2048)) [] 0).2
     (fun _ _ => by simp [uint32_strunpack_bigendian, mcdb_mmap.byte, mcdb.of_map,
        mcdb_mmap.of_file]) [97] 0⟩

theorem findtagstart_true_fields (m : mcdb) (key : List UInt8) (tagc : UInt8) (m1 : mcdb)
    (h : mcdb_findtagstart m key tagc = (true, m1)) :
    m1.khash = uint32_hash_djb UINT32_HASH_DJB_INIT (if tagc ≠ 0 then tagc :: key else key)
    ∧ m1.khash < U32
    ∧ m1.hpos = uint32_strunpack_bigendian m.map ((m1.khash &&& 0xFF) * 8)
    ∧ m1.hslots = uint32_strunpack_bigendian m.map ((m1.khash &&& 0xFF) * 8 + 4)
    ∧ m1.hslots ≠ 0
    ∧ m1.kpos = (m1.hpos + ((m1.khash >>> 8) % m1.hslots) * 8) % U32
    ∧ m1.loop = 0 := by
  have hlt := uint32_hash_djb_lt _ key (khash_init_lt tagc)
  dsimp only [mcdb_findtagstart] at h
  split at h
  · simp at h
  · rename_i hs
    have h2 := (Prod.mk.inj h).2
    subst h2
    refine ⟨hash_tagged_eq key tagc, hlt, ?_, ?_, ?_, ?_, rfl⟩
    · show uint32_strunpack_bigendian m.map _ = _
      rw [header_offset_eq]
    · show uint32_strunpack_bigendian m.map _ = _
      rw [header_offset_eq]
    · exact hs
    · show (_ + _ % U32) % U32 = _
      rw [shift_slot_lt _ _ hlt]

theorem findtagstart_true_same (m : mcdb) (key : List UInt8) (tagc : UInt8) (m1 : mcdb)
    (h : mcdb_findtagstart m key tagc = (true, m1)) :
    m1.map = m.map ∧ m1.dpos = m.dpos ∧ m1.dlen = m.dlen := by
  dsimp only [mcdb_findtagstart] at h
  split at h
  · simp at h
  · have h2 := (Prod.mk.inj h).2
    subst h2
    exact ⟨rfl, rfl, rfl⟩

/-- C7. The header offset `((khash << 3) mod 2^32) & 2047` is `(khash & 0xFF) * 8`
and at most 2040; and when `mcdb_findtagstart` returns true the handle holds
the DJB2-XOR hash of the tag-prefixed key from seed 5381, `hpos` and `hslots`
read from that header pair, `kpos = hpos + ((khash >> 8) mod hslots) * 8` modulo
2^32 and `loop = 0`. -/
theorem bucket_selection (m : mcdb) (key : List UInt8) (tagc : UInt8) (khash : Nat) :
    header_offset khash = (khash &&& 0xFF) * 8
    ∧ header_offset khash ≤ 2040
    ∧ (∀ m1, mcdb_findtagstart m key tagc = (true, m1) →
        m1.khash = uint32_hash_djb UINT32_HASH_DJB_INIT (if tagc ≠ 0 then tagc :: key else key)
        ∧ m1.khash < U32
        ∧ m1.hpos = uint32_strunpack_bigendian m.map ((m1.khash &&& 0xFF) * 8)
        ∧ m1.hslots = uint32_strunpack_bigendian m.map ((m1.khash &&& 0xFF) * 8 + 4)
        ∧ m1.hslots ≠ 0
        ∧ m1.kpos = (m1.hpos + ((m1.khash >>> 8) % m1.hslots) * 8) % U32
        ∧ m1.loop = 0) := by
  refine ⟨header_offset_eq khash, ?_, findtagstart_true_fields m key tagc⟩
  rw [header_offset_eq]
  have := and_255_lt khash
  omega

/-- C7, on the file of ("a","1"), ("b","2"), ("a","3"): the lookup of "a" starts in
table 196 at `hpos = 2078` with 4 slots, at slot `693 mod 4 = 1`. -/
theorem bucket_selection_witness :
    mcdb_findtagstart (mcdb.of_map file_dup) [97] 0
        = (true, (mcdb_findtagstart (mcdb.of_map file_dup) [97] 0).2)
    ∧ header_offset 177604 = 1568
    ∧ (mcdb_findtagstart (mcdb.of_map file_dup) [97] 0).2.khash = 177604
    ∧ (mcdb_findtagstart (mcdb.of_map file_dup) [97] 0).2.hpos = 2078
    ∧ (mcdb_findtagstart (mcdb.of_map file_dup) [97] 0).2.hslots = 4
    ∧ (mcdb_findtagstart (mcdb.of_map file_dup) [97] 0).2.kpos = 2086
    ∧ (mcdb_findtagstart (mcdb.of_map file_dup) [97] 0).2.loop = 0 :=
  have h := bucket_selection (mcdb.of_map file_dup) [97] 0 177604
  have h2 := h.2.2 _ (show mcdb_findtagstart (mcdb.of_map file_dup) [97] 0
        = (true, (mcdb_findtagstart (mcdb.of_map file_dup) [97] 0).2) from by rfl)
  ⟨by rfl, h.1, h2.1, by decide, by decide, by decide, h2.2.2.2.2.2.2⟩
/-! ## Tags -/

theorem key_match_tagged (map : mcdb_mmap) (vpos len : Nat) (key : List UInt8) (tagc : UInt8)
    (ht : tagc ≠ 0) :
    key_match map vpos len key tagc = key_match map vpos len (tagc :: key) 0 := by
  simp only [key_match, memcmp_eq, ht, ne_eq, not_false_eq_true, if_true, not_true_eq_false,
    if_false, List.length_cons, bytes_succ, List.cons.injEq, Bool.decide_and,
    Bool.and_assoc]

theorem findtagnext_body_tagged (m : mcdb) (key : List UInt8) (tagc : UInt8) (ht : tagc ≠ 0) :
    findtagnext_body m key tagc = findtagnext_body m (tagc :: key) 0 := by
  simp only [findtagnext_body, key_match_tagged _ _ _ _ _ ht]

theorem findtagnext_loop_tagged (fuel : Nat) (m : mcdb) (key : List UInt8) (tagc : UInt8)
    (ht : tagc ≠ 0) :
    findtagnext_loop fuel m key tagc = findtagnext_loop fuel m (tagc :: key) 0 := by
  induction fuel generalizing m with
  | zero => simp [findtagnext_loop]
  | succ n ih =>
    rw [findtagnext_loop, findtagnext_loop]
    simp only [findtagnext_body_tagged m key tagc ht, ih]

theorem mcdb_findtagnext_tagged (m : mcdb) (key : List UInt8) (tagc : UInt8) (ht : tagc ≠ 0) :
    mcdb_findtagnext m key tagc = mcdb_findtagnext m (tagc :: key) 0 := by
  simp only [mcdb_findtagnext, mcdb_findtagnext_trace, findtagnext_loop_tagged _ m key tagc ht]

theorem findtagnext_nth_tagged (i : Nat) (m : mcdb) (key : List UInt8) (tagc : UInt8)
    (ht : tagc ≠ 0) :
    findtagnext_nth i m key tagc = findtagnext_nth i m (tagc :: key) 0 := by
  induction i generalizing m with
  | zero => simp [findtagnext_nth, mcdb_findtagnext_tagged m key tagc ht]
  | succ n ih =>
    rw [findtagnext_nth, findtagnext_nth]
    simp only [mcdb_findtagnext_tagged m key tagc ht, ih]

theorem hash_tagged_cons (key : List UInt8) (tagc : UInt8) (ht : tagc ≠ 0) :
    uint32_hash_djb (khash_init tagc) key = uint32_hash_djb (khash_init 0) (tagc :: key) := by
  simp [khash_init, ht, uint32_hash_djb]

/-- C5. For a non-zero tag `t`, the lookup of `(k, t)` is the untagged lookup of
`t` prepended to `k`: the same hash, and `mcdb_findtagstart`, every call of
`mcdb_findtagnext` and every run of successive calls return the same value and
leave the same handle; with tag 0 no tag byte is hashed, the hash is that of
the key from seed 5381. -/
theorem tagged_lookup_refines (m : mcdb) (key : List UInt8) (tagc : UInt8) (ht : tagc ≠ 0) :
    uint32_hash_djb (khash_init tagc) key = uint32_hash_djb (khash_init 0) (tagc :: key)
    ∧ mcdb_findtagstart m key tagc = mcdb_findtagstart m (tagc :: key) 0
    ∧ mcdb_findtagnext m key tagc = mcdb_findtagnext m (tagc :: key) 0
    ∧ (∀ i, findtagnext_nth i m key tagc = findtagnext_nth i m (tagc :: key) 0)
    ∧ khash_init 0 = 5381
    ∧ (∀ m1, mcdb_findtagstart m key 0 = (true, m1) →
        m1.khash = uint32_hash_djb 5381 key) := by
  refine ⟨hash_tagged_cons key tagc ht, ?_, mcdb_findtagnext_tagged m key tagc ht,
    fun i => findtagnext_nth_tagged i m key tagc ht, rfl, ?_⟩
  · simp only [mcdb_findtagstart, hash_tagged_cons key tagc ht]
  · intro m1 h
    have := (findtagstart_true_fields m key 0 m1 h).1
    simpa [UINT32_HASH_DJB_INIT] using this

/-- C5, on the file of the tagged records: the lookup of "k" with tag 'x' and the
untagged lookup of "xk". -/
theorem tagged_lookup_refines_witness :
    (120 : UInt8) ≠ 0
    ∧ mcdb_findtagstart (mcdb.of_map file_tagged) [107] 120
        = mcdb_findtagstart (mcdb.of_map file_tagged) [120, 107] 0
    ∧ (mcdb_findtagstart (mcdb.of_map file_tagged) [107] 120).1 = true
    ∧ (∀ i, findtagnext_nth i (mcdb_findtagstart (mcdb.of_map file_tagged) [107] 120).2 [107] 120
        = findtagnext_nth i (mcdb_findtagstart (mcdb.of_map file_tagged) [107] 120).2
            [120, 107] 0)
    ∧ (findtagnext_nth 0 (mcdb_findtagstart (mcdb.of_map file_tagged) [107] 120).2
        [107] 120).map (fun r => (r.1, r.2.dpos, r.2.dlen)) = some (true, 2058, 2) :=
  have h := tagged_lookup_refines (mcdb.of_map file_tagged) [107] 120 (by decide)
  have h2 := tagged_lookup_refines (mcdb_findtagstart (mcdb.of_map file_tagged) [107] 120).2
    [107] 120 (by decide)
  ⟨by decide, h.2.1, by decide, h2.2.2.2.1, by decide⟩
/-! ## One pass of the loop of mcdb_findtagnext -/

/-- The handle `mcdb_findtagnext` leaves when the slot at `m.kpos` answers. -/
theorem advance_fields (m : mcdb) :
    (advance m).map = m.map ∧ (advance m).khash = m.khash ∧ (advance m).hpos = m.hpos
    ∧ (advance m).hslots = m.hslots ∧ (advance m).dpos = m.dpos ∧ (advance m).dlen = m.dlen
    ∧ (advance m).loop = (m.loop + 1) % U32 :=
  ⟨rfl, rfl, rfl, rfl, rfl, rfl, rfl⟩

theorem findtagnext_body_cases (m : mcdb) (key : List UInt8) (tagc : UInt8) :
    (slot_vpos m.map m.kpos = 0 ∧ findtagnext_body m key tagc = .ret false m)
    ∨ (slot_vpos m.map m.kpos ≠ 0 ∧ slot_hits m.map m.khash key tagc m.kpos = true
        ∧ findtagnext_body m key tagc = .ret true { advance m with
            dlen := uint32_strunpack_bigendian m.map (slot_vpos m.map m.kpos + 4)
            dpos := (slot_vpos m.map m.kpos + 8
              + uint32_strunpack_bigendian m.map (slot_vpos m.map m.kpos)) % U32 })
    ∨ (slot_vpos m.map m.kpos ≠ 0 ∧ slot_hits m.map m.khash key tagc m.kpos = false
        ∧ findtagnext_body m key tagc = .again (advance m)) := by
  by_cases hv : slot_vpos m.map m.kpos = 0
  · left
    refine ⟨hv, ?_⟩
    unfold slot_vpos at hv
    simp [findtagnext_body, hv]
  · right
    have hv2 : ¬ uint32_strunpack_bigendian m.map (m.kpos + 4) = 0 := hv
    by_cases hk : uint32_strunpack_bigendian m.map m.kpos = m.khash
    · by_cases hm : key_match m.map (slot_vpos m.map m.kpos)
          (uint32_strunpack_bigendian m.map (slot_vpos m.map m.kpos)) key tagc = true
      · left
        refine ⟨hv, by simp [slot_hits, hk, hm], ?_⟩
        have hm2 := hm
        unfold slot_vpos at hm2
        simp only [findtagnext_body, hv2, if_false, (advance_fields m).2.1, hk, if_true, hm2,
          slot_vpos]
      · right
        refine ⟨hv, by simp [slot_hits, hk, hm], ?_⟩
        have hm2 := hm
        unfold slot_vpos at hm2
        simp only [findtagnext_body, hv2, if_false, (advance_fields m).2.1, hk, if_true, hm2]
        simp
    · right
      refine ⟨hv, by simp [slot_hits, hk], ?_⟩
      simp only [findtagnext_body, hv2, if_false, (advance_fields m).2.1, hk]

theorem findtagnext_loop_true_last (fuel : Nat) (m : mcdb) (key : List UInt8) (tagc : UInt8)
    (m1 : mcdb) (tr : List mcdb)
    (h : findtagnext_loop fuel m key tagc = some (true, m1, tr)) :
    ∃ e, tr.getLast? = some e ∧ e.map = m.map ∧ e.khash = m.khash
      ∧ findtagnext_body e key tagc = .ret true m1 := by
  induction fuel generalizing m tr with
  | zero =>
    rw [findtagnext_loop] at h
    split at h <;> simp at h
  | succ n ih =>
    rw [findtagnext_loop] at h
    split at h
    · split at h
      · rename_i rc m2 hb
        simp only [Option.some.injEq, Prod.mk.injEq] at h
        obtain ⟨h1, h2, h3⟩ := h
        subst h1 h2 h3
        exact ⟨m, rfl, rfl, rfl, hb⟩
      · rename_i m2 hb
        split at h
        · rename_i rc m3 tr2 hl
          simp only [Option.some.injEq, Prod.mk.injEq] at h
          obtain ⟨h1, h2, h3⟩ := h
          subst h1 h2 h3
          obtain ⟨e, he1, he2, he3, he4⟩ := ih m2 tr2 hl
          have hadv : m2 = advance m := by
            rcases findtagnext_body_cases m key tagc with h | h | h
            · rw [h.2] at hb; cases hb
            · rw [h.2.2] at hb; cases hb
            · rw [h.2.2] at hb; cases hb; rfl
          refine ⟨e, ?_, ?_, ?_, he4⟩
          · rw [List.getLast?_cons, he1]; rfl
          · rw [he2, hadv]; rfl
          · rw [he3, hadv]; rfl
        · simp at h
    · simp at h

theorem key_match_stored (map : mcdb_mmap) (vpos : Nat) (key : List UInt8) (tagc : UInt8)
    (h : key_match map vpos (uint32_strunpack_bigendian map vpos) key tagc = true) :
    stored_key map vpos (if tagc ≠ 0 then tagc :: key else key) := by
  unfold stored_key
  by_cases ht : tagc = 0
  · simp only [key_match, ht, ne_eq, not_true_eq_false, if_false, memcmp_eq,
      Bool.and_eq_true, decide_eq_true_eq] at h ⊢
    exact ⟨h.1, h.2.symm⟩
  · simp only [key_match, ht, ne_eq, not_false_eq_true, if_true, memcmp_eq, Bool.and_eq_true,
      decide_eq_true_eq, List.length_cons, bytes_succ] at h ⊢
    refine ⟨h.1.1, ?_⟩
    rw [← h.1.2, ← h.2]

theorem stored_key_unique (map : mcdb_mmap) (vpos : Nat) (k1 k2 : List UInt8)
    (h1 : stored_key map vpos k1) (h2 : stored_key map vpos k2) : k1 = k2 := by
  have hl : k1.length = k2.length := by rw [← h1.1, ← h2.1]
  rw [← h1.2, ← h2.2, hl]

/-- C4. When `mcdb_findtagnext` returns true, the record it reports is the one of
the slot examined in its last pass; that record stores the tag followed by the
key (or the key alone for tag 0), so for a non-zero tag it is neither a record
stored with another tag nor the record stored untagged under the key, and for
tag 0 it is not a record stored under the key with a non-zero tag. -/
theorem tag_isolation (m : mcdb) (key : List UInt8) (tagc : UInt8) (m1 : mcdb)
    (tr : List mcdb) (h : mcdb_findtagnext_trace m key tagc = some (true, m1, tr)) :
    ∃ e, tr.getLast? = some e
      ∧ slot_vpos m.map e.kpos ≠ 0
      ∧ m1.dpos = (slot_vpos m.map e.kpos + 8
          + uint32_strunpack_bigendian m.map (slot_vpos m.map e.kpos)) % U32
      ∧ m1.dlen = uint32_strunpack_bigendian m.map (slot_vpos m.map e.kpos + 4)
      ∧ stored_key m.map (slot_vpos m.map e.kpos) (if tagc ≠ 0 then tagc :: key else key)
      ∧ (tagc ≠ 0 → ∀ (t2 : UInt8) (k2 : List UInt8), t2 ≠ tagc →
          ¬ stored_key m.map (slot_vpos m.map e.kpos) (t2 :: k2))
      ∧ (tagc ≠ 0 → ¬ stored_key m.map (slot_vpos m.map e.kpos) key)
      ∧ (tagc = 0 → ∀ t : UInt8, t ≠ 0 →
          ¬ stored_key m.map (slot_vpos m.map e.kpos) (t :: key)) := by
  obtain ⟨e, he1, he2, he3, he4⟩ := findtagnext_loop_true_last _ m key tagc m1 tr h
  refine ⟨e, he1, ?_⟩
  rcases findtagnext_body_cases e key tagc with hc | hc | hc
  · rw [hc.2] at he4; cases he4
  · obtain ⟨hv, hh, hb⟩ := hc
    rw [hb] at he4
    injection he4 with _ hm1
    rw [he2] at hv hh hm1
    have hst : stored_key m.map (slot_vpos m.map e.kpos) (if tagc ≠ 0 then tagc :: key else key) := by
      apply key_match_stored
      simp only [slot_hits, Bool.and_eq_true] at hh
      exact hh.2
    refine ⟨hv, by rw [← hm1], by rw [← hm1], hst, ?_, ?_, ?_⟩
    · intro ht t2 k2 hne hs2
      rw [if_pos ht] at hst
      have := stored_key_unique _ _ _ _ hst hs2
      injection this with h1 h2
      exact hne h1.symm
    · intro ht hs2
      rw [if_pos ht] at hst
      have := congrArg List.length (stored_key_unique _ _ _ _ hst hs2)
      simp at this
    · intro ht t hne hs2
      rw [if_neg (by simpa using ht)] at hst
      have := congrArg List.length (stored_key_unique _ _ _ _ hst hs2)
      simp at this
  · rw [hc.2.2] at he4; cases he4

/-- C4, on the file of the tagged records: the first `mcdb_findtagnext` of "k" with
tag 'x' returns true on the record at 2048, which stores "xk": not a record of
tag 'y', and not the untagged "k". -/
theorem tag_isolation_witness :
    mcdb_findtagnext_trace (mcdb_findtagstart (mcdb.of_map file_tagged) [107] 120).2 [107] 120
      = some (true,
          ((mcdb_findtagnext_trace (mcdb_findtagstart (mcdb.of_map file_tagged) [107] 120).2
            [107] 120).getD (false, mcdb.of_map file_tagged, [])).2.1,
          [(mcdb_findtagstart (mcdb.of_map file_tagged) [107] 120).2])
    ∧ ∃ e, [(mcdb_findtagstart (mcdb.of_map file_tagged) [107] 120).2].getLast? = some e
      ∧ slot_vpos file_tagged e.kpos = 2048
      ∧ stored_key file_tagged (slot_vpos file_tagged e.kpos) [120, 107]
      ∧ ¬ stored_key file_tagged (slot_vpos file_tagged e.kpos) [121, 107]
      ∧ ¬ stored_key file_tagged (slot_vpos file_tagged e.kpos) [107] :=
  have h : mcdb_findtagnext_trace (mcdb_findtagstart (mcdb.of_map file_tagged) [107] 120).2
      [107] 120
      = some (true,
          ((mcdb_findtagnext_trace (mcdb_findtagstart (mcdb.of_map file_tagged) [107] 120).2
            [107] 120).getD (false, mcdb.of_map file_tagged, [])).2.1,
          [(mcdb_findtagstart (mcdb.of_map file_tagged) [107] 120).2]) := by rfl
  ⟨h, (tag_isolation _ [107] 120 _ _ h).imp fun e he =>
    ⟨he.1, by
      have h1 := he.1
      simp only [List.getLast?_singleton, Option.some.injEq] at h1
      subst h1
      decide,
     he.2.2.2.2.1, he.2.2.2.2.2.1 (by decide) 121 [107] (by decide),
     he.2.2.2.2.2.2.1 (by decide)⟩⟩
/-! ## The loop of mcdb_findtagnext -/

theorem findtagnext_loop_run (fuel : Nat) (m : mcdb) (key : List UInt8) (tagc : UInt8)
    (rc : Bool) (m1 : mcdb) (tr : List mcdb)
    (h : findtagnext_loop fuel m key tagc = some (rc, m1, tr)) :
    loop_run key tagc m rc m1 tr := by
  induction fuel generalizing m tr with
  | zero =>
    rw [findtagnext_loop] at h
    split at h
    · simp at h
    · rename_i hlt
      simp only [Option.some.injEq, Prod.mk.injEq] at h
      obtain ⟨h1, h2, h3⟩ := h
      subst h1 h2 h3
      exact .done m hlt
  | succ n ih =>
    rw [findtagnext_loop] at h
    split at h
    · rename_i hlt
      rcases findtagnext_body_cases m key tagc with hc | hc | hc
      · simp only [hc.2, Option.some.injEq, Prod.mk.injEq] at h
        obtain ⟨h1, h2, h3⟩ := h
        subst h1 h2 h3
        exact .empty m hlt hc.1
      · simp only [hc.2.2, Option.some.injEq, Prod.mk.injEq] at h
        obtain ⟨h1, h2, h3⟩ := h
        subst h1 h2 h3
        exact .hit m hlt hc.1 hc.2.1
      · simp only [hc.2.2] at h
        split at h
        · rename_i rc2 m3 tr2 hl
          simp only [Option.some.injEq, Prod.mk.injEq] at h
          obtain ⟨h1, h2, h3⟩ := h
          subst h1 h2 h3
          exact .miss m _ _ _ hlt hc.1 hc.2.1 (ih _ _ hl)
        · simp at h
    · rename_i hlt
      simp only [Option.some.injEq, Prod.mk.injEq] at h
      obtain ⟨h1, h2, h3⟩ := h
      subst h1 h2 h3
      exact .done m hlt

/-- With `hslots` a 32-bit value, `hslots - loop` passes are enough for the loop to
return. -/
theorem findtagnext_loop_returns (fuel : Nat) (m : mcdb) (key : List UInt8) (tagc : UInt8)
    (hty : m.hslots < U32) (hfuel : m.hslots - m.loop ≤ fuel) :
    ∃ rc m1 tr, findtagnext_loop fuel m key tagc = some (rc, m1, tr) := by
  induction fuel generalizing m with
  | zero =>
    rw [findtagnext_loop]
    rw [if_neg (by omega)]
    exact ⟨_, _, _, rfl⟩
  | succ n ih =>
    rw [findtagnext_loop]
    split
    · rename_i hlt
      rcases findtagnext_body_cases m key tagc with hc | hc | hc
      · simp only [hc.2]
        exact ⟨_, _, _, rfl⟩
      · simp only [hc.2.2]
        exact ⟨_, _, _, rfl⟩
      · simp only [hc.2.2]
        have hl : (advance m).loop = m.loop + 1 := by
          show (m.loop + 1) % U32 = m.loop + 1
          apply Nat.mod_eq_of_lt
          omega
        obtain ⟨rc, m1, tr, hr⟩ := ih (advance m) hty (by
          show m.hslots - (advance m).loop ≤ n
          rw [hl]; omega)
        rw [hr]
        exact ⟨_, _, _, rfl⟩
    · exact ⟨_, _, _, rfl⟩

theorem mcdb_findtagnext_trace_returns (m : mcdb) (key : List UInt8) (tagc : UInt8)
    (hty : m.hslots < U32) :
    ∃ rc m1 tr, mcdb_findtagnext_trace m key tagc = some (rc, m1, tr) :=
  findtagnext_loop_returns U32 m key tagc hty (by omega)

/-- What every execution of the loop keeps, whatever the handle and the file: the
mapping and the table fields, at most `hslots - loop` passes, and `loop` at
most `hslots` if it was so before. -/
theorem loop_run_bound (key : List UInt8) (tagc : UInt8) (m : mcdb) (rc : Bool) (m1 : mcdb)
    (tr : List mcdb) (h : loop_run key tagc m rc m1 tr) (hty : m.hslots < U32) :
    m1.map = m.map ∧ m1.khash = m.khash ∧ m1.hpos = m.hpos ∧ m1.hslots = m.hslots
    ∧ tr.length ≤ m.hslots - m.loop ∧ m.loop ≤ m1.loop
    ∧ (m.loop ≤ m.hslots → m1.loop ≤ m.hslots) := by
  induction h with
  | done m hlt => exact ⟨rfl, rfl, rfl, rfl, by simp, le_refl _, fun h => h⟩
  | empty m hlt hv => exact ⟨rfl, rfl, rfl, rfl, by simp; omega, le_refl _, fun h => h⟩
  | hit m hlt hv hh =>
    have hl : (hit_handle m).loop = m.loop + 1 := by
      show (m.loop + 1) % U32 = m.loop + 1
      apply Nat.mod_eq_of_lt
      omega
    refine ⟨rfl, rfl, rfl, rfl, by simp; omega, by omega, fun _ => by omega⟩
  | miss m rc m1 tr hlt hv hh hr ih =>
    have hl : (advance m).loop = m.loop + 1 := by
      show (m.loop + 1) % U32 = m.loop + 1
      apply Nat.mod_eq_of_lt
      omega
    have ih2 := ih hty
    rw [hl] at ih2
    obtain ⟨i1, i2, i3, i4, i5, i6, i7⟩ := ih2
    have e4 : (advance m).hslots = m.hslots := rfl
    rw [e4] at i4 i5 i7
    refine ⟨i1, i2, i3, i4, ?_, by omega, fun _ => i7 (by omega)⟩
    simp only [List.length_cons]
    omega
/-! ## The cursor on a table in 32-bit range -/

theorem succ_mod_cases (a n : Nat) (hn : n ≠ 0) :
    (a % n + 1 = n ∧ (a + 1) % n = 0) ∨ (a % n + 1 < n ∧ (a + 1) % n = a % n + 1) := by
  have hlt : a % n < n := Nat.mod_lt _ (Nat.pos_of_ne_zero hn)
  have hdiv := Nat.div_add_mod a n
  by_cases h : a % n + 1 = n
  · left
    refine ⟨h, ?_⟩
    have : a + 1 = n * (a / n + 1) := by rw [Nat.mul_add, Nat.mul_one]; omega
    rw [this, Nat.mul_mod_right]
  · right
    refine ⟨by omega, ?_⟩
    have : a + 1 = n * (a / n) + (a % n + 1) := by omega
    rw [this, Nat.mul_add_mod, Nat.mod_eq_of_lt (by omega)]

theorem probe_pos_lt (hpos hslots khash j : Nat) (hn : hslots ≠ 0) :
    hpos ≤ probe_pos hpos hslots khash j
    ∧ probe_pos hpos hslots khash j + 8 ≤ hpos + 8 * hslots := by
  unfold probe_pos
  have : ((khash >>> 8) % hslots + j) % hslots < hslots := Nat.mod_lt _ (Nat.pos_of_ne_zero hn)
  omega

theorem advance_ok (m : mcdb) (hok : cursor_ok m) (hlt : m.loop < m.hslots) :
    cursor_ok (advance m) ∧ (advance m).loop = m.loop + 1 := by
  obtain ⟨hn, hext, hle, hk⟩ := hok
  have hl : (advance m).loop = m.loop + 1 := by
    show (m.loop + 1) % U32 = m.loop + 1
    apply Nat.mod_eq_of_lt
    omega
  refine ⟨⟨hn, hext, by rw [hl]; exact hlt, ?_⟩, hl⟩
  rw [hl]
  show (if (m.kpos + 8) % U32 = (m.hpos + (m.hslots <<< 3) % U32) % U32 then m.hpos
      else (m.kpos + 8) % U32) = probe_pos m.hpos m.hslots m.khash (m.loop + 1)
  have hb := probe_pos_lt m.hpos m.hslots m.khash m.loop hn
  rw [← hk] at hb
  have h8 : m.hslots <<< 3 = 8 * m.hslots := by rw [Nat.shiftLeft_eq]; omega
  have e1 : (m.kpos + 8) % U32 = m.kpos + 8 := Nat.mod_eq_of_lt (by omega)
  have e2 : (m.hpos + (m.hslots <<< 3) % U32) % U32 = m.hpos + 8 * m.hslots := by
    rw [h8, Nat.mod_eq_of_lt (by omega : 8 * m.hslots < U32), Nat.mod_eq_of_lt hext]
  rw [e1, e2]
  unfold probe_pos at hk ⊢
  rw [← Nat.add_assoc]
  rcases succ_mod_cases ((m.khash >>> 8) % m.hslots + m.loop) m.hslots hn with h | h
  · rw [h.2, if_pos (by omega)]
    rfl
  · rw [h.2, if_neg (by omega)]
    omega

theorem hit_handle_fields (m : mcdb) :
    (hit_handle m).map = m.map ∧ (hit_handle m).khash = m.khash ∧ (hit_handle m).hpos = m.hpos
    ∧ (hit_handle m).hslots = m.hslots ∧ (hit_handle m).loop = (advance m).loop
    ∧ (hit_handle m).kpos = (advance m).kpos :=
  ⟨rfl, rfl, rfl, rfl, rfl, rfl⟩

theorem hit_handle_ok (m : mcdb) (hok : cursor_ok m) (hlt : m.loop < m.hslots) :
    cursor_ok (hit_handle m) ∧ (hit_handle m).loop = m.loop + 1 :=
  advance_ok m hok hlt

theorem probe_run_done (m : mcdb) (h : ¬ m.loop < m.hslots) : probe_run m = [] := by
  unfold probe_run
  have : m.hslots - m.loop = 0 := by omega
  rw [this]
  rfl

theorem probe_run_step (m : mcdb) (hok : cursor_ok m) (hlt : m.loop < m.hslots) :
    probe_run m = if slot_vpos m.map m.kpos ≠ 0 then m.kpos :: probe_run (advance m) else [] := by
  have hl := (advance_ok m hok hlt).2
  have hs : m.hslots - m.loop = (m.hslots - (m.loop + 1)) + 1 := by omega
  have hr : probe_run (advance m)
      = ((List.range' (m.loop + 1) (m.hslots - (m.loop + 1))).map
          (probe_pos m.hpos m.hslots m.khash)).takeWhile
            fun p => decide (slot_vpos m.map p ≠ 0) := by
    unfold probe_run
    rw [hl]
    rfl
  rw [hr]
  unfold probe_run
  rw [hs, List.range'_succ, List.map_cons, List.takeWhile_cons, ← hok.2.2.2]
  by_cases hv : slot_vpos m.map m.kpos = 0
  · simp [hv]
  · simp [hv]

theorem probe_hits_done (m : mcdb) (key : List UInt8) (tagc : UInt8) (h : ¬ m.loop < m.hslots) :
    probe_hits m key tagc = [] := by
  unfold probe_hits
  rw [probe_run_done m h]
  rfl

theorem probe_hits_same (m : mcdb) (key : List UInt8) (tagc : UInt8) :
    probe_hits (hit_handle m) key tagc = probe_hits (advance m) key tagc := rfl

theorem probe_hits_step (m : mcdb) (key : List UInt8) (tagc : UInt8) (hok : cursor_ok m)
    (hlt : m.loop < m.hslots) :
    probe_hits m key tagc =
      if slot_vpos m.map m.kpos ≠ 0 then
        (if slot_hits m.map m.khash key tagc m.kpos = true
          then m.kpos :: probe_hits (advance m) key tagc
          else probe_hits (advance m) key tagc)
      else [] := by
  unfold probe_hits
  rw [probe_run_step m hok hlt]
  by_cases hv : slot_vpos m.map m.kpos = 0
  · simp [hv]
  · simp only [ne_eq, hv, not_false_eq_true, if_true, List.filter_cons]
    rfl

/-- One call of `mcdb_findtagnext` on a cursor in 32-bit range: a true return
reports the first slot of `probe_hits` and leaves the handle before the
remaining ones; a false return means `probe_hits` is empty, stays empty, and
`dpos` and `dlen` are left as they were. -/
theorem loop_run_hits (key : List UInt8) (tagc : UInt8) (m : mcdb) (rc : Bool) (m1 : mcdb)
    (tr : List mcdb) (h : loop_run key tagc m rc m1 tr) (hok : cursor_ok m) :
    cursor_ok m1 ∧ m1.map = m.map
    ∧ (rc = true → ∃ p, probe_hits m key tagc = p :: probe_hits m1 key tagc
        ∧ slot_vpos m.map p ≠ 0
        ∧ m1.dpos = (slot_vpos m.map p + 8 + uint32_strunpack_bigendian m.map (slot_vpos m.map p))
            % U32
        ∧ m1.dlen = uint32_strunpack_bigendian m.map (slot_vpos m.map p + 4))
    ∧ (rc = false → probe_hits m key tagc = [] ∧ probe_hits m1 key tagc = []
        ∧ m1.dpos = m.dpos ∧ m1.dlen = m.dlen) := by
  induction h with
  | done m hlt =>
    exact ⟨hok, rfl, by simp, fun _ => ⟨probe_hits_done m key tagc hlt,
      probe_hits_done m key tagc hlt, rfl, rfl⟩⟩
  | empty m hlt hv =>
    have : probe_hits m key tagc = [] := by
      rw [probe_hits_step m key tagc hok hlt]
      simp [hv]
    exact ⟨hok, rfl, by simp, fun _ => ⟨this, this, rfl, rfl⟩⟩
  | hit m hlt hv hh =>
    refine ⟨(hit_handle_ok m hok hlt).1, rfl, fun _ => ⟨m.kpos, ?_, hv, rfl, rfl⟩, by simp⟩
    rw [probe_hits_step m key tagc hok hlt, probe_hits_same]
    simp [hv, hh]
  | miss m rc m1 tr hlt hv hh hr ih =>
    obtain ⟨i1, i2, i3, i4⟩ := ih (advance_ok m hok hlt).1
    have hstep : probe_hits m key tagc = probe_hits (advance m) key tagc := by
      rw [probe_hits_step m key tagc hok hlt]
      simp [hv, hh]
    have emap : (advance m).map = m.map := rfl
    have edpos : (advance m).dpos = m.dpos := rfl
    have edlen : (advance m).dlen = m.dlen := rfl
    rw [emap] at i2 i3
    rw [edpos, edlen] at i4
    rw [← hstep] at i3 i4
    exact ⟨i1, i2, i3, i4⟩
/-! ## Successive calls -/

theorem mcdb_findtagnext_run (m : mcdb) (key : List UInt8) (tagc : UInt8)
    (hty : m.hslots < U32) :
    ∃ rc m1 tr, mcdb_findtagnext_trace m key tagc = some (rc, m1, tr)
      ∧ mcdb_findtagnext m key tagc = some (rc, m1) ∧ loop_run key tagc m rc m1 tr := by
  obtain ⟨rc, m1, tr, h⟩ := mcdb_findtagnext_trace_returns m key tagc hty
  refine ⟨rc, m1, tr, h, ?_, findtagnext_loop_run _ m key tagc rc m1 tr h⟩
  simp [mcdb_findtagnext, h]

theorem cursor_ok_hslots_lt (m : mcdb) (hok : cursor_ok m) : m.hslots < U32 := by
  have := hok.2.1
  omega

/-- The call number `i + 1` on a cursor in 32-bit range returns, and returns true
exactly while `i` is below the number of slots of `probe_hits`; the true
return number `i + 1` reports the record of the slot number `i` of them. -/
theorem findtagnext_nth_hits (i : Nat) (m : mcdb) (key : List UInt8) (tagc : UInt8)
    (hok : cursor_ok m) :
    ∃ rc m1, findtagnext_nth i m key tagc = some (rc, m1)
      ∧ (∀ h : i < (probe_hits m key tagc).length,
          rc = true
          ∧ m1.dpos = (slot_vpos m.map (probe_hits m key tagc)[i] + 8
              + uint32_strunpack_bigendian m.map (slot_vpos m.map (probe_hits m key tagc)[i]))
              % U32
          ∧ m1.dlen
              = uint32_strunpack_bigendian m.map (slot_vpos m.map (probe_hits m key tagc)[i] + 4))
      ∧ ((probe_hits m key tagc).length ≤ i → rc = false) := by
  induction i generalizing m with
  | zero =>
    obtain ⟨rc, m1, tr, _, h2, hr⟩ := mcdb_findtagnext_run m key tagc (cursor_ok_hslots_lt m hok)
    obtain ⟨_, _, ht, hf⟩ := loop_run_hits key tagc m rc m1 tr hr hok
    refine ⟨rc, m1, by rw [findtagnext_nth, h2], ?_, ?_⟩
    · intro hlen
      cases rc with
      | true =>
        obtain ⟨p, hp, _, hd, hl⟩ := ht rfl
        simp only [hp, List.getElem_cons_zero]
        exact ⟨trivial, hd, hl⟩
      | false =>
        rw [(hf rfl).1] at hlen
        simp at hlen
    · intro hlen
      cases rc with
      | true =>
        obtain ⟨p, hp, _⟩ := ht rfl
        rw [hp] at hlen
        simp at hlen
      | false => rfl
  | succ n ih =>
    obtain ⟨rc, m1, tr, _, h2, hr⟩ := mcdb_findtagnext_run m key tagc (cursor_ok_hslots_lt m hok)
    obtain ⟨hok1, hmap, ht, hf⟩ := loop_run_hits key tagc m rc m1 tr hr hok
    obtain ⟨rc2, m2, hn, hA, hB⟩ := ih m1 hok1
    refine ⟨rc2, m2, by rw [findtagnext_nth, h2]; exact hn, ?_, ?_⟩
    · intro hlen
      cases rc with
      | true =>
        obtain ⟨p, hp, _⟩ := ht rfl
        have hlen2 : n < (probe_hits m1 key tagc).length := by
          rw [hp] at hlen
          simpa using hlen
        have := hA hlen2
        simp only [hp, List.getElem_cons_succ]
        rw [hmap] at this
        exact this
      | false =>
        rw [(hf rfl).1] at hlen
        simp at hlen
    · intro hlen
      cases rc with
      | true =>
        obtain ⟨p, hp, _⟩ := ht rfl
        apply hB
        rw [hp] at hlen
        simp only [List.length_cons] at hlen
        omega
      | false =>
        apply hB
        rw [(hf rfl).2.1]
        simp

theorem findtagstart_cursor_ok (m : mcdb) (key : List UInt8) (tagc : UInt8) (m0 : mcdb)
    (hs : mcdb_findtagstart m key tagc = (true, m0)) (hext : m0.hpos + 8 * m0.hslots < U32) :
    cursor_ok m0 := by
  obtain ⟨_, _, _, _, hn, hk, hl⟩ := findtagstart_true_fields m key tagc m0 hs
  refine ⟨hn, hext, by rw [hl]; omega, ?_⟩
  rw [hk, hl]
  unfold probe_pos
  have hlt : (m0.khash >>> 8) % m0.hslots < m0.hslots := Nat.mod_lt _ (Nat.pos_of_ne_zero hn)
  rw [Nat.add_zero, Nat.mod_mod, Nat.mod_eq_of_lt (by omega)]
  omega

theorem probe_pos_inj (hpos hslots khash j1 j2 : Nat) (h1 : j1 < hslots) (h2 : j2 < hslots)
    (h : probe_pos hpos hslots khash j1 = probe_pos hpos hslots khash j2) : j1 = j2 := by
  unfold probe_pos at h
  have h3 : ((khash >>> 8) % hslots + j1) % hslots = ((khash >>> 8) % hslots + j2) % hslots := by
    omega
  have h4 : j1 % hslots = j2 % hslots := Nat.ModEq.add_left_cancel' _ h3
  rwa [Nat.mod_eq_of_lt h1, Nat.mod_eq_of_lt h2] at h4

theorem probe_order_nodup (hpos hslots khash a n : Nat) (h : a + n ≤ hslots) :
    ((List.range' a n).map (probe_pos hpos hslots khash)).Nodup := by
  apply List.Nodup.map_on
  · intro x hx y hy hxy
    rw [List.mem_range'_1] at hx hy
    exact probe_pos_inj hpos hslots khash x y (by omega) (by omega) hxy
  · exact List.nodup_range' a n

theorem probe_hits_nodup (m : mcdb) (key : List UInt8) (tagc : UInt8) :
    (probe_hits m key tagc).Nodup := by
  unfold probe_hits probe_run
  apply List.Nodup.sublist (List.filter_sublist _)
  apply List.Nodup.sublist (List.takeWhile_sublist _)
  by_cases h : m.loop ≤ m.hslots
  · exact probe_order_nodup _ _ _ _ _ (by omega)
  · have : m.hslots - m.loop = 0 := by omega
    rw [this]
    simp
/-- C1, as amended. After `mcdb_findtagstart` returns true on a table whose extent
`hpos + 8 * hslots` is below 2^32, the successive calls of `mcdb_findtagnext`
with the same arguments all return; they return true exactly once for each slot
of `probe_hits`, in probe order: the slots of the probe order from slot
`(khash >> 8) mod hslots`, at most `hslots` in all, that precede the first
empty slot, whose stored hash is `khash` and whose record key matches. These
slots are pairwise distinct. The true return number `i + 1` reports the record
of slot number `i`, and with `n` such slots the call `n + 1` and every later
call return false. -/
theorem findtagnext_enumerates (m : mcdb) (key : List UInt8) (tagc : UInt8) (m0 : mcdb)
    (hs : mcdb_findtagstart m key tagc = (true, m0)) (hext : m0.hpos + 8 * m0.hslots < U32) :
    probe_hits m0 key tagc
      = ((((List.range m0.hslots).map (probe_pos m0.hpos m0.hslots m0.khash)).takeWhile
          fun p => decide (slot_vpos m.map p ≠ 0)).filter (slot_hits m.map m0.khash key tagc))
    ∧ (probe_hits m0 key tagc).Nodup
    ∧ ∀ i, ∃ rc m1, findtagnext_nth i m0 key tagc = some (rc, m1)
        ∧ (∀ h : i < (probe_hits m0 key tagc).length,
            rc = true
            ∧ m1.dpos = (slot_vpos m.map (probe_hits m0 key tagc)[i] + 8
                + uint32_strunpack_bigendian m.map (slot_vpos m.map (probe_hits m0 key tagc)[i]))
                % U32
            ∧ m1.dlen = uint32_strunpack_bigendian m.map
                (slot_vpos m.map (probe_hits m0 key tagc)[i] + 4))
        ∧ ((probe_hits m0 key tagc).length ≤ i → rc = false) := by
  have hmap := (findtagstart_true_same m key tagc m0 hs).1
  have hl := (findtagstart_true_fields m key tagc m0 hs).2.2.2.2.2.2
  refine ⟨?_, probe_hits_nodup m0 key tagc, ?_⟩
  · unfold probe_hits probe_run
    rw [hl, hmap, Nat.sub_zero, List.range_eq_range']
  · intro i
    have := findtagnext_nth_hits i m0 key tagc (findtagstart_cursor_ok m key tagc m0 hs hext)
    rw [hmap] at this
    exact this

/-- C1, on the file of ("a","1"), ("b","2"), ("a","3"): the lookup of "a" has the two
answering slots 2086 and 2094, and every call from the third on returns false. -/
theorem findtagnext_enumerates_witness :
    mcdb_findtagstart (mcdb.of_map file_dup) [97] 0 = (true, start_dup_a)
    ∧ start_dup_a.hpos + 8 * start_dup_a.hslots < U32
    ∧ probe_hits start_dup_a [97] 0 = [2086, 2094]
    ∧ ∀ i, ∃ rc m1, findtagnext_nth i start_dup_a [97] 0 = some (rc, m1)
        ∧ (2 ≤ i → rc = false) :=
  ⟨by rfl, by decide, by decide, fun i =>
    have h := (findtagnext_enumerates (mcdb.of_map file_dup) [97] 0 start_dup_a (by rfl)
      (by decide)).2.2 i
    have hlen : (probe_hits start_dup_a [97] 0).length = 2 := by decide
    h.imp fun _ h1 => h1.imp fun _ h2 => ⟨h2.1, fun hi => h2.2.2 (by rw [hlen]; exact hi)⟩⟩

/-- C1 as stated fails on `file_wrap`, a file of 2072 bytes whose header pair 0
announces `2^29 + 1` slots at 2048. The lookup of "ootpwgq" starts; of the
slots of the probe order before the first empty one only the slot at 2048
answers; yet the first, the second and the third call of `mcdb_findtagnext`
all return true on that slot, because `hslots << 3` is 8 in 32-bit arithmetic
and the cursor wraps to `hpos` after one slot. -/
theorem findtagnext_enumerates_counterexample :
    mcdb_findtagstart (mcdb.of_map file_wrap) key_hash0 0 = (true, start_wrap)
    ∧ start_wrap.hpos = 2048 ∧ start_wrap.hslots = 536870913 ∧ start_wrap.kpos = 2048
    ∧ probe_hits start_wrap key_hash0 0 = [2048]
    ∧ (findtagnext_nth 0 start_wrap key_hash0 0).map (fun r => (r.1, r.2.kpos, r.2.dpos, r.2.dlen))
        = some (true, 2048, 2071, 1)
    ∧ (findtagnext_nth 1 start_wrap key_hash0 0).map (fun r => (r.1, r.2.kpos, r.2.dpos, r.2.dlen))
        = some (true, 2048, 2071, 1)
    ∧ (findtagnext_nth 2 start_wrap key_hash0 0).map (fun r => (r.1, r.2.kpos, r.2.dpos, r.2.dlen))
        = some (true, 2048, 2071, 1) := by
  refine ⟨by rfl, by decide, by decide, by decide, by decide, by decide, by decide, by decide⟩
/-! ## Round trip -/

theorem probe_hits_first (j : Nat) (m : mcdb) (key : List UInt8) (tagc : UInt8)
    (hok : cursor_ok m) (hj : m.loop + j < m.hslots)
    (hbefore : ∀ i, i < j →
      slot_vpos m.map (probe_pos m.hpos m.hslots m.khash (m.loop + i)) ≠ 0
      ∧ slot_hits m.map m.khash key tagc (probe_pos m.hpos m.hslots m.khash (m.loop + i)) = false)
    (hv : slot_vpos m.map (probe_pos m.hpos m.hslots m.khash (m.loop + j)) ≠ 0)
    (hh : slot_hits m.map m.khash key tagc (probe_pos m.hpos m.hslots m.khash (m.loop + j)) = true) :
    ∃ rest, probe_hits m key tagc = probe_pos m.hpos m.hslots m.khash (m.loop + j) :: rest := by
  induction j generalizing m with
  | zero =>
    rw [Nat.add_zero] at hv hh ⊢
    rw [← hok.2.2.2] at hv hh ⊢
    rw [probe_hits_step m key tagc hok (by omega)]
    simp only [ne_eq, hv, not_false_eq_true, if_true, hh]
    exact ⟨_, rfl⟩
  | succ n ih =>
    have h0 := hbefore 0 (by omega)
    rw [Nat.add_zero, ← hok.2.2.2] at h0
    obtain ⟨hok1, hl1⟩ := advance_ok m hok (by omega)
    have e : ∀ i, (advance m).loop + i = m.loop + (i + 1) := by intro i; rw [hl1]; omega
    have := ih (advance m) hok1 (by rw [e]; exact hj)
      (by intro i hi; rw [e]; exact hbefore (i + 1) (by omega))
      (by rw [e]; exact hv) (by rw [e]; exact hh)
    obtain ⟨rest, hr⟩ := this
    rw [e] at hr
    refine ⟨rest, ?_⟩
    rw [probe_hits_step m key tagc hok (by omega)]
    simp only [ne_eq, h0.1, not_false_eq_true, if_true, h0.2, Bool.false_eq_true, if_false]
    exact hr

theorem stored_key_match (map : mcdb_mmap) (vpos : Nat) (key : List UInt8)
    (h : stored_key map vpos key) :
    key_match map vpos (uint32_strunpack_bigendian map vpos) key 0 = true := by
  simp [key_match, memcmp_eq, h.1, h.2]

/-- C2. Round trip over the file format. On a file of size below 2^32 whose table
for `hash(k) & 0xFF` lies within the file, if the slot in probe position `j`
of that table is `(hash(k), vpos)`, the record at `vpos ≠ 0` stores `(k, v)`
within the file, and the slots in the probe positions before `j` are non-empty
and point to records whose key is not `k`, then `mcdb_findtagstart(k, 0)`
returns true, the first `mcdb_findtagnext(k, 0)` returns true with
`dpos = vpos + 8 + |k|` and `dlen = |v|`, and `mcdb_read(dpos, dlen)` returns
the bytes of `v`. -/
theorem round_trip (m : mcdb) (k v : List UInt8) (vpos j khash hpos hslots : Nat)
    (hsize : m.map.size < U32)
    (hkh : khash = uint32_hash_djb UINT32_HASH_DJB_INIT k)
    (hhp : hpos = uint32_strunpack_bigendian m.map ((khash &&& 0xFF) * 8))
    (hhs : hslots = uint32_strunpack_bigendian m.map ((khash &&& 0xFF) * 8 + 4))
    (htab : hpos + 8 * hslots ≤ m.map.size)
    (hj : j < hslots)
    (hslot : uint32_strunpack_bigendian m.map (probe_pos hpos hslots khash j) = khash
      ∧ slot_vpos m.map (probe_pos hpos hslots khash j) = vpos)
    (hv0 : vpos ≠ 0)
    (hkey : stored_key m.map vpos k)
    (hval : uint32_strunpack_bigendian m.map (vpos + 4) = v.length
      ∧ m.map.bytes (vpos + 8 + k.length) v.length = v)
    (hin : vpos + 8 + k.length + v.length ≤ m.map.size)
    (hbefore : ∀ i, i < j → slot_vpos m.map (probe_pos hpos hslots khash i) ≠ 0
      ∧ ¬ stored_key m.map (slot_vpos m.map (probe_pos hpos hslots khash i)) k) :
    ∃ m0 m1, mcdb_findtagstart m k 0 = (true, m0)
      ∧ mcdb_findtagnext m0 k 0 = some (true, m1)
      ∧ m1.dpos = vpos + 8 + k.length ∧ m1.dlen = v.length
      ∧ mcdb_read m1 m1.dpos m1.dlen = some v := by
  have hfst : (mcdb_findtagstart m k 0).1 = true := by
    rw [findtagstart_fst, header_offset_eq]
    have : khash_init 0 = UINT32_HASH_DJB_INIT := rfl
    rw [this, ← hkh, ← hhs]
    simp only [Bool.not_eq_true', decide_eq_false_iff_not]
    omega
  have hs : mcdb_findtagstart m k 0 = (true, (mcdb_findtagstart m k 0).2) := by
    rw [← hfst]
  generalize (mcdb_findtagstart m k 0).2 = m0 at hs
  obtain ⟨f1, _, f3, f4, _, _, f7⟩ := findtagstart_true_fields m k 0 m0 hs
  have hmap := (findtagstart_true_same m k 0 m0 hs).1
  have ek : m0.khash = khash := by rw [f1, hkh]; rfl
  have ehp : m0.hpos = hpos := by rw [f3, ek, hhp]
  have ehs : m0.hslots = hslots := by rw [f4, ek, hhs]
  have hok : cursor_ok m0 := findtagstart_cursor_ok m k 0 m0 hs (by rw [ehp, ehs]; omega)
  have hvj : slot_vpos m.map (probe_pos hpos hslots khash j) ≠ 0 := by rw [hslot.2]; exact hv0
  obtain ⟨rest, hrest⟩ := probe_hits_first j m0 k 0 hok (by rw [f7, ehs]; omega)
    (by
      intro i hi
      rw [f7, Nat.zero_add, hmap, ek, ehp, ehs]
      refine ⟨(hbefore i hi).1, ?_⟩
      cases hc : slot_hits m.map khash k 0 (probe_pos hpos hslots khash i) with
      | false => rfl
      | true =>
        exfalso
        simp only [slot_hits, Bool.and_eq_true] at hc
        exact (hbefore i hi).2 (by simpa using key_match_stored _ _ _ _ hc.2))
    (by rw [f7, Nat.zero_add, hmap, ehp, ehs, ek]; exact hvj)
    (by
      rw [f7, Nat.zero_add, hmap, ehp, ehs, ek]
      simp only [slot_hits, hslot.1, decide_True, Bool.true_and, hslot.2]
      exact stored_key_match _ _ _ hkey)
  rw [f7, Nat.zero_add, ehp, ehs, ek] at hrest
  obtain ⟨rc, m1, hn, hA, _⟩ := findtagnext_nth_hits 0 m0 k 0 hok
  have hlen : 0 < (probe_hits m0 k 0).length := by rw [hrest]; simp
  obtain ⟨hrc, hdpos, hdlen⟩ := hA hlen
  simp only [hrest, List.getElem_cons_zero, hmap, hslot.2, hkey.1] at hdpos hdlen
  subst hrc
  rw [findtagnext_nth] at hn
  have hm1 : m1.map = m.map := by
    obtain ⟨rc2, m2, tr, _, h2, hr⟩ := mcdb_findtagnext_run m0 k 0 (cursor_ok_hslots_lt m0 hok)
    rw [hn] at h2
    simp only [Option.some.injEq, Prod.mk.injEq] at h2
    obtain ⟨h2a, h2b⟩ := h2
    subst h2a h2b
    rw [(loop_run_hits k 0 m0 _ _ tr hr hok).2.1, hmap]
  have hd : m1.dpos = vpos + 8 + k.length := by
    rw [hdpos]
    apply Nat.mod_eq_of_lt
    omega
  refine ⟨m0, m1, hs, hn, hd, by rw [hdlen, hval.1], ?_⟩
  rw [hd, hdlen, hval.1]
  unfold mcdb_read
  rw [hm1]
  simp only [Nat.mod_eq_of_lt hsize]
  rw [if_pos (by omega), hval.2]

/-- C2, on the file of ("a","1"), ("b","2"), ("a","3"): the record ("b","2") at 2058
is found through slot 1 of table 199, the first slot probed, and read back. -/
theorem round_trip_witness :
    (mcdb.of_map file_dup).map.size < U32
    ∧ (2110 : Nat) + 8 * 2 ≤ (mcdb.of_map file_dup).map.size
    ∧ stored_key (mcdb.of_map file_dup).map 2058 [98]
    ∧ ∃ m0 m1, mcdb_findtagstart (mcdb.of_map file_dup) [98] 0 = (true, m0)
        ∧ mcdb_findtagnext m0 [98] 0 = some (true, m1)
        ∧ m1.dpos = 2067 ∧ m1.dlen = 1
        ∧ mcdb_read m1 m1.dpos m1.dlen = some [50] :=
  ⟨by decide, by decide, ⟨by decide, by decide⟩,
   round_trip (mcdb.of_map file_dup) [98] [50] 2058 0 177607 2110 2 (by decide) (by decide)
    (by decide) (by decide) (by decide) (by decide) ⟨by decide, by decide⟩ (by decide)
    ⟨by decide, by decide⟩ ⟨by decide, by decide⟩ (by decide)
    (fun i hi => absurd hi (Nat.not_lt_zero i))⟩
/-! ## The slots examined -/

/-- The passes of one call: each is entered with `loop < hslots` at a larger
`loop` than the one before, and a pass that finds a non-empty slot is entered
at a `loop` below the one the call leaves. -/
theorem loop_run_trace (key : List UInt8) (tagc : UInt8) (m : mcdb) (rc : Bool) (m1 : mcdb)
    (tr : List mcdb) (h : loop_run key tagc m rc m1 tr) (hty : m.hslots < U32) :
    (∀ e ∈ tr, e.map = m.map ∧ e.khash = m.khash ∧ e.hpos = m.hpos ∧ e.hslots = m.hslots
        ∧ m.loop ≤ e.loop ∧ e.loop < m.hslots
        ∧ (slot_vpos e.map e.kpos ≠ 0 → e.loop < m1.loop)
        ∧ (cursor_ok m → e.kpos = probe_pos m.hpos m.hslots m.khash e.loop))
    ∧ (tr.map fun e => e.loop).Pairwise (· < ·) := by
  induction h with
  | done m hlt => simp
  | empty m hlt hv =>
    refine ⟨?_, by simp⟩
    intro e he
    simp only [List.mem_singleton] at he
    subst he
    exact ⟨rfl, rfl, rfl, rfl, le_refl _, hlt, fun h => absurd hv h, fun hok => hok.2.2.2⟩
  | hit m hlt hv hh =>
    refine ⟨?_, by simp⟩
    intro e he
    simp only [List.mem_singleton] at he
    subst he
    have hl : (hit_handle e).loop = e.loop + 1 := by
      show (e.loop + 1) % U32 = e.loop + 1
      apply Nat.mod_eq_of_lt
      omega
    exact ⟨rfl, rfl, rfl, rfl, le_refl _, hlt, fun _ => by omega, fun hok => hok.2.2.2⟩
  | miss m rc m1 tr hlt hv hh hr ih =>
    have hl : (advance m).loop = m.loop + 1 := by
      show (m.loop + 1) % U32 = m.loop + 1
      apply Nat.mod_eq_of_lt
      omega
    obtain ⟨i1, i2⟩ := ih hty
    have hb := loop_run_bound key tagc _ _ _ _ hr hty
    rw [hl] at hb
    constructor
    · intro e he
      rcases List.mem_cons.mp he with he | he
      · subst he
        exact ⟨rfl, rfl, rfl, rfl, le_refl _, hlt, fun _ => by omega, fun hok => hok.2.2.2⟩
      · obtain ⟨j1, j2, j3, j4, j5, j6, j7, j8⟩ := i1 e he
        rw [hl] at j5
        exact ⟨j1, j2, j3, j4, by omega, j6, j7, fun hok => j8 (advance_ok m hok hlt).1⟩
    · rw [List.map_cons, List.pairwise_cons]
      refine ⟨?_, i2⟩
      intro a ha
      obtain ⟨e, he, rfl⟩ := List.mem_map.mp ha
      have := (i1 e he).2.2.2.2.1
      rw [hl] at this
      omega

/-- The passes of `n` successive calls: all are entered with `loop < hslots`, and the
passes that find a non-empty slot are entered at strictly increasing `loop`. -/
theorem calls_trace_spec (n : Nat) (m : mcdb) (key : List UInt8) (tagc : UInt8)
    (hty : m.hslots < U32) :
    ∃ T, findtagnext_calls_trace n m key tagc = some T
      ∧ (∀ e ∈ T, e.map = m.map ∧ e.hslots = m.hslots ∧ m.loop ≤ e.loop ∧ e.loop < m.hslots
          ∧ (cursor_ok m → e.kpos = probe_pos m.hpos m.hslots m.khash e.loop))
      ∧ ((T.filter fun e => decide (slot_vpos e.map e.kpos ≠ 0)).map fun e => e.loop).Pairwise
          (· < ·) := by
  induction n generalizing m with
  | zero => exact ⟨[], rfl, by simp, by simp⟩
  | succ k ih =>
    obtain ⟨rc, m1, tr, h1, _, hr⟩ := mcdb_findtagnext_run m key tagc hty
    obtain ⟨b1, b2, b3, b4, _, b6, _⟩ := loop_run_bound key tagc m rc m1 tr hr hty
    obtain ⟨t1, t2⟩ := loop_run_trace key tagc m rc m1 tr hr hty
    obtain ⟨T, hT, u1, u2⟩ := ih m1 (by rw [b4]; exact hty)
    refine ⟨tr ++ T, by simp only [findtagnext_calls_trace, h1, hT], ?_, ?_⟩
    · intro e he
      rcases List.mem_append.mp he with he | he
      · obtain ⟨j1, _, _, j4, j5, j6, _, j8⟩ := t1 e he
        exact ⟨j1, j4, j5, j6, j8⟩
      · obtain ⟨j1, j2, j3, j4, j5⟩ := u1 e he
        refine ⟨by rw [j1, b1], by rw [j2, b4], by omega, by rw [← b4]; exact j4, ?_⟩
        intro hok
        have := j5 (loop_run_hits key tagc m rc m1 tr hr hok).1
        rw [b2, b3, b4] at this
        exact this
    · rw [List.filter_append, List.map_append, List.pairwise_append]
      refine ⟨?_, u2, ?_⟩
      · exact List.Pairwise.sublist
          (List.Sublist.map _ (List.filter_sublist _)) t2
      · intro a ha b hb
        obtain ⟨e, he, rfl⟩ := List.mem_map.mp ha
        obtain ⟨f, hf, rfl⟩ := List.mem_map.mp hb
        rw [List.mem_filter] at he hf
        have h3 := (t1 e he.1).2.2.2.2.2.2.1 (by simpa using he.2)
        have h4 := (u1 f hf.1).2.2.1
        omega

theorem increasing_length_le (l : List Nat) (n : Nat) (hp : l.Pairwise (· < ·))
    (hb : ∀ a ∈ l, a < n) : l.length ≤ n := by
  have hnd : l.Nodup := hp.imp fun h => Nat.ne_of_lt h
  have hsub : l ⊆ List.range n := fun a ha => List.mem_range.mpr (hb a ha)
  have := (List.subperm_of_subset hnd hsub).length_le
  simpa using this
theorem findtagnext_nth_bound (i : Nat) (m : mcdb) (key : List UInt8) (tagc : UInt8)
    (hty : m.hslots < U32) (hle : m.loop ≤ m.hslots) :
    ∃ rc m1, findtagnext_nth i m key tagc = some (rc, m1) ∧ m1.hslots = m.hslots
      ∧ m1.loop ≤ m.hslots := by
  induction i generalizing m with
  | zero =>
    obtain ⟨rc, m1, tr, _, h2, hr⟩ := mcdb_findtagnext_run m key tagc hty
    obtain ⟨_, _, _, b4, _, _, b7⟩ := loop_run_bound key tagc m rc m1 tr hr hty
    exact ⟨rc, m1, by rw [findtagnext_nth, h2], b4, b7 hle⟩
  | succ k ih =>
    obtain ⟨rc, m1, tr, _, h2, hr⟩ := mcdb_findtagnext_run m key tagc hty
    obtain ⟨_, _, _, b4, _, _, b7⟩ := loop_run_bound key tagc m rc m1 tr hr hty
    obtain ⟨rc2, m2, hn, c1, c2⟩ := ih m1 (by rw [b4]; exact hty) (by rw [b4]; exact b7 hle)
    exact ⟨rc2, m2, by simp only [findtagnext_nth, h2, hn], by rw [c1, b4], by rw [← b4]; exact c2⟩

theorem loop_run_empty (key : List UInt8) (tagc : UInt8) (m : mcdb) (rc : Bool) (m1 : mcdb)
    (tr : List mcdb) (h : loop_run key tagc m rc m1 tr) :
    ∀ e ∈ tr, slot_vpos e.map e.kpos = 0 → rc = false ∧ m1 = e := by
  induction h with
  | done m hlt => simp
  | empty m hlt hv =>
    intro e he _
    rw [List.mem_singleton] at he
    exact ⟨rfl, he.symm⟩
  | hit m hlt hv hh =>
    intro e he h0
    rw [List.mem_singleton] at he
    subst he
    exact absurd h0 hv
  | miss m rc m1 tr hlt hv hh hr ih =>
    intro e he h0
    rcases List.mem_cons.mp he with he | he
    · subst he
      exact absurd h0 hv
    · exact ih e he h0

theorem findtagnext_trace_empty (m : mcdb) (key : List UInt8) (tagc : UInt8)
    (hlt : m.loop < m.hslots) (hv : slot_vpos m.map m.kpos = 0) :
    mcdb_findtagnext_trace m key tagc = some (false, m, [m]) := by
  unfold mcdb_findtagnext_trace
  rw [show U32 = 4294967295 + 1 from rfl, findtagnext_loop, if_pos hlt]
  unfold slot_vpos at hv
  simp only [findtagnext_body, hv, if_true]

theorem calls_trace_empty (n : Nat) (m : mcdb) (key : List UInt8) (tagc : UInt8)
    (hlt : m.loop < m.hslots) (hv : slot_vpos m.map m.kpos = 0) :
    findtagnext_calls_trace n m key tagc = some (List.replicate n m) := by
  induction n with
  | zero => rfl
  | succ k ih =>
    simp only [findtagnext_calls_trace, findtagnext_trace_empty m key tagc hlt hv, ih]
    rfl

/-- C8, as amended. A call of `mcdb_findtagnext` on a handle whose `hslots` is a
32-bit value returns after at most `hslots - loop` passes of its loop, hence at
most `hslots`, whatever the file holds. Over the calls that follow one
`mcdb_findtagstart`, `loop` never exceeds `hslots`, every pass is entered with
`loop < hslots`, at most `hslots` passes find a non-empty slot, and on a table
with `hpos + 8 * hslots < 2^32` the non-empty slots examined are pairwise
distinct. A pass that finds an empty slot makes its call return false and
leave the handle the pass was entered with, `kpos` and `loop` not advanced; so
every later call, whatever its key and tag, makes one pass, on that slot
again, returns false and leaves the same handle: the passes of `n` later
calls are `n` passes entered with that handle. -/
theorem probe_bound (m : mcdb) (key : List UInt8) (tagc : UInt8) (hty : m.hslots < U32) :
    (∃ rc m1 tr, mcdb_findtagnext_trace m key tagc = some (rc, m1, tr)
        ∧ mcdb_findtagnext m key tagc = some (rc, m1)
        ∧ tr.length ≤ m.hslots - m.loop ∧ tr.length ≤ m.hslots)
    ∧ (∀ m0, mcdb_findtagstart m key tagc = (true, m0) →
        (∀ i, ∃ rc m1, findtagnext_nth i m0 key tagc = some (rc, m1)
          ∧ m1.hslots = m0.hslots ∧ m1.loop ≤ m0.hslots)
        ∧ ∀ n, ∃ T, findtagnext_calls_trace n m0 key tagc = some T
            ∧ (∀ e ∈ T, e.loop < m0.hslots)
            ∧ (T.filter fun e => decide (slot_vpos e.map e.kpos ≠ 0)).length ≤ m0.hslots
            ∧ (m0.hpos + 8 * m0.hslots < U32 →
                ((T.filter fun e => decide (slot_vpos e.map e.kpos ≠ 0)).map
                  fun e => e.kpos).Nodup))
    ∧ (∀ rc m1 tr, mcdb_findtagnext_trace m key tagc = some (rc, m1, tr) →
        ∀ e ∈ tr, slot_vpos e.map e.kpos = 0 →
          rc = false ∧ m1 = e
          ∧ (∀ (key1 : List UInt8) (tagc1 : UInt8),
              mcdb_findtagnext_trace m1 key1 tagc1 = some (false, m1, [e]))
          ∧ ∀ n, findtagnext_calls_trace n m1 key tagc = some (List.replicate n e)) := by
  refine ⟨?_, ?_, ?_⟩
  · obtain ⟨rc, m1, tr, h1, h2, hr⟩ := mcdb_findtagnext_run m key tagc hty
    have hb := (loop_run_bound key tagc m rc m1 tr hr hty).2.2.2.2.1
    exact ⟨rc, m1, tr, h1, h2, hb, by omega⟩
  rotate_left
  · intro rc m1 tr h e he hv
    have hr := findtagnext_loop_run _ m key tagc rc m1 tr h
    obtain ⟨hrc, hm1⟩ := loop_run_empty key tagc m rc m1 tr hr e he hv
    obtain ⟨_, _, _, j4, _, j6, _, _⟩ := (loop_run_trace key tagc m rc m1 tr hr hty).1 e he
    have hlt : e.loop < e.hslots := by rw [j4]; exact j6
    subst hm1
    exact ⟨hrc, rfl, fun key1 tagc1 => findtagnext_trace_empty m1 key1 tagc1 hlt hv,
      fun n => calls_trace_empty n m1 key tagc hlt hv⟩
  · intro m0 hs
    obtain ⟨_, _, _, f4, _, _, f7⟩ := findtagstart_true_fields m key tagc m0 hs
    have hty0 : m0.hslots < U32 := by rw [f4]; exact uint32_strunpack_bigendian_lt _ _
    refine ⟨fun i => findtagnext_nth_bound i m0 key tagc hty0 (by omega), ?_⟩
    intro n
    obtain ⟨T, hT, u1, u2⟩ := calls_trace_spec n m0 key tagc hty0
    refine ⟨T, hT, fun e he => (u1 e he).2.2.2.1, ?_, ?_⟩
    · have := increasing_length_le _ m0.hslots u2 (by
        intro a ha
        obtain ⟨e, he, rfl⟩ := List.mem_map.mp ha
        exact (u1 e (List.mem_filter.mp he).1).2.2.2.1)
      simpa using this
    · intro hext
      have hok := findtagstart_cursor_ok m key tagc m0 hs hext
      have hmap : (T.filter fun e => decide (slot_vpos e.map e.kpos ≠ 0)).map (fun e => e.kpos)
          = ((T.filter fun e => decide (slot_vpos e.map e.kpos ≠ 0)).map fun e => e.loop).map
              (probe_pos m0.hpos m0.hslots m0.khash) := by
        rw [List.map_map]
        apply List.map_congr_left
        intro e he
        exact (u1 e (List.mem_filter.mp he).1).2.2.2.2 hok
      rw [hmap]
      apply List.Nodup.map_on
      · intro x hx y hy hxy
        obtain ⟨e, he, rfl⟩ := List.mem_map.mp hx
        obtain ⟨f, hf, rfl⟩ := List.mem_map.mp hy
        exact probe_pos_inj _ _ _ _ _ (u1 e (List.mem_filter.mp he).1).2.2.2.1
          (u1 f (List.mem_filter.mp hf).1).2.2.2.1 hxy
      · exact u2.imp fun h => Nat.ne_of_lt h

/-- C8, on the file of ("a","1"), ("b","2"), ("a","3"): the first call after the start
of the lookup of "a" makes one pass, and four successive calls enter passes
with `loop < 4` only. From the handle `empty_dup_a` the second true return
leaves (`kpos = 2102`, `loop = 2`), the call finds the empty slot at 2102,
returns false and leaves that handle, and so does every later call. -/
theorem probe_bound_witness :
    start_dup_a.hslots < U32
    ∧ (mcdb.of_map file_dup).hslots < U32
    ∧ mcdb_findtagstart (mcdb.of_map file_dup) [97] 0 = (true, start_dup_a)
    ∧ (∃ rc m1 tr, mcdb_findtagnext_trace start_dup_a [97] 0 = some (rc, m1, tr)
        ∧ mcdb_findtagnext start_dup_a [97] 0 = some (rc, m1)
        ∧ tr.length ≤ start_dup_a.hslots - start_dup_a.loop ∧ tr.length ≤ start_dup_a.hslots)
    ∧ (∃ T, findtagnext_calls_trace 4 start_dup_a [97] 0 = some T
        ∧ ∀ e ∈ T, e.loop < start_dup_a.hslots)
    ∧ empty_dup_a.hslots < U32
    ∧ (empty_dup_a.kpos, empty_dup_a.loop, slot_vpos empty_dup_a.map empty_dup_a.kpos)
        = (2102, 2, 0)
    ∧ mcdb_findtagnext_trace empty_dup_a [97] 0 = some (false, empty_dup_a, [empty_dup_a])
    ∧ (∀ (key1 : List UInt8) (tagc1 : UInt8),
        mcdb_findtagnext_trace empty_dup_a key1 tagc1 = some (false, empty_dup_a, [empty_dup_a]))
    ∧ ∀ n, findtagnext_calls_trace n empty_dup_a [97] 0 = some (List.replicate n empty_dup_a) :=
  ⟨by decide, by decide, by rfl, (probe_bound start_dup_a [97] 0 (by decide)).1,
   (((probe_bound (mcdb.of_map file_dup) [97] 0 (by decide)).2.1 start_dup_a (by rfl)).2 4).imp
     fun _ h => ⟨h.1, h.2.1⟩,
   by decide, by decide, by rfl,
   ((probe_bound empty_dup_a [97] 0 (by decide)).2.2 false empty_dup_a [empty_dup_a] (by rfl)
      empty_dup_a (List.mem_singleton.mpr rfl) (by decide)).2.2.1,
   ((probe_bound empty_dup_a [97] 0 (by decide)).2.2 false empty_dup_a [empty_dup_a] (by rfl)
      empty_dup_a (List.mem_singleton.mpr rfl) (by decide)).2.2.2⟩

/-- C8 as stated fails. On the file of ("a","1"), ("b","2"), ("a","3"), after the start
of the lookup of "a" (table at 2078, 4 slots), the third call finds the empty
slot at 2102 and returns false, and the fourth call examines the slot at 2102
again. On `file_wrap`, whose header announces `2^29 + 1` slots at 2048, the
first two calls of the lookup of "ootpwgq" both examine the non-empty slot at
2048, at `loop = 0` and at `loop = 1`. -/
theorem probe_bound_counterexample :
    mcdb_findtagstart (mcdb.of_map file_dup) [97] 0 = (true, start_dup_a)
    ∧ start_dup_a.hpos = 2078 ∧ start_dup_a.hslots = 4
    ∧ (findtagnext_calls_trace 4 start_dup_a [97] 0).map
        (fun T => T.map fun e => (e.kpos, e.loop))
        = some [(2086, 0), (2094, 1), (2102, 2), (2102, 2)]
    ∧ (findtagnext_nth 2 start_dup_a [97] 0).map (fun r => (r.1, r.2.kpos, r.2.loop))
        = some (false, 2102, 2)
    ∧ (findtagnext_nth 3 start_dup_a [97] 0).map (fun r => (r.1, r.2.kpos, r.2.loop))
        = some (false, 2102, 2)
    ∧ mcdb_findtagstart (mcdb.of_map file_wrap) key_hash0 0 = (true, start_wrap)
    ∧ start_wrap.hpos = 2048 ∧ start_wrap.hslots = 536870913
    ∧ (findtagnext_calls_trace 2 start_wrap key_hash0 0).map
        (fun T => T.map fun e => (e.kpos, e.loop, slot_vpos e.map e.kpos))
        = some [(2048, 0, 2056), (2048, 1, 2056)] := by
  refine ⟨by rfl, by decide, by decide, by decide, by decide, by decide, by rfl, by decide,
    by decide, by decide⟩
/-! ## The registry -/

/-- C9 fails on the code. The creator maps generation 0 in slot 0, a reader
registers on it in slot 1, and the creator reopens twice. The second reopen
moves slot 0 from generation 1 to generation 2, which brings the refcnt of
generation 1 to 0 and frees it, while generation 0, still held by the reader
with refcnt 1, keeps `next` pointing to it. The reader's next registration
walks from generation 0 through the freed struct to the tail, and its
reclaiming loop finds the freed struct at `next` with refcnt 0 and passes it to
`fn_free` a second time. -/
theorem refcount_double_free :
    (run_ops registry.init ops_two_reopens).map (fun r => (r.1, r.2.slots 0, r.2.slots 1))
      = some ([true, true, true, true, true], some 2, some 0)
    ∧ (run_ops registry.init ops_two_reopens).map (fun r => (r.2.view 0, r.2.view 1, r.2.view 2))
      = some ((true, 1, some 1), (false, 0, some 2), (true, 1, none))
    ∧ (run_ops registry.init ops_two_reopens).map (fun r => r.2.freed) = some [1]
    ∧ (run_ops registry.init (ops_two_reopens ++ [.register 1])).map
        (fun r => (r.1, r.2.slots 0, r.2.slots 1))
      = some ([true, true, true, true, true, true], some 2, some 2)
    ∧ (run_ops registry.init (ops_two_reopens ++ [.register 1])).map (fun r => r.2.freed)
      = some [1, 1, 0] := by
  refine ⟨by decide, by decide, by decide, by decide, by decide⟩

@[simp] theorem upd_same {α : Type} (f : Nat → α) (a : Nat) (v : α) : upd f a v a = v := by
  simp [upd]

@[simp] theorem upd_ne {α : Type} (f : Nat → α) (a b : Nat) (v : α) (h : b ≠ a) :
    upd f a v b = f b := by
  simp [upd, h]

theorem unmap_links (st : registry) (map : Nat) :
    (∀ b, ((mcdb_mmap_unmap st map).heap b).refcnt = (st.heap b).refcnt
      ∧ ((mcdb_mmap_unmap st map).heap b).next = (st.heap b).next
      ∧ ((mcdb_mmap_unmap st map).heap b).fn_free = (st.heap b).fn_free)
    ∧ (mcdb_mmap_unmap st map).slots = st.slots
    ∧ (mcdb_mmap_unmap st map).nalloc = st.nalloc := by
  unfold mcdb_mmap_unmap registry.modify
  refine ⟨?_, ?_, ?_⟩
  · intro b
    by_cases hb : b = map
    · subst hb
      split <;> simp
    · split <;> simp [hb]
  · split <;> rfl
  · split <;> rfl

theorem free_links (st : registry) (map : Nat) :
    (∀ b, ((mcdb_mmap_free st map).heap b).refcnt = (st.heap b).refcnt
      ∧ ((mcdb_mmap_free st map).heap b).next = (st.heap b).next)
    ∧ (mcdb_mmap_free st map).slots = st.slots
    ∧ (mcdb_mmap_free st map).nalloc = st.nalloc := by
  obtain ⟨u1, u2, u3⟩ := unmap_links st map
  unfold mcdb_mmap_free
  simp only []
  split
  · split
    · rename_i b hb
      refine ⟨?_, u2, u3⟩
      intro c
      simp only [registry.modify]
      by_cases hc : c = map
      · subst hc
        simp [(u1 c).1, (u1 c).2.1]
      · simp [hc, (u1 c).1, (u1 c).2.1]
    · exact ⟨fun c => ⟨(u1 c).1, (u1 c).2.1⟩, u2, u3⟩
  · exact ⟨fun c => ⟨(u1 c).1, (u1 c).2.1⟩, u2, u3⟩
/-! ## Chains of generations -/

theorem tail_at_unique (heap : Nat → mcdb_mmap) (n a k1 t1 : Nat) (h1 : tail_at heap n a k1 t1) :
    ∀ k2 t2, tail_at heap n a k2 t2 → k1 = k2 ∧ t1 = t2 := by
  induction h1 with
  | here a ha hn =>
    intro k2 t2 h2
    cases h2 with
    | here _ _ _ => exact ⟨rfl, rfl⟩
    | step _ b k t _ hb _ => rw [hn] at hb; cases hb
  | step a b k t ha hb hr ih =>
    intro k2 t2 h2
    cases h2 with
    | here _ _ hn => rw [hn] at hb; cases hb
    | step _ b2 k3 t3 _ hb2 hr2 =>
      rw [hb] at hb2
      cases hb2
      obtain ⟨e1, e2⟩ := ih _ _ hr2
      exact ⟨by rw [e1], e2⟩

theorem tail_at_lt (heap : Nat → mcdb_mmap) (n a k t : Nat) (h : tail_at heap n a k t) : a < n := by
  cases h with
  | here _ ha _ => exact ha
  | step _ _ _ _ ha _ _ => exact ha

theorem tail_at_tail (heap : Nat → mcdb_mmap) (n a k t : Nat) (h : tail_at heap n a k t) :
    (heap t).next = none ∧ t < n := by
  induction h with
  | here a ha hn => exact ⟨hn, ha⟩
  | step a b k t ha hb hr ih => exact ih

/-- A chain keeps its shape in a heap that has the same `next` at every struct
other than `a`, when `a` is not within `k` steps of a tail. -/
theorem tail_at_congr (heap heap1 : Nat → mcdb_mmap) (n a b k t : Nat)
    (h : tail_at heap n b k t)
    (hsame : ∀ c, c ≠ a → (heap1 c).next = (heap c).next)
    (hfar : ∀ j t1, j ≤ k → ¬ tail_at heap n a j t1) :
    tail_at heap1 n b k t := by
  induction h with
  | here c hc hn =>
    have hne : c ≠ a := by
      intro e
      subst e
      exact hfar 0 c (le_refl _) (.here c hc hn)
    exact .here c hc (by rw [hsame c hne]; exact hn)
  | step c d k t hc hd hr ih =>
    have hne : c ≠ a := by
      intro e
      subst e
      exact hfar (k + 1) t (le_refl _) (.step c d k t hc hd hr)
    exact .step c d k t hc (by rw [hsame c hne]; exact hd)
      (ih fun j t1 hj => hfar j t1 (by omega))

theorem tail_at_same_next (heap heap1 : Nat → mcdb_mmap) (n b k t : Nat)
    (h : tail_at heap n b k t) (hsame : ∀ c, (heap1 c).next = (heap c).next) :
    tail_at heap1 n b k t := by
  induction h with
  | here c hc hn => exact .here c hc (by rw [hsame c]; exact hn)
  | step c d k t hc hd hr ih => exact .step c d k t hc (by rw [hsame c]; exact hd) ih

/-- The structs of a chain are pairwise distinct addresses below `n`, so a chain
of `k` steps has `k < n`. -/
theorem tail_at_steps_lt (heap : Nat → mcdb_mmap) (n a k t : Nat) (h : tail_at heap n a k t) :
    ∃ s : Finset Nat, s.card = k + 1
      ∧ ∀ c ∈ s, c < n ∧ ∃ j t1, j ≤ k ∧ tail_at heap n c j t1 := by
  induction h with
  | here c hc hn =>
    refine ⟨{c}, by simp, ?_⟩
    intro d hd
    rw [Finset.mem_singleton] at hd
    subst hd
    exact ⟨hc, 0, d, le_refl _, .here d hc hn⟩
  | step c d k t hc hd hr ih =>
    obtain ⟨s, hs1, hs2⟩ := ih
    have hnot : c ∉ s := by
      intro hin
      obtain ⟨_, j, t1, hj, htj⟩ := hs2 c hin
      have := (tail_at_unique heap n c j t1 htj (k + 1) t (.step c d k t hc hd hr)).1
      omega
    refine ⟨insert c s, by rw [Finset.card_insert_of_not_mem hnot, hs1], ?_⟩
    intro e he
    rcases Finset.mem_insert.mp he with he | he
    · subst he
      exact ⟨hc, k + 1, t, le_refl _, .step e d k t hc hd hr⟩
    · obtain ⟨h1, j, t1, hj, htj⟩ := hs2 e he
      exact ⟨h1, j, t1, by omega, htj⟩

theorem tail_at_lt_nalloc (heap : Nat → mcdb_mmap) (n a k t : Nat) (h : tail_at heap n a k t) :
    k < n := by
  obtain ⟨s, hs1, hs2⟩ := tail_at_steps_lt heap n a k t h
  have hsub : s ⊆ Finset.range n := fun c hc => Finset.mem_range.mpr (hs2 c hc).1
  have := Finset.card_le_card hsub
  rw [hs1, Finset.card_range] at this
  omega

theorem chain_tail_of_tail_at (heap : Nat → mcdb_mmap) (n b k t : Nat)
    (h : tail_at heap n b k t) : ∀ fuel, k < fuel → chain_tail heap fuel b = some t := by
  induction h with
  | here c hc hn =>
    intro fuel hf
    obtain ⟨f, rfl⟩ : ∃ f, fuel = f + 1 := ⟨fuel - 1, by omega⟩
    simp [chain_tail, hn]
  | step c d k t hc hd hr ih =>
    intro fuel hf
    obtain ⟨f, rfl⟩ : ∃ f, fuel = f + 1 := ⟨fuel - 1, by omega⟩
    simp only [chain_tail, hd]
    exact ih f (by omega)
/-! ## The reclaiming loop and the release of a reference -/

theorem modify_heap_same (st : registry) (a : Nat) (f : mcdb_mmap → mcdb_mmap) :
    (st.modify a f).heap a = f (st.heap a) := by
  simp [registry.modify]

theorem modify_heap_ne (st : registry) (a b : Nat) (f : mcdb_mmap → mcdb_mmap) (h : b ≠ a) :
    (st.modify a f).heap b = st.heap b := by
  simp [registry.modify, h]

/-- One pass of the reclaiming loop on `map` with `next = b`: no `refcnt` changes,
no `next` other than the one of `map`, which becomes `x`. -/
theorem reclaim_step_links (st : registry) (map b : Nat) (x : Option Nat) (hne : b ≠ map) :
    (∀ c, ((mcdb_mmap_free ((st.modify map fun mp => { mp with next := x }).modify b
        fun mp => { mp with fname := .null }) b).heap c).refcnt = (st.heap c).refcnt)
    ∧ (∀ c, c ≠ map → ((mcdb_mmap_free ((st.modify map fun mp => { mp with next := x }).modify b
        fun mp => { mp with fname := .null }) b).heap c).next = (st.heap c).next)
    ∧ ((mcdb_mmap_free ((st.modify map fun mp => { mp with next := x }).modify b
        fun mp => { mp with fname := .null }) b).heap map).next = x
    ∧ (mcdb_mmap_free ((st.modify map fun mp => { mp with next := x }).modify b
        fun mp => { mp with fname := .null }) b).slots = st.slots
    ∧ (mcdb_mmap_free ((st.modify map fun mp => { mp with next := x }).modify b
        fun mp => { mp with fname := .null }) b).nalloc = st.nalloc := by
  obtain ⟨f1, f2, f3⟩ := free_links ((st.modify map fun mp => { mp with next := x }).modify b
        fun mp => { mp with fname := .null }) b
  refine ⟨?_, ?_, ?_, ?_, ?_⟩
  · intro c
    rw [(f1 c).1]
    by_cases h1 : c = b
    · subst h1
      rw [modify_heap_same, modify_heap_ne _ _ _ _ hne]
    · rw [modify_heap_ne _ _ _ _ h1]
      by_cases h2 : c = map
      · subst h2
        rw [modify_heap_same]
      · rw [modify_heap_ne _ _ _ _ h2]
  · intro c hc
    rw [(f1 c).2]
    by_cases h1 : c = b
    · subst h1
      rw [modify_heap_same, modify_heap_ne _ _ _ _ hne]
    · rw [modify_heap_ne _ _ _ _ h1, modify_heap_ne _ _ _ _ hc]
  · rw [(f1 map).2, modify_heap_ne _ _ _ _ (Ne.symm hne), modify_heap_same]
  · rw [f2]
    rfl
  · rw [f3]
    rfl

/-- On a chain that ends, the reclaiming loop returns, and it changes no `refcnt`
and no slot. -/
theorem reclaim_loop_returns (k : Nat) : ∀ (fuel : Nat) (st : registry) (map t : Nat),
    tail_at st.heap st.nalloc map k t → k ≤ fuel →
    ∃ st1, reclaim_loop fuel st map = some st1
      ∧ (∀ b, (st1.heap b).refcnt = (st.heap b).refcnt)
      ∧ st1.slots = st.slots ∧ st1.nalloc = st.nalloc := by
  induction k with
  | zero =>
    intro fuel st map t h _
    cases h with
    | here _ _ hn =>
      refine ⟨st, ?_, fun _ => rfl, rfl, rfl⟩
      unfold reclaim_loop
      simp [hn]
  | succ k ih =>
    intro fuel st map t h hf
    cases h with
    | step _ b _ _ hm hb hr =>
      by_cases hz : (st.heap b).refcnt = 0
      · obtain ⟨f, rfl⟩ : ∃ f, fuel = f + 1 := ⟨fuel - 1, by omega⟩
        have hne : b ≠ map := by
          intro e
          subst e
          have := (tail_at_unique _ _ _ _ _ hr (k + 1) t (.step b b k t hm hb hr)).1
          omega
        obtain ⟨l1, l2, l3, l4, l5⟩ := reclaim_step_links st map b (st.heap b).next hne
        have hchain : ∃ t1, tail_at (mcdb_mmap_free ((st.modify map fun mp =>
            { mp with next := (st.heap b).next }).modify b
            fun mp => { mp with fname := .null }) b).heap
            (mcdb_mmap_free ((st.modify map fun mp =>
            { mp with next := (st.heap b).next }).modify b
            fun mp => { mp with fname := .null }) b).nalloc map k t1 := by
          rw [l5]
          cases hr with
          | here _ hb2 hn =>
            exact ⟨map, .here map hm (by rw [l3, hn])⟩
          | step _ c k2 _ hb2 hc hr2 =>
            refine ⟨t, .step map c k2 t hm (by rw [l3, hc]) ?_⟩
            apply tail_at_congr st.heap _ st.nalloc map c k2 t hr2 l2
            intro j t1 hj hmj
            have := (tail_at_unique _ _ _ _ _ hmj (k2 + 1 + 1) t
              (.step map b (k2 + 1) t hm hb (.step b c k2 t hb2 hc hr2))).1
            omega
        obtain ⟨t1, ht1⟩ := hchain
        obtain ⟨st1, r1, r2, r3, r4⟩ := ih f _ map t1 ht1 (by omega)
        refine ⟨st1, ?_, ?_, by rw [r3, l4], by rw [r4, l5]⟩
        · rw [reclaim_loop]
          simp only [hb, hz, if_true]
          exact r1
        · intro c
          rw [r2 c, l1 c]
      · refine ⟨st, ?_, fun _ => rfl, rfl, rfl⟩
        unfold reclaim_loop
        simp [hb, hz]

/-- Dropping the reference of `map` on a chain that ends: the call returns true,
the `refcnt` of `map` is decremented and no other `refcnt` changes; when
registering, no slot changes. -/
theorem registration_release_spec (st : registry) (map mapptr : Nat) (flags : mcdb_flags)
    (k t : Nat) (h : tail_at st.heap st.nalloc map k t) :
    ∃ st1, registration_release st map mapptr flags = some (true, st1)
      ∧ (st1.heap map).refcnt = decr32 (st.heap map).refcnt
      ∧ (∀ b, b ≠ map → (st1.heap b).refcnt = (st.heap b).refcnt)
      ∧ (flags.use_incr = true → st1.slots = st.slots) := by
  have hk := tail_at_lt_nalloc _ _ _ _ _ h
  have hchain : tail_at (st.modify map fun mp => { mp with refcnt := decr32 mp.refcnt }).heap
      st.nalloc map k t := by
    apply tail_at_same_next st.heap _ _ _ _ _ h
    intro c
    by_cases hc : c = map
    · subst hc
      rw [modify_heap_same]
    · rw [modify_heap_ne _ _ _ _ hc]
  obtain ⟨st3, r1, r2, r3, r4⟩ := reclaim_loop_returns k st.nalloc
    (st.modify map fun mp => { mp with refcnt := decr32 mp.refcnt }) map t hchain (by omega)
  have e2 : ∀ b, (st3.heap b).refcnt
      = ((st.modify map fun mp => { mp with refcnt := decr32 mp.refcnt }).heap b).refcnt := r2
  unfold registration_release
  simp only []
  split
  · have r1b : reclaim_loop (st.modify map fun mp => { mp with refcnt := decr32 mp.refcnt }).nalloc
        (st.modify map fun mp => { mp with refcnt := decr32 mp.refcnt }) map = some st3 := r1
    rw [r1b]
    simp only []
    obtain ⟨f1, f2, f3⟩ := free_links (st3.modify map fun mp => { mp with fname := .null }) map
    have e4 : ∀ b, ((mcdb_mmap_free (st3.modify map fun mp => { mp with fname := .null })
        map).heap b).refcnt = (st3.heap b).refcnt := by
      intro b
      rw [(f1 b).1]
      by_cases hb : b = map
      · subst hb
        rw [modify_heap_same]
      · rw [modify_heap_ne _ _ _ _ hb]
    split
    · split
      · refine ⟨_, rfl, ?_, ?_, ?_⟩
        · show ((mcdb_mmap_free _ map).heap map).refcnt = _
          rw [e4, e2, modify_heap_same]
        · intro b hb
          show ((mcdb_mmap_free _ map).heap b).refcnt = _
          rw [e4, e2, modify_heap_ne _ _ _ _ hb]
        · intro hi
          rename_i hni
          simp [hi] at hni
      · refine ⟨_, rfl, ?_, ?_, ?_⟩
        · rw [e4, e2, modify_heap_same]
        · intro b hb
          rw [e4, e2, modify_heap_ne _ _ _ _ hb]
        · intro _
          rw [f2]
          show st3.slots = _
          rw [r3]
          rfl
    · refine ⟨_, rfl, ?_, ?_, ?_⟩
      · rw [e2, modify_heap_same]
      · intro b hb
        rw [e2, modify_heap_ne _ _ _ _ hb]
      · intro _
        rw [r3]
        rfl
  · refine ⟨_, rfl, ?_, ?_, fun _ => rfl⟩
    · rw [modify_heap_same]
    · intro b hb
      rw [modify_heap_ne _ _ _ _ hb]
theorem set_slot_heap (st : registry) (s : Nat) (v : Option Nat) :
    (st.set_slot s v).heap = st.heap := rfl

theorem set_slot_slots (st : registry) (s : Nat) (v : Option Nat) :
    (st.set_slot s v).slots = upd st.slots s v := rfl

/-- Registering (a call with MCDB_REGISTER_USE_INCR, the lock obtained) through
a slot whose mapping `a` has a non-NULL `ptr` returns true. If `a.next` is
NULL, the `refcnt` of `a` is incremented (as a `uint32_t`: by exactly one
below 2^32 - 1), the slots are unchanged and no other `refcnt` changes. If
`a.next` is not NULL and the chain from `a` ends at the tail `t`, the slot is
set to `t`, no other slot changes, the `refcnt` of `t` is incremented and the
`refcnt` of `a` decremented (as `uint32_t`: by exactly one for a `refcnt` of at
least 1, to 2^32 - 1 for a `refcnt` of 0), and no other `refcnt` changes; `t`
is reached from `a` through `next`. -/
theorem register_postcondition (st : registry) (mapptr a : Nat) (flags : mcdb_flags)
    (lock_ok : Bool) (hinc : flags.use_incr = true)
    (hlock : flags.mutex_unlock_hold = true ∨ lock_ok = true)
    (hslot : st.slots mapptr = some a) (hptr : (st.heap a).ptr.isSome = true) :
    ((st.heap a).next = none →
      ∃ st1, mcdb_mmap_thread_registration st mapptr flags lock_ok = some (true, st1)
        ∧ (st1.heap a).refcnt = ((st.heap a).refcnt + 1) % U32
        ∧ ((st.heap a).refcnt + 1 < U32 → (st1.heap a).refcnt = (st.heap a).refcnt + 1)
        ∧ st1.slots = st.slots
        ∧ ∀ b, b ≠ a → (st1.heap b).refcnt = (st.heap b).refcnt)
    ∧ (∀ k t, (st.heap a).next ≠ none → tail_at st.heap st.nalloc a k t →
      ∃ st1, mcdb_mmap_thread_registration st mapptr flags lock_ok = some (true, st1)
        ∧ st1.slots mapptr = some t
        ∧ (∀ s, s ≠ mapptr → st1.slots s = st.slots s)
        ∧ t ≠ a ∧ (st.heap t).next = none
        ∧ (st1.heap t).refcnt = ((st.heap t).refcnt + 1) % U32
        ∧ ((st.heap t).refcnt + 1 < U32 → (st1.heap t).refcnt = (st.heap t).refcnt + 1)
        ∧ (st1.heap a).refcnt = ((st.heap a).refcnt + U32 - 1) % U32
        ∧ (0 < (st.heap a).refcnt → (st.heap a).refcnt < U32 →
            (st1.heap a).refcnt + 1 = (st.heap a).refcnt)
        ∧ ∀ b, b ≠ a → b ≠ t → (st1.heap b).refcnt = (st.heap b).refcnt) := by
  have hl : (!flags.mutex_unlock_hold && !lock_ok) = false := by
    rcases hlock with h | h <;> simp [h]
  have hp : (st.heap a).ptr.isNone = false := by
    cases hq : (st.heap a).ptr with
    | none => rw [hq] at hptr; simp at hptr
    | some p => simp
  constructor
  · intro hn
    refine ⟨st.modify a fun mp => { mp with refcnt := incr32 mp.refcnt }, ?_, ?_, ?_, rfl, ?_⟩
    · unfold mcdb_mmap_thread_registration
      simp only [hl, hslot, hp, hinc, hn, Bool.false_and, Bool.false_eq_true, if_false, if_true]
    · rw [modify_heap_same]
      rfl
    · intro hlt
      rw [modify_heap_same]
      show ((st.heap a).refcnt + 1) % U32 = _
      exact Nat.mod_eq_of_lt hlt
    · intro b hb
      rw [modify_heap_ne _ _ _ _ hb]
  · intro k t hn hchain
    cases hchain with
    | here _ _ hnone => exact absurd hnone hn
    | step _ nx k2 _ ha hnx hr =>
      have hk := tail_at_lt_nalloc _ _ _ _ _ hr
      have hct := chain_tail_of_tail_at _ _ _ _ _ hr st.nalloc hk
      have hta : t ≠ a := by
        intro e
        subst e
        have := (tail_at_unique _ _ _ _ _ (.step t nx k2 t ha hnx hr) 0 t
          (.here t ha (tail_at_tail _ _ _ _ _ hr).1)).1
        omega
      have hchain2 : tail_at ((st.modify t fun mp => { mp with refcnt := incr32 mp.refcnt }).set_slot
          mapptr (some t)).heap st.nalloc a (k2 + 1) t := by
        apply tail_at_same_next st.heap _ _ _ _ _ (.step a nx k2 t ha hnx hr)
        intro c
        rw [set_slot_heap]
        by_cases hc : c = t
        · subst hc
          rw [modify_heap_same]
        · rw [modify_heap_ne _ _ _ _ hc]
      obtain ⟨st1, r1, r2, r3, r4⟩ := registration_release_spec _ a mapptr flags _ _ hchain2
      have ea : (((st.modify t fun mp => { mp with refcnt := incr32 mp.refcnt }).set_slot
          mapptr (some t)).heap a).refcnt
          = (st.heap a).refcnt := by
        rw [set_slot_heap]
        rw [modify_heap_ne _ _ _ _ (Ne.symm hta)]
      have et : (((st.modify t fun mp => { mp with refcnt := incr32 mp.refcnt }).set_slot
          mapptr (some t)).heap t).refcnt
          = incr32 (st.heap t).refcnt := by
        rw [set_slot_heap]
        rw [modify_heap_same]
      have e1 : (st1.heap t).refcnt = ((st.heap t).refcnt + 1) % U32 := by
        rw [r3 t hta, et]
        rfl
      have e2 : (st1.heap a).refcnt = ((st.heap a).refcnt + U32 - 1) % U32 := by
        rw [r2, ea]
        rfl
      refine ⟨st1, ?_, ?_, ?_, hta, (tail_at_tail _ _ _ _ _ hr).1, e1, ?_, e2, ?_, ?_⟩
      · unfold mcdb_mmap_thread_registration
        simp only [hl, hslot, hp, hinc, hnx, hct, Bool.false_and, Bool.false_eq_true, if_false,
          if_true]
        exact r1
      · rw [r4 hinc]
        rw [set_slot_slots, upd_same]
      · intro s hs
        rw [r4 hinc]
        rw [set_slot_slots, upd_ne _ _ _ _ hs]
        rfl
      · intro hlt
        rw [e1]
        exact Nat.mod_eq_of_lt hlt
      · intro h0 hlt
        rw [e2]
        have : ((st.heap a).refcnt + U32 - 1) % U32 = (st.heap a).refcnt - 1 := by
          have e : (st.heap a).refcnt + U32 - 1 = ((st.heap a).refcnt - 1) + U32 := by omega
          rw [e, Nat.add_mod_right]
          exact Nat.mod_eq_of_lt (by omega)
        omega
      · intro b hb1 hb2
        rw [r3 b hb1]
        rw [set_slot_heap]
        rw [modify_heap_ne _ _ _ _ hb2]

/-- After the creator mapped generation 0, a reader registered on it through
slot 1 and the creator published generation 1: the reader's next registration
moves slot 1 from generation 0 to the tail, generation 1. -/
theorem register_postcondition_witness :
    MCDB_REGISTER_USE_INCR.use_incr = true
    ∧ (registry_after [.create 0, .attach 1 0, .register 1, .reopen 0]).slots 1 = some 0
    ∧ ((registry_after [.create 0, .attach 1 0, .register 1, .reopen 0]).heap 0).ptr.isSome = true
    ∧ ((registry_after [.create 0, .attach 1 0, .register 1, .reopen 0]).heap 0).next ≠ none
    ∧ tail_at (registry_after [.create 0, .attach 1 0, .register 1, .reopen 0]).heap
        (registry_after [.create 0, .attach 1 0, .register 1, .reopen 0]).nalloc 0 1 1
    ∧ ∃ st1, mcdb_mmap_thread_registration
          (registry_after [.create 0, .attach 1 0, .register 1, .reopen 0]) 1
          MCDB_REGISTER_USE_INCR true = some (true, st1)
        ∧ st1.slots 1 = some 1 :=
  have hc : tail_at (registry_after [.create 0, .attach 1 0, .register 1, .reopen 0]).heap
      (registry_after [.create 0, .attach 1 0, .register 1, .reopen 0]).nalloc 0 1 1 :=
    .step 0 1 0 1 (by decide) (by decide) (.here 1 (by decide) (by decide))
  ⟨rfl, by decide, by decide, by decide, hc,
   ((register_postcondition (registry_after [.create 0, .attach 1 0, .register 1, .reopen 0])
      1 0 MCDB_REGISTER_USE_INCR true rfl (Or.inr rfl) (by decide) (by decide)).2 1 1
      (by decide) hc).imp fun _ h => ⟨h.1, h.2.1⟩⟩

/-- C10 fails on the code. On `registry_stale0` slot 1 holds generation 0, which is
mapped, has `next` pointing to generation 1 and `refcnt` 0 (the reader
unregistered with MCDB_REGISTER_MUNMAP_SKIP). Registering through slot 1
returns true, moves the slot to the tail and increments the tail's `refcnt`
from 1 to 2, but `--map->refcnt` on line 360 takes the `refcnt` of generation
0 from 0 to 4294967295: it is not decremented by one, and the reclamation the
comment on line 361 announces for "refcnt already zero" does not happen,
nothing is unmapped or freed. From the same memory before the reader
unregistered, where generation 0 has `refcnt` 1, the registration brings it to
0 and reclaims generation 0. -/
theorem register_refcnt_wraps :
    registry_stale0.slots 1 = some 0
    ∧ registry_stale0.view 0 = (true, 0, some 1)
    ∧ registry_stale0.view 1 = (true, 1, none)
    ∧ registry_stale0.freed = [] ∧ registry_stale0.munmapped = []
    ∧ (mcdb_mmap_thread_registration registry_stale0 1 MCDB_REGISTER_USE_INCR true).map
        (fun r => (r.1, r.2.slots 1)) = some (true, some 1)
    ∧ (mcdb_mmap_thread_registration registry_stale0 1 MCDB_REGISTER_USE_INCR true).map
        (fun r => (r.2.view 0, r.2.view 1)) = some ((true, 4294967295, some 1), (true, 2, none))
    ∧ (mcdb_mmap_thread_registration registry_stale0 1 MCDB_REGISTER_USE_INCR true).map
        (fun r => (r.2.freed, r.2.munmapped)) = some ([], [])
    ∧ (registry_after [.create 0, .attach 1 0, .register 1, .reopen 0]).view 0 = (true, 1, some 1)
    ∧ (mcdb_mmap_thread_registration
        (registry_after [.create 0, .attach 1 0, .register 1, .reopen 0]) 1
        MCDB_REGISTER_USE_INCR true).map
        (fun r => (r.1, r.2.slots 1)) = some (true, some 1)
    ∧ (mcdb_mmap_thread_registration
        (registry_after [.create 0, .attach 1 0, .register 1, .reopen 0]) 1
        MCDB_REGISTER_USE_INCR true).map
        (fun r => (r.2.view 0, r.2.view 1)) = some ((false, 0, some 1), (true, 2, none))
    ∧ (mcdb_mmap_thread_registration
        (registry_after [.create 0, .attach 1 0, .register 1, .reopen 0]) 1
        MCDB_REGISTER_USE_INCR true).map
        (fun r => (r.2.freed, r.2.munmapped)) = some ([0], [0]) := by
  refine ⟨by decide, by decide, by decide, by decide, by decide, by decide, by decide, by decide,
    by decide, by decide, by decide, by decide⟩
/-! ## Registration: the early returns -/

theorem registration_release_true (st : registry) (map mapptr : Nat) (flags : mcdb_flags)
    (b : Bool) (st1 : registry) (h : registration_release st map mapptr flags = some (b, st1)) :
    b = true := by
  dsimp only [registration_release] at h
  split at h
  · split at h
    · simp at h
    · split at h
      · split at h <;> simp at h <;> exact h.1
      · simp at h
        exact h.1
  · simp at h
    exact h.1

theorem registration_early (st : registry) (mapptr : Nat) (flags : mcdb_flags) (lock_ok : Bool)
    (hlock : flags.mutex_unlock_hold = true ∨ lock_ok = true)
    (h : st.slots mapptr = none
      ∨ ∃ a, st.slots mapptr = some a ∧ (st.heap a).ptr = none ∧ flags.use_incr = true) :
    mcdb_mmap_thread_registration st mapptr flags lock_ok = some (!flags.use_incr, st) := by
  have hl : (!flags.mutex_unlock_hold && !lock_ok) = false := by
    rcases hlock with h | h <;> simp [h]
  unfold mcdb_mmap_thread_registration
  rcases h with h | ⟨a, h1, h2, h3⟩
  · simp only [hl, h, Bool.false_eq_true, if_false]
  · simp only [hl, h1, h2, h3, Bool.false_eq_true, if_false, Option.isNone_none, Bool.and_self,
      if_true]

theorem registration_late_true (st : registry) (mapptr a : Nat) (flags : mcdb_flags)
    (lock_ok : Bool) (hlock : flags.mutex_unlock_hold = true ∨ lock_ok = true)
    (hs : st.slots mapptr = some a) (hp : (st.heap a).ptr.isSome = true ∨ flags.use_incr = false)
    (b : Bool) (st1 : registry)
    (h : mcdb_mmap_thread_registration st mapptr flags lock_ok = some (b, st1)) : b = true := by
  have hl : (!flags.mutex_unlock_hold && !lock_ok) = false := by
    rcases hlock with h | h <;> simp [h]
  have hg : ((st.heap a).ptr.isNone && flags.use_incr) = false := by
    rcases hp with hp | hp
    · cases hq : (st.heap a).ptr with
      | none => rw [hq] at hp; simp at hp
      | some p => simp
    · simp [hp]
  unfold mcdb_mmap_thread_registration at h
  simp only [hl, hs, hg, Bool.false_eq_true, if_false] at h
  split at h
  · split at h
    · simp at h
      exact h.1
    · split at h
      · simp at h
      · exact registration_release_true _ _ _ _ _ _ h
  · exact registration_release_true _ _ _ _ _ _ h

/-- C11. With the lock obtained, `mcdb_mmap_thread_registration` with
MCDB_REGISTER_USE_INCR returns false exactly when the handle slot is NULL or
the slot's mapping has `ptr == NULL`; without that flag it returns true on a
NULL slot; and in these early returns the memory is left as it was: no
`refcnt`, no `next`, no slot changes and nothing is freed. -/
theorem registration_failure (st : registry) (mapptr : Nat) (flags : mcdb_flags)
    (lock_ok : Bool) (hlock : flags.mutex_unlock_hold = true ∨ lock_ok = true) :
    (flags.use_incr = true →
      ((∃ st1, mcdb_mmap_thread_registration st mapptr flags lock_ok = some (false, st1))
        ↔ (st.slots mapptr = none ∨ ∃ a, st.slots mapptr = some a ∧ (st.heap a).ptr = none))
      ∧ ∀ st1, mcdb_mmap_thread_registration st mapptr flags lock_ok = some (false, st1) →
          st1 = st)
    ∧ (flags.use_incr = false → st.slots mapptr = none →
        mcdb_mmap_thread_registration st mapptr flags lock_ok = some (true, st)) := by
  constructor
  · intro hinc
    have hcase : ∀ st1, mcdb_mmap_thread_registration st mapptr flags lock_ok = some (false, st1) →
        (st.slots mapptr = none ∨ ∃ a, st.slots mapptr = some a ∧ (st.heap a).ptr = none) := by
      intro st1 h
      cases hs : st.slots mapptr with
      | none => exact Or.inl rfl
      | some a =>
        right
        refine ⟨a, rfl, ?_⟩
        cases hq : (st.heap a).ptr with
        | none => rfl
        | some p =>
          have := registration_late_true st mapptr a flags lock_ok hlock hs
            (Or.inl (by rw [hq]; rfl)) false st1 h
          cases this
    have hearly : (st.slots mapptr = none ∨ ∃ a, st.slots mapptr = some a ∧ (st.heap a).ptr = none) →
        mcdb_mmap_thread_registration st mapptr flags lock_ok = some (false, st) := by
      intro h
      have := registration_early st mapptr flags lock_ok hlock (by
        rcases h with h | ⟨a, h1, h2⟩
        · exact Or.inl h
        · exact Or.inr ⟨a, h1, h2, hinc⟩)
      rw [this, hinc]
      rfl
    refine ⟨⟨fun ⟨st1, h⟩ => hcase st1 h, fun h => ⟨st, hearly h⟩⟩, ?_⟩
    intro st1 h
    have := hearly (hcase st1 h)
    rw [this] at h
    simp only [Option.some.injEq, Prod.mk.injEq, true_and] at h
    exact h.symm
  · intro hdec hs
    have := registration_early st mapptr flags lock_ok hlock (Or.inl hs)
    rw [this, hdec]
    rfl

/-- C11, on the memory before any operation: slot 0 is NULL, registering through it
returns false and unregistering returns true, both leaving the memory as it
was. -/
theorem registration_failure_witness :
    (MCDB_REGISTER_USE_INCR.mutex_unlock_hold = true ∨ true = true)
    ∧ MCDB_REGISTER_USE_INCR.use_incr = true
    ∧ MCDB_REGISTER_USE_DECR.use_incr = false
    ∧ registry.init.slots 0 = none
    ∧ (∃ st1, mcdb_mmap_thread_registration registry.init 0 MCDB_REGISTER_USE_INCR true
        = some (false, st1))
    ∧ mcdb_mmap_thread_registration registry.init 0 MCDB_REGISTER_USE_DECR true
        = some (true, registry.init) :=
  ⟨Or.inr rfl, rfl, rfl, rfl,
   ((registration_failure registry.init 0 MCDB_REGISTER_USE_INCR true (Or.inr rfl)).1 rfl).1.mpr
     (Or.inl rfl),
   (registration_failure registry.init 0 MCDB_REGISTER_USE_DECR true (Or.inr rfl)).2 rfl rfl⟩
/-! ## What unmapping and freeing change -/

theorem unmap_heap_same (st : registry) (map : Nat) :
    (mcdb_mmap_unmap st map).heap map = { st.heap map with ptr := none, size := 0 } := by
  unfold mcdb_mmap_unmap registry.modify
  split <;> simp

theorem unmap_heap_ne (st : registry) (map b : Nat) (h : b ≠ map) :
    (mcdb_mmap_unmap st map).heap b = st.heap b := by
  unfold mcdb_mmap_unmap registry.modify
  split <;> simp [h]

theorem unmap_logs (st : registry) (map : Nat) :
    (mcdb_mmap_unmap st map).freed = st.freed
    ∧ (mcdb_mmap_unmap st map).munmapped
        = (if (st.heap map).ptr.isSome then st.munmapped ++ [map] else st.munmapped)
    ∧ (mcdb_mmap_unmap st map).fname_freed = st.fname_freed
    ∧ (mcdb_mmap_unmap st map).closed = st.closed
    ∧ (mcdb_mmap_unmap st map).nfname = st.nfname := by
  unfold mcdb_mmap_unmap registry.modify
  split <;> simp_all

theorem free_heap_ne (st : registry) (map b : Nat) (h : b ≠ map) :
    (mcdb_mmap_free st map).heap b = st.heap b := by
  have hu := unmap_heap_ne st map b h
  unfold mcdb_mmap_free
  simp only []
  split
  · split
    · simp only [registry.modify, upd_ne _ _ _ _ h]
      exact hu
    · exact hu
  · exact hu

theorem free_heap_same (st : registry) (map : Nat) :
    ((mcdb_mmap_free st map).heap map).ptr = none
    ∧ ((mcdb_mmap_free st map).heap map).size = 0
    ∧ ((mcdb_mmap_free st map).heap map).refcnt = (st.heap map).refcnt
    ∧ ((mcdb_mmap_free st map).heap map).next = (st.heap map).next
    ∧ ((mcdb_mmap_free st map).heap map).fn_free = (st.heap map).fn_free := by
  have hu := unmap_heap_same st map
  unfold mcdb_mmap_free
  simp only []
  split
  · split
    · simp [registry.modify, hu]
    · rw [hu]
      exact ⟨rfl, rfl, rfl, rfl, rfl⟩
  · rw [hu]
    exact ⟨rfl, rfl, rfl, rfl, rfl⟩

theorem free_logs (st : registry) (map : Nat) :
    (mcdb_mmap_free st map).freed
        = (if (st.heap map).fn_free then st.freed ++ [map] else st.freed)
    ∧ (mcdb_mmap_free st map).munmapped
        = (if (st.heap map).ptr.isSome then st.munmapped ++ [map] else st.munmapped) := by
  have hu := unmap_heap_same st map
  obtain ⟨l1, l2, _⟩ := unmap_logs st map
  have hf : ((mcdb_mmap_unmap st map).heap map).fn_free = (st.heap map).fn_free := by rw [hu]
  unfold mcdb_mmap_free
  simp only [hf]
  split
  · split
    · exact ⟨by simp [registry.modify, l1], by simpa [registry.modify] using l2⟩
    · exact ⟨by simp [l1], l2⟩
  · exact ⟨l1, l2⟩

theorem modify_fields (st : registry) (a : Nat) (f : mcdb_mmap → mcdb_mmap) :
    (st.modify a f).slots = st.slots ∧ (st.modify a f).nalloc = st.nalloc
    ∧ (st.modify a f).freed = st.freed ∧ (st.modify a f).munmapped = st.munmapped :=
  ⟨rfl, rfl, rfl, rfl⟩

theorem set_slot_fields (st : registry) (s : Nat) (v : Option Nat) :
    (st.set_slot s v).nalloc = st.nalloc ∧ (st.set_slot s v).freed = st.freed
    ∧ (st.set_slot s v).munmapped = st.munmapped :=
  ⟨rfl, rfl, rfl⟩

theorem reclaim_loop_stop (fuel : Nat) (st : registry) (map : Nat)
    (h : (st.heap map).next = none
      ∨ ∃ b, (st.heap map).next = some b ∧ (st.heap b).refcnt ≠ 0) :
    reclaim_loop fuel st map = some st := by
  unfold reclaim_loop
  rcases h with h | ⟨b, h1, h2⟩
  · simp [h]
  · simp [h1, h2]
/-! ## Publishing a generation -/

theorem chain_tail_here (heap : Nat → mcdb_mmap) (fuel n : Nat) (hf : 0 < fuel)
    (hn : (heap n).next = none) : chain_tail heap fuel n = some n := by
  obtain ⟨f, rfl⟩ : ∃ f, fuel = f + 1 := ⟨fuel - 1, by omega⟩
  simp [chain_tail, hn]

/-- Registering through a slot whose mapping `a` has `next = n`, the tail, whose
`refcnt` is not brought to 0 by the increment: the call returns true and moves
the slot to `n`; `a` is unmapped and passed to `mcdb_mmap_free` exactly when
its `refcnt` falls to 0 and MCDB_REGISTER_MUNMAP_SKIP is not set. -/
theorem registration_migrate_one (st : registry) (mapptr a n : Nat) (flags : mcdb_flags)
    (lock_ok : Bool) (hinc : flags.use_incr = true)
    (hlock : flags.mutex_unlock_hold = true ∨ lock_ok = true)
    (hs : st.slots mapptr = some a) (hp : (st.heap a).ptr.isSome = true)
    (hnext : (st.heap a).next = some n) (hnn : (st.heap n).next = none) (hna : n ≠ a)
    (hfuel : 0 < st.nalloc) (hr : incr32 (st.heap n).refcnt ≠ 0) :
    ∃ st1, mcdb_mmap_thread_registration st mapptr flags lock_ok = some (true, st1)
      ∧ (st1.heap a).next = some n
      ∧ st1.slots = upd st.slots mapptr (some n)
      ∧ ((st1.heap n).next = none ∧ (st1.heap n).refcnt = incr32 (st.heap n).refcnt
        ∧ (st1.heap n).ptr = (st.heap n).ptr)
      ∧ (st1.heap a).refcnt = decr32 (st.heap a).refcnt
      ∧ (decr32 (st.heap a).refcnt = 0 ∧ flags.munmap_skip = false →
          (st1.heap a).ptr = none ∧ st1.munmapped = st.munmapped ++ [a]
          ∧ st1.freed = (if (st.heap a).fn_free then st.freed ++ [a] else st.freed))
      ∧ (¬ (decr32 (st.heap a).refcnt = 0 ∧ flags.munmap_skip = false) →
          (st1.heap a).ptr = (st.heap a).ptr ∧ st1.munmapped = st.munmapped
          ∧ st1.freed = st.freed)
      ∧ ∀ b, b ≠ a → b ≠ n → st1.heap b = st.heap b := by
  have hl : (!flags.mutex_unlock_hold && !lock_ok) = false := by
    rcases hlock with h | h <;> simp [h]
  have hq : (st.heap a).ptr.isNone = false := by
    cases hq : (st.heap a).ptr with
    | none => rw [hq] at hp; simp at hp
    | some p => simp
  have ha : (((st.modify n fun mp => { mp with refcnt := incr32 mp.refcnt }).set_slot mapptr
      (some n)).heap a) = st.heap a := by
    rw [set_slot_heap, modify_heap_ne _ _ _ _ (Ne.symm hna)]
  have hn2 : (((st.modify n fun mp => { mp with refcnt := incr32 mp.refcnt }).set_slot mapptr
      (some n)).heap n).refcnt = incr32 (st.heap n).refcnt := by
    rw [set_slot_heap, modify_heap_same]
  have hreg : mcdb_mmap_thread_registration st mapptr flags lock_ok = some (true,
      if decr32 (st.heap a).refcnt = 0 ∧ flags.munmap_skip = false then
        mcdb_mmap_free
          ((((st.modify n fun mp => { mp with refcnt := incr32 mp.refcnt }).set_slot mapptr
            (some n)).modify a fun mp => { mp with refcnt := decr32 mp.refcnt }).modify a
            fun mp => { mp with fname := .null }) a
      else
        ((st.modify n fun mp => { mp with refcnt := incr32 mp.refcnt }).set_slot mapptr
          (some n)).modify a fun mp => { mp with refcnt := decr32 mp.refcnt }) := by
    unfold mcdb_mmap_thread_registration
    simp only [hl, hs, hq, hinc, hnext, chain_tail_here _ _ _ hfuel hnn, Bool.false_and,
      Bool.false_eq_true, if_false, if_true]
    unfold registration_release
    simp only [modify_heap_same, ha]
    by_cases hz : decr32 (st.heap a).refcnt = 0
    · rw [if_pos hz]
      rw [reclaim_loop_stop _ _ _ (Or.inr ⟨n, by rw [modify_heap_same, ha]; exact hnext, by
        rw [modify_heap_ne _ _ _ _ hna, hn2]; exact hr⟩)]
      cases hsk : flags.munmap_skip <;> simp [hz, hinc]
    · rw [if_neg hz]
      simp [hz]
  refine ⟨_, hreg, ?_⟩
  by_cases hc : decr32 (st.heap a).refcnt = 0 ∧ flags.munmap_skip = false
  · rw [if_pos hc]
    have h1 := free_heap_same ((((st.modify n fun mp =>
      { mp with refcnt := incr32 mp.refcnt }).set_slot mapptr (some n)).modify a
      fun mp => { mp with refcnt := decr32 mp.refcnt }).modify a
      fun mp => { mp with fname := .null }) a
    have h2 := free_logs ((((st.modify n fun mp =>
      { mp with refcnt := incr32 mp.refcnt }).set_slot mapptr (some n)).modify a
      fun mp => { mp with refcnt := decr32 mp.refcnt }).modify a
      fun mp => { mp with fname := .null }) a
    have h3 := (free_links ((((st.modify n fun mp =>
      { mp with refcnt := incr32 mp.refcnt }).set_slot mapptr (some n)).modify a
      fun mp => { mp with refcnt := decr32 mp.refcnt }).modify a
      fun mp => { mp with fname := .null }) a).2.1
    have h4 : ∀ b, b ≠ a → (mcdb_mmap_free ((((st.modify n fun mp =>
        { mp with refcnt := incr32 mp.refcnt }).set_slot mapptr (some n)).modify a
        fun mp => { mp with refcnt := decr32 mp.refcnt }).modify a
        fun mp => { mp with fname := .null }) a).heap b
        = (st.modify n fun mp => { mp with refcnt := incr32 mp.refcnt }).heap b := by
      intro b hb
      rw [free_heap_ne _ _ _ hb, modify_heap_ne _ _ _ _ hb, modify_heap_ne _ _ _ _ hb,
        set_slot_heap]
    simp only [modify_heap_same, ha] at h1 h2
    have hpt : (st.heap a).ptr.isSome = true := hp
    refine ⟨by rw [h1.2.2.2.1]; exact hnext, h3, ?_, by rw [h1.2.2.1], ?_, ?_, ?_⟩
    · rw [h4 n hna, modify_heap_same]
      exact ⟨hnn, rfl, rfl⟩
    · intro _
      refine ⟨h1.1, ?_, h2.1⟩
      rw [h2.2, if_pos hpt]
      rfl
    · intro hnc
      exact absurd hc hnc
    · intro b hb1 hb2
      rw [h4 b hb1, modify_heap_ne _ _ _ _ hb2]
  · rw [if_neg hc]
    refine ⟨by rw [modify_heap_same, ha]; exact hnext, rfl, ?_, by rw [modify_heap_same, ha], ?_,
      ?_, ?_⟩
    · rw [modify_heap_ne _ _ _ _ hna, set_slot_heap, modify_heap_same]
      exact ⟨hnn, rfl, rfl⟩
    · intro h
      exact absurd h hc
    · intro _
      refine ⟨by rw [modify_heap_same, ha], rfl, rfl⟩
    · intro b hb1 hb2
      rw [modify_heap_ne _ _ _ _ hb1, set_slot_heap, modify_heap_ne _ _ _ _ hb2]

/-- The part of `mcdb_mmap_reopen_threadsafe` before the registration, when the
slot's mapping `a` has no `next` and the copy is allocated and mapped: the
copy is the struct at `nalloc`, mapped, with `next = NULL` and `refcnt = 0`,
and it is linked as `a.next`. -/
theorem reopen_created (st : registry) (mapptr a : Nat) (bytes : Nat → UInt8) (size mtime : Nat)
    (hs : st.slots mapptr = some a) (hne : a ≠ st.nalloc) (hn : (st.heap a).next = none)
    (hm : (st.heap a).fn_malloc = true) :
    ∃ st2, mcdb_mmap_reopen_threadsafe st mapptr true true (some (.mapped bytes size mtime))
        = mcdb_mmap_thread_registration st2 mapptr mcdb_flags_hold_lock true
      ∧ st2.slots = st.slots ∧ st2.nalloc = st.nalloc + 1 ∧ st2.freed = st.freed
      ∧ st2.munmapped = st.munmapped
      ∧ ((st2.heap a).next = some st.nalloc ∧ (st2.heap a).ptr = (st.heap a).ptr
        ∧ (st2.heap a).refcnt = (st.heap a).refcnt ∧ (st2.heap a).fn_free = (st.heap a).fn_free)
      ∧ ((st2.heap st.nalloc).next = none ∧ (st2.heap st.nalloc).ptr = some bytes
        ∧ (st2.heap st.nalloc).refcnt = 0 ∧ (st2.heap st.nalloc).size = size)
      ∧ ∀ b, b ≠ a → b ≠ st.nalloc → st2.heap b = st.heap b := by
  refine ⟨((mcdb_mmap_init
      { st with heap := upd st.heap st.nalloc { st.heap a with ptr := none }
                nalloc := st.nalloc + 1 } st.nalloc (.mapped bytes size mtime)).2).modify a
      fun mp => { mp with next := some st.nalloc }, ?_, ?_, ?_, ?_, ?_, ?_, ?_, ?_⟩
  · unfold mcdb_mmap_reopen_threadsafe
    simp only [hs, hn, hm, mcdb_mmap_reopen, mcdb_mmap_init, Bool.not_true, Bool.false_eq_true,
      if_false, Bool.and_self, if_true]
  · simp [mcdb_mmap_init, mcdb_mmap_unmap, registry.modify]
  · simp [mcdb_mmap_init, mcdb_mmap_unmap, registry.modify]
  · simp [mcdb_mmap_init, mcdb_mmap_unmap, registry.modify]
  · simp [mcdb_mmap_init, mcdb_mmap_unmap, registry.modify]
  · simp [mcdb_mmap_init, mcdb_mmap_unmap, registry.modify, hne]
  · simp [mcdb_mmap_init, mcdb_mmap_unmap, registry.modify, hne, Ne.symm hne]
  · intro b hb1 hb2
    simp [mcdb_mmap_init, mcdb_mmap_unmap, registry.modify, hb1, hb2]
theorem decr32_pred (r : Nat) (h0 : 0 < r) (hlt : r < U32) : decr32 r + 1 = r := by
  unfold decr32
  have e : r + U32 - 1 = (r - 1) + U32 := by omega
  rw [e, Nat.add_mod_right, Nat.mod_eq_of_lt (by omega)]
  omega

theorem incr32_zero : incr32 0 = 1 := by decide

/-- For a handle slot whose mapping `a` is mapped (`ptr` not NULL) and has
`next == NULL`, if the copy is allocated and the file opens and maps,
`mcdb_mmap_reopen_threadsafe` returns true; the new mapping (the struct at
`nalloc`) is linked as `a.next`, the slot points to it, it is mapped with
`next == NULL` and `refcnt` 1, and the `refcnt` of `a` is decremented as a
`uint32_t` (by exactly one for a `refcnt` of at least 1, to 2^32 - 1 for a
`refcnt` of 0); if that makes it 0, `a` is unmapped and passed to
`mcdb_mmap_free`, and otherwise nothing is unmapped or freed. -/
theorem reopen_threadsafe_success_mod (st : registry) (mapptr a : Nat) (bytes : Nat → UInt8)
    (size mtime : Nat) (hs : st.slots mapptr = some a) (ha : a < st.nalloc)
    (hn : (st.heap a).next = none) (hp : (st.heap a).ptr.isSome = true)
    (hm : (st.heap a).fn_malloc = true) :
    ∃ st1, mcdb_mmap_reopen_threadsafe st mapptr true true (some (.mapped bytes size mtime))
        = some (true, st1)
      ∧ (st1.heap a).next = some st.nalloc
      ∧ st1.slots mapptr = some st.nalloc
      ∧ (∀ s, s ≠ mapptr → st1.slots s = st.slots s)
      ∧ (st1.heap st.nalloc).next = none
      ∧ (st1.heap st.nalloc).refcnt = 1
      ∧ (st1.heap st.nalloc).ptr = some bytes
      ∧ (st1.heap a).refcnt = ((st.heap a).refcnt + U32 - 1) % U32
      ∧ (0 < (st.heap a).refcnt → (st.heap a).refcnt < U32 →
          (st1.heap a).refcnt + 1 = (st.heap a).refcnt)
      ∧ (((st.heap a).refcnt + U32 - 1) % U32 = 0 →
          (st1.heap a).ptr = none ∧ st1.munmapped = st.munmapped ++ [a]
          ∧ st1.freed = (if (st.heap a).fn_free then st.freed ++ [a] else st.freed))
      ∧ (((st.heap a).refcnt + U32 - 1) % U32 ≠ 0 →
          (st1.heap a).ptr = (st.heap a).ptr ∧ st1.munmapped = st.munmapped
          ∧ st1.freed = st.freed) := by
  have hne : a ≠ st.nalloc := by omega
  obtain ⟨st2, e0, e1, e2, e3, e4, ⟨a1, a2, a3, a4⟩, ⟨n1, n2, n3, _⟩, _⟩ :=
    reopen_created st mapptr a bytes size mtime hs hne hn hm
  obtain ⟨st1, r0, r1, r2, ⟨r3, r4, r5⟩, r6, r7, r8, _⟩ :=
    registration_migrate_one st2 mapptr a st.nalloc mcdb_flags_hold_lock true rfl
      (Or.inl rfl) (by rw [e1]; exact hs) (by rw [a2]; exact hp) a1 n1
      (Ne.symm hne) (by rw [e2]; omega) (by rw [n3, incr32_zero]; decide)
  rw [← e0] at r0
  rw [a3] at r6 r7 r8
  rw [a2, e3, e4] at r8
  rw [a4, e3, e4] at r7
  refine ⟨st1, r0, r1, by rw [r2, upd_same], ?_, r3, by rw [r4, n3, incr32_zero],
    by rw [r5, n2], r6, ?_, ?_, ?_⟩
  · intro s hs2
    rw [r2, upd_ne _ _ _ _ hs2, e1]
  · intro h0 hlt
    rw [r6]
    exact decr32_pred _ h0 hlt
  · intro hz
    exact r7 ⟨hz, rfl⟩
  · intro hz
    exact r8 fun h => hz h.1

/-- C12, as amended. For a handle slot whose mapping `a` is mapped (`ptr` not NULL),
has `next == NULL` and a `refcnt` of at least 1, if the copy is allocated and
the file opens and maps, `mcdb_mmap_reopen_threadsafe` returns true; the new
mapping (the struct at `nalloc`) is linked as `a.next`, the slot points to it
and no other slot changes, the new mapping is mapped with `next == NULL` and
`refcnt` 1, and the `refcnt` of `a` is one less than before; if that makes it
0, `a` is unmapped and passed to `mcdb_mmap_free`, and otherwise nothing is
unmapped or freed. -/
theorem reopen_threadsafe_success (st : registry) (mapptr a : Nat) (bytes : Nat → UInt8)
    (size mtime : Nat) (hs : st.slots mapptr = some a) (ha : a < st.nalloc)
    (hn : (st.heap a).next = none) (hp : (st.heap a).ptr.isSome = true)
    (hm : (st.heap a).fn_malloc = true) (hr : 1 ≤ (st.heap a).refcnt)
    (hlt : (st.heap a).refcnt < U32) :
    ∃ st1, mcdb_mmap_reopen_threadsafe st mapptr true true (some (.mapped bytes size mtime))
        = some (true, st1)
      ∧ (st1.heap a).next = some st.nalloc
      ∧ st1.slots mapptr = some st.nalloc
      ∧ (∀ s, s ≠ mapptr → st1.slots s = st.slots s)
      ∧ (st1.heap st.nalloc).next = none
      ∧ (st1.heap st.nalloc).refcnt = 1
      ∧ (st1.heap st.nalloc).ptr = some bytes
      ∧ (st1.heap a).refcnt + 1 = (st.heap a).refcnt
      ∧ ((st1.heap a).refcnt = 0 →
          (st1.heap a).ptr = none ∧ st1.munmapped = st.munmapped ++ [a]
          ∧ st1.freed = (if (st.heap a).fn_free then st.freed ++ [a] else st.freed))
      ∧ ((st1.heap a).refcnt ≠ 0 →
          (st1.heap a).ptr = (st.heap a).ptr ∧ st1.munmapped = st.munmapped
          ∧ st1.freed = st.freed) := by
  obtain ⟨st1, h0, h1, h2, h3, h4, h5, h6, h7, h8, h9, h10⟩ :=
    reopen_threadsafe_success_mod st mapptr a bytes size mtime hs ha hn hp hm
  refine ⟨st1, h0, h1, h2, h3, h4, h5, h6, h8 (by omega) hlt, ?_, ?_⟩
  · intro hz
    exact h9 (by rw [← h7]; exact hz)
  · intro hz
    exact h10 (by rw [← h7]; exact hz)

/-- C12, after the creator mapped generation 0 in slot 0 (`refcnt` 1): the reopen
returns true, moves slot 0 to generation 1 with `refcnt` 1, and brings the
`refcnt` of generation 0 to 0, which is unmapped and freed. -/
theorem reopen_threadsafe_success_witness :
    (registry_after [.create 0]).slots 0 = some 0
    ∧ 0 < (registry_after [.create 0]).nalloc
    ∧ ((registry_after [.create 0]).heap 0).next = none
    ∧ ((registry_after [.create 0]).heap 0).ptr.isSome = true
    ∧ ((registry_after [.create 0]).heap 0).fn_malloc = true
    ∧ ((registry_after [.create 0]).heap 0).refcnt = 1
    ∧ ∃ st1, mcdb_mmap_reopen_threadsafe (registry_after [.create 0]) 0 true true fd_empty
        = some (true, st1)
      ∧ st1.slots 0 = some 1 ∧ (st1.heap 1).refcnt = 1
      ∧ (st1.heap 0).refcnt + 1 = ((registry_after [.create 0]).heap 0).refcnt :=
  ⟨by decide, by decide, by decide, by decide, by decide, by decide,
   (reopen_threadsafe_success (registry_after [.create 0]) 0 0 (fun _ => 0) 2048 0 (by decide)
      (by decide) (by decide) (by decide) (by decide) (by decide) (by decide)).imp
      fun _ h => ⟨h.1, h.2.2.1, h.2.2.2.2.2.1, h.2.2.2.2.2.2.2.1⟩⟩

/-- On `registry_refcnt0`, where slot 0 holds the mapped generation 0 with
`next == NULL` and `refcnt` 0, the reopen returns true and moves the slot to
generation 1, and the `refcnt` of generation 0 goes from 0 to 4294967295 with
nothing unmapped or freed: the decrement is the one of line 360. -/
theorem reopen_threadsafe_refcnt_zero :
    registry_refcnt0.slots 0 = some 0
    ∧ registry_refcnt0.view 0 = (true, 0, none)
    ∧ (mcdb_mmap_reopen_threadsafe registry_refcnt0 0 true true fd_empty).map
        (fun r => (r.1, r.2.slots 0)) = some (true, some 1)
    ∧ (mcdb_mmap_reopen_threadsafe registry_refcnt0 0 true true fd_empty).map
        (fun r => (r.2.view 0, r.2.view 1)) = some ((true, 4294967295, some 1), (true, 1, none))
    ∧ (mcdb_mmap_reopen_threadsafe registry_refcnt0 0 true true fd_empty).map
        (fun r => (r.2.freed, r.2.munmapped)) = some ([], []) := by
  refine ⟨by decide, by decide, by decide, by decide, by decide⟩

/-- C12 as stated fails on `registry_unmapped`: slot 0 holds generation 0, which has
`next == NULL` and was left unmapped by a failed `mcdb_mmap_reopen`. The copy
is allocated and mapped and linked as `next` of generation 0, but the
registration that follows returns false on the NULL `ptr` of generation 0: the
call returns false, the slot stays on generation 0 and the new mapping keeps
`refcnt` 0. -/
theorem reopen_threadsafe_success_counterexample :
    registry_unmapped.slots 0 = some 0
    ∧ registry_unmapped.view 0 = (false, 1, none)
    ∧ (registry_unmapped.heap 0).fn_malloc = true
    ∧ (mcdb_mmap_reopen_threadsafe registry_unmapped 0 true true fd_empty).map
        (fun r => (r.1, r.2.slots 0)) = some (false, some 0)
    ∧ (mcdb_mmap_reopen_threadsafe registry_unmapped 0 true true fd_empty).map
        (fun r => (r.2.view 0, r.2.view 1)) = some ((false, 1, some 1), (true, 0, none)) := by
  refine ⟨by decide, by decide, by decide, by decide, by decide⟩
/-! ## A reopen that fails -/

/-- When the slot's mapping `a` has no `next` and either no copy is allocated, or
the copy cannot be opened and mapped and `fn_free` is not NULL,
`mcdb_mmap_reopen_threadsafe` returns false; the slots, the struct `a` and
every struct other than the copy are as before, nothing is unmapped, and the
copy, if allocated, is passed to `fn_free`. -/
theorem reopen_threadsafe_failure_atomic (st : registry) (mapptr a : Nat) (malloc_ok : Bool)
    (fd : Option fd_result) (hs : st.slots mapptr = some a) (hne : a ≠ st.nalloc)
    (hn : (st.heap a).next = none) :
    ((st.heap a).fn_malloc = false ∨ malloc_ok = false →
      mcdb_mmap_reopen_threadsafe st mapptr true malloc_ok fd = some (false, st))
    ∧ ((st.heap a).fn_malloc = true → malloc_ok = true → (st.heap a).fn_free = true →
        (∀ bytes size mtime, fd ≠ some (.mapped bytes size mtime)) →
        ∃ st1, mcdb_mmap_reopen_threadsafe st mapptr true malloc_ok fd = some (false, st1)
          ∧ st1.slots = st.slots ∧ st1.heap a = st.heap a
          ∧ (∀ b, b ≠ st.nalloc → st1.heap b = st.heap b)
          ∧ st1.munmapped = st.munmapped ∧ st1.freed = st.freed ++ [st.nalloc]) := by
  constructor
  · intro h
    unfold mcdb_mmap_reopen_threadsafe
    rcases h with h | h <;> simp [hs, hn, h]
  · intro hm hok hfree hfd
    have hfail : ∃ r, mcdb_mmap_reopen
        { st with heap := upd st.heap st.nalloc { st.heap a with ptr := none }
                  nalloc := st.nalloc + 1 } st.nalloc fd = (false, r)
        ∧ r.slots = st.slots ∧ (∀ b, b ≠ st.nalloc → r.heap b = st.heap b)
        ∧ r.munmapped = st.munmapped ∧ r.freed = st.freed := by
      cases fd with
      | none =>
        refine ⟨_, rfl, rfl, ?_, rfl, rfl⟩
        intro b hb
        show upd st.heap st.nalloc _ b = _
        rw [upd_ne _ _ _ _ hb]
      | some f =>
        cases f with
        | mapped bytes size mtime => exact absurd rfl (hfd bytes size mtime)
        | fstat_fails =>
          refine ⟨_, rfl, ?_, ?_, ?_, ?_⟩
          · simp [mcdb_mmap_unmap, registry.modify]
          · intro b hb
            simp [mcdb_mmap_unmap, registry.modify, hb]
          · simp [mcdb_mmap_unmap, registry.modify]
          · simp [mcdb_mmap_unmap, registry.modify]
        | mmap_fails =>
          refine ⟨_, rfl, ?_, ?_, ?_, ?_⟩
          · simp [mcdb_mmap_unmap, registry.modify]
          · intro b hb
            simp [mcdb_mmap_unmap, registry.modify, hb]
          · simp [mcdb_mmap_unmap, registry.modify]
          · simp [mcdb_mmap_unmap, registry.modify]
    obtain ⟨r, hr, r1, r2, r3, r4⟩ := hfail
    refine ⟨{ r with freed := r.freed ++ [st.nalloc] }, ?_, r1, r2 a hne, r2, r3, ?_⟩
    · unfold mcdb_mmap_reopen_threadsafe
      simp only [hn, hm, hfree] at hr
      simp only [hs, hn, hm, hok, hfree, hr, Bool.not_true, Bool.false_eq_true, if_false,
        Bool.and_self, if_true]
    · show r.freed ++ [st.nalloc] = _
      rw [r4]

/-- C13 fails on the code. Slot 0 holds generation 0, created with a NULL `fn_free`
(which `mcdb_mmap_create` accepts and `mcdb_mmap_free` tests for). When the
copy is allocated and the file then fails to open or to map,
`mcdb_mmap_reopen_threadsafe` calls `map->fn_free(next)` on line 405 without
the test: the call goes through the NULL pointer and the function does not
return false. With a `fn_free` that is not NULL the same failures return
false and pass the copy to it. -/
theorem reopen_failure_null_free :
    registry_no_free.slots 0 = some 0
    ∧ registry_no_free.view 0 = (true, 1, none)
    ∧ (registry_no_free.heap 0).fn_malloc = true
    ∧ (registry_no_free.heap 0).fn_free = false
    ∧ (mcdb_mmap_reopen_threadsafe registry_no_free 0 true true (some .mmap_fails)).isNone = true
    ∧ (mcdb_mmap_reopen_threadsafe registry_no_free 0 true true (some .fstat_fails)).isNone = true
    ∧ (mcdb_mmap_reopen_threadsafe registry_no_free 0 true true none).isNone = true
    ∧ (mcdb_mmap_reopen_threadsafe (registry_after [.create 0]) 0 true true
        (some .mmap_fails)).map (fun r => (r.1, r.2.slots 0, r.2.freed))
        = some (false, some 0, [1])
    ∧ (mcdb_mmap_reopen_threadsafe (registry_after [.create 0]) 0 true true
        (some .mmap_fails)).map (fun r => r.2.view 0) = some (true, 1, none) := by
  refine ⟨by decide, by decide, by decide, by decide, by decide, by decide, by decide, by decide,
    by decide⟩
/-! ## Unregistering -/

/-- One pass of the reclaiming loop on `map` with `next = b`: of the struct `map`
only `next` changes, and `b` alone is unmapped and passed to `fn_free`. -/
theorem reclaim_step_keeps (st : registry) (map b : Nat) (x : Option Nat) (hne : b ≠ map) :
    ((mcdb_mmap_free ((st.modify map fun mp => { mp with next := x }).modify b
        fun mp => { mp with fname := .null }) b).heap map).ptr = (st.heap map).ptr
    ∧ ((mcdb_mmap_free ((st.modify map fun mp => { mp with next := x }).modify b
        fun mp => { mp with fname := .null }) b).heap map).size = (st.heap map).size
    ∧ ((mcdb_mmap_free ((st.modify map fun mp => { mp with next := x }).modify b
        fun mp => { mp with fname := .null }) b).heap map).fn_free = (st.heap map).fn_free
    ∧ (∃ l, (mcdb_mmap_free ((st.modify map fun mp => { mp with next := x }).modify b
        fun mp => { mp with fname := .null }) b).freed = st.freed ++ l ∧ map ∉ l)
    ∧ (∃ l, (mcdb_mmap_free ((st.modify map fun mp => { mp with next := x }).modify b
        fun mp => { mp with fname := .null }) b).munmapped = st.munmapped ++ l ∧ map ∉ l) := by
  have h1 := free_heap_ne ((st.modify map fun mp => { mp with next := x }).modify b
        fun mp => { mp with fname := .null }) b map (Ne.symm hne)
  obtain ⟨l1, l2⟩ := free_logs ((st.modify map fun mp => { mp with next := x }).modify b
        fun mp => { mp with fname := .null }) b
  rw [h1, modify_heap_ne _ _ _ _ (Ne.symm hne), modify_heap_same]
  refine ⟨rfl, rfl, rfl, ?_, ?_⟩
  · rw [l1]
    split
    · exact ⟨[b], rfl, by simpa using Ne.symm hne⟩
    · exact ⟨[], by simp [registry.modify], by simp⟩
  · rw [l2]
    split
    · exact ⟨[b], rfl, by simpa using Ne.symm hne⟩
    · exact ⟨[], by simp [registry.modify], by simp⟩

/-- On a chain that ends, the reclaiming loop returns; of the struct `map` it
changes `next` only, it changes no slot, and `map` is not among the structs it
unmaps and frees. -/
theorem reclaim_loop_keeps (k : Nat) : ∀ (fuel : Nat) (st : registry) (map t : Nat),
    tail_at st.heap st.nalloc map k t → k ≤ fuel →
    ∃ st1, reclaim_loop fuel st map = some st1
      ∧ (st1.heap map).ptr = (st.heap map).ptr ∧ (st1.heap map).size = (st.heap map).size
      ∧ (st1.heap map).fn_free = (st.heap map).fn_free
      ∧ (st1.heap map).refcnt = (st.heap map).refcnt
      ∧ st1.slots = st.slots
      ∧ (∃ l, st1.freed = st.freed ++ l ∧ map ∉ l)
      ∧ (∃ l, st1.munmapped = st.munmapped ++ l ∧ map ∉ l) := by
  induction k with
  | zero =>
    intro fuel st map t h _
    cases h with
    | here _ _ hn =>
      exact ⟨st, reclaim_loop_stop _ _ _ (Or.inl hn), rfl, rfl, rfl, rfl, rfl, ⟨[], by simp, by simp⟩,
        ⟨[], by simp, by simp⟩⟩
  | succ k ih =>
    intro fuel st map t h hf
    cases h with
    | step _ b _ _ hm hb hr =>
      by_cases hz : (st.heap b).refcnt = 0
      · obtain ⟨f, rfl⟩ : ∃ f, fuel = f + 1 := ⟨fuel - 1, by omega⟩
        have hne : b ≠ map := by
          intro e
          subst e
          have := (tail_at_unique _ _ _ _ _ hr (k + 1) t (.step b b k t hm hb hr)).1
          omega
        obtain ⟨l1, l2, l3, l4, l5⟩ := reclaim_step_links st map b (st.heap b).next hne
        obtain ⟨p1, p2, p3, ⟨lf, p4, p5⟩, ⟨lm, p6, p7⟩⟩ :=
          reclaim_step_keeps st map b (st.heap b).next hne
        have hchain : ∃ t1, tail_at (mcdb_mmap_free ((st.modify map fun mp =>
            { mp with next := (st.heap b).next }).modify b
            fun mp => { mp with fname := .null }) b).heap
            (mcdb_mmap_free ((st.modify map fun mp =>
            { mp with next := (st.heap b).next }).modify b
            fun mp => { mp with fname := .null }) b).nalloc map k t1 := by
          rw [l5]
          cases hr with
          | here _ hb2 hn =>
            exact ⟨map, .here map hm (by rw [l3, hn])⟩
          | step _ c k2 _ hb2 hc hr2 =>
            refine ⟨t, .step map c k2 t hm (by rw [l3, hc]) ?_⟩
            apply tail_at_congr st.heap _ st.nalloc map c k2 t hr2 l2
            intro j t1 hj hmj
            have := (tail_at_unique _ _ _ _ _ hmj (k2 + 1 + 1) t
              (.step map b (k2 + 1) t hm hb (.step b c k2 t hb2 hc hr2))).1
            omega
        obtain ⟨t1, ht1⟩ := hchain
        obtain ⟨st1, r1, r2, r3, r4, r5, r6, ⟨lf2, r7, r8⟩, ⟨lm2, r9, r10⟩⟩ :=
          ih f _ map t1 ht1 (by omega)
        refine ⟨st1, ?_, by rw [r2, p1], by rw [r3, p2], by rw [r4, p3], by rw [r5, l1], by
          rw [r6, l4], ⟨lf ++ lf2, by rw [r7, p4, List.append_assoc], ?_⟩,
          ⟨lm ++ lm2, by rw [r9, p6, List.append_assoc], ?_⟩⟩
        · rw [reclaim_loop]
          simp only [hb, hz, if_true]
          exact r1
        · simp only [List.mem_append, not_or]
          exact ⟨p5, r8⟩
        · simp only [List.mem_append, not_or]
          exact ⟨p7, r10⟩
      · exact ⟨st, reclaim_loop_stop _ _ _ (Or.inr ⟨b, hb, hz⟩), rfl, rfl, rfl, rfl, rfl,
          ⟨[], by simp, by simp⟩, ⟨[], by simp, by simp⟩⟩

theorem registration_unregister_eq (st : registry) (mapptr a : Nat) (flags : mcdb_flags)
    (lock_ok : Bool) (hdec : flags.use_incr = false)
    (hlock : flags.mutex_unlock_hold = true ∨ lock_ok = true) (hs : st.slots mapptr = some a) :
    mcdb_mmap_thread_registration st mapptr flags lock_ok
      = registration_release st a mapptr flags := by
  have hl : (!flags.mutex_unlock_hold && !lock_ok) = false := by
    rcases hlock with h | h <;> simp [h]
  unfold mcdb_mmap_thread_registration
  simp only [hl, hs, hdec, Bool.and_false, Bool.false_eq_true, if_false]
theorem decr32_of_pos (r : Nat) (h0 : 0 < r) (hlt : r < U32) : decr32 r = r - 1 := by
  have := decr32_pred r h0 hlt
  omega

theorem decr32_one : decr32 1 = 0 := by decide

/-- C14. Unregistering (a call without MCDB_REGISTER_USE_INCR, the lock obtained)
through a slot whose mapping `a` has `refcnt = r ≥ 1` returns true. If
`r > 1` it sets the `refcnt` of `a` to `r - 1` and changes nothing else: no
slot, no other struct, nothing unmapped or freed. If `r = 1` and
MCDB_REGISTER_MUNMAP_SKIP is not set, `a` is unmapped and passed to
`mcdb_mmap_free` and the slot is set to NULL. If `r = 1` and
MCDB_REGISTER_MUNMAP_SKIP is set, `a` stays mapped, is not freed, and the slots
are unchanged. (For `r = 1` the chain of `next` from `a` has to end, for the
reclaiming loop to return.) -/
theorem unregister_postcondition (st : registry) (mapptr a : Nat) (flags : mcdb_flags)
    (lock_ok : Bool) (hdec : flags.use_incr = false)
    (hlock : flags.mutex_unlock_hold = true ∨ lock_ok = true)
    (hs : st.slots mapptr = some a) (h1 : 1 ≤ (st.heap a).refcnt)
    (hlt : (st.heap a).refcnt < U32) :
    (1 < (st.heap a).refcnt →
      ∃ st1, mcdb_mmap_thread_registration st mapptr flags lock_ok = some (true, st1)
        ∧ st1.heap a = { st.heap a with refcnt := (st.heap a).refcnt - 1 }
        ∧ (∀ b, b ≠ a → st1.heap b = st.heap b)
        ∧ st1.slots = st.slots ∧ st1.freed = st.freed ∧ st1.munmapped = st.munmapped)
    ∧ ((st.heap a).refcnt = 1 → flags.munmap_skip = false →
        ∀ k t, tail_at st.heap st.nalloc a k t →
        ∃ st1, mcdb_mmap_thread_registration st mapptr flags lock_ok = some (true, st1)
          ∧ (st1.heap a).ptr = none ∧ (st1.heap a).size = 0 ∧ (st1.heap a).refcnt = 0
          ∧ ((st.heap a).ptr.isSome = true → a ∈ st1.munmapped)
          ∧ ((st.heap a).fn_free = true → a ∈ st1.freed)
          ∧ st1.slots mapptr = none
          ∧ ∀ s, s ≠ mapptr → st1.slots s = st.slots s)
    ∧ ((st.heap a).refcnt = 1 → flags.munmap_skip = true →
        ∀ k t, tail_at st.heap st.nalloc a k t →
        ∃ st1, mcdb_mmap_thread_registration st mapptr flags lock_ok = some (true, st1)
          ∧ (st1.heap a).ptr = (st.heap a).ptr ∧ (st1.heap a).size = (st.heap a).size
          ∧ (st1.heap a).refcnt = 0
          ∧ st1.slots = st.slots
          ∧ (∃ l, st1.freed = st.freed ++ l ∧ a ∉ l)
          ∧ (∃ l, st1.munmapped = st.munmapped ++ l ∧ a ∉ l)) := by
  rw [registration_unregister_eq st mapptr a flags lock_ok hdec hlock hs]
  have hd : decr32 (st.heap a).refcnt = (st.heap a).refcnt - 1 := decr32_of_pos _ (by omega) hlt
  have hreclaim : (st.heap a).refcnt = 1 → ∀ k t, tail_at st.heap st.nalloc a k t →
      ∃ st3, reclaim_loop st.nalloc
          (st.modify a fun mp => { mp with refcnt := decr32 mp.refcnt }) a = some st3
        ∧ (st3.heap a).ptr = (st.heap a).ptr ∧ (st3.heap a).size = (st.heap a).size
        ∧ (st3.heap a).fn_free = (st.heap a).fn_free
        ∧ (st3.heap a).refcnt = 0
        ∧ st3.slots = st.slots
        ∧ (∃ l, st3.freed = st.freed ++ l ∧ a ∉ l)
        ∧ (∃ l, st3.munmapped = st.munmapped ++ l ∧ a ∉ l) := by
    intro hr k t hchain
    have hk := tail_at_lt_nalloc _ _ _ _ _ hchain
    have hchain2 : tail_at (st.modify a fun mp => { mp with refcnt := decr32 mp.refcnt }).heap
        (st.modify a fun mp => { mp with refcnt := decr32 mp.refcnt }).nalloc a k t := by
      apply tail_at_same_next st.heap _ _ _ _ _ hchain
      intro c
      by_cases hc : c = a
      · subst hc
        rw [modify_heap_same]
      · rw [modify_heap_ne _ _ _ _ hc]
    obtain ⟨st3, r1, r2, r3, r4, r5, r6, r7, r8⟩ := reclaim_loop_keeps k st.nalloc _ a t hchain2
      (by omega)
    rw [modify_heap_same] at r2 r3 r4 r5
    exact ⟨st3, r1, r2, r3, r4, by rw [r5]; show decr32 _ = 0; rw [hd, hr], r6, r7, r8⟩
  refine ⟨?_, ?_, ?_⟩
  · intro hgt
    refine ⟨st.modify a fun mp => { mp with refcnt := decr32 mp.refcnt }, ?_, ?_, ?_, rfl, rfl,
      rfl⟩
    · unfold registration_release
      simp only [modify_heap_same, hd]
      rw [if_neg (by omega)]
    · rw [modify_heap_same, hd]
    · intro b hb
      rw [modify_heap_ne _ _ _ _ hb]
  · intro hr hsk k t hchain
    obtain ⟨st3, r1, r2, r3, r4, r5, r6, ⟨lf, r7, _⟩, ⟨lm, r8, _⟩⟩ := hreclaim hr k t hchain
    have f1 := free_heap_same (st3.modify a fun mp => { mp with fname := .null }) a
    obtain ⟨f2, f3⟩ := free_logs (st3.modify a fun mp => { mp with fname := .null }) a
    have f4 := (free_links (st3.modify a fun mp => { mp with fname := .null }) a).2.1
    rw [modify_heap_same] at f1 f2 f3
    refine ⟨(mcdb_mmap_free (st3.modify a fun mp => { mp with fname := .null }) a).set_slot
      mapptr none, ?_, ?_, ?_, ?_, ?_, ?_, ?_, ?_⟩
    · unfold registration_release
      simp only [modify_heap_same, hd, hr]
      have r1b : reclaim_loop (st.modify a fun mp => { mp with refcnt := decr32 mp.refcnt }).nalloc
          (st.modify a fun mp => { mp with refcnt := decr32 mp.refcnt }) a = some st3 := r1
      simp only [r1b, hsk, hdec, Bool.not_false, if_true, decr32_one]
    · rw [set_slot_heap]
      exact f1.1
    · rw [set_slot_heap]
      exact f1.2.1
    · rw [set_slot_heap, f1.2.2.1]
      exact r5
    · intro hp
      show a ∈ (mcdb_mmap_free _ a).munmapped
      rw [f3]
      have : (st3.heap a).ptr.isSome = true := by rw [r2]; exact hp
      simp [this]
    · intro hf
      show a ∈ (mcdb_mmap_free _ a).freed
      rw [f2]
      have : (st3.heap a).fn_free = true := by rw [r4]; exact hf
      simp [this]
    · rw [set_slot_slots, upd_same]
    · intro s hs2
      rw [set_slot_slots, upd_ne _ _ _ _ hs2, f4]
      show st3.slots s = _
      rw [r6]
  · intro hr hsk k t hchain
    obtain ⟨st3, r1, r2, r3, r4, r5, r6, r7, r8⟩ := hreclaim hr k t hchain
    refine ⟨st3, ?_, r2, r3, r5, r6, r7, r8⟩
    unfold registration_release
    simp only [modify_heap_same, hd, hr]
    have r1b : reclaim_loop (st.modify a fun mp => { mp with refcnt := decr32 mp.refcnt }).nalloc
        (st.modify a fun mp => { mp with refcnt := decr32 mp.refcnt }) a = some st3 := r1
    simp only [r1b, hsk, Bool.not_true, Bool.false_eq_true, if_false, if_true, decr32_one]

/-- C14, after the creator mapped generation 0 in slot 0 (`refcnt` 1, no `next`):
unregistering through slot 0 unmaps generation 0 and sets the slot to NULL. -/
theorem unregister_postcondition_witness :
    MCDB_REGISTER_USE_DECR.use_incr = false
    ∧ MCDB_REGISTER_USE_DECR.munmap_skip = false
    ∧ (registry_after [.create 0]).slots 0 = some 0
    ∧ ((registry_after [.create 0]).heap 0).refcnt = 1
    ∧ tail_at (registry_after [.create 0]).heap (registry_after [.create 0]).nalloc 0 0 0
    ∧ ∃ st1, mcdb_mmap_thread_registration (registry_after [.create 0]) 0
          MCDB_REGISTER_USE_DECR true = some (true, st1)
        ∧ (st1.heap 0).ptr = none ∧ st1.slots 0 = none :=
  have hc : tail_at (registry_after [.create 0]).heap (registry_after [.create 0]).nalloc 0 0 0 :=
    .here 0 (by decide) (by decide)
  ⟨rfl, rfl, by decide, by decide, hc,
   ((unregister_postcondition (registry_after [.create 0]) 0 0 MCDB_REGISTER_USE_DECR true rfl
      (Or.inr rfl) (by decide) (by decide) (by decide)).2.1 (by decide) rfl 0 0 hc).imp
      fun _ h => ⟨h.1, h.2.1, h.2.2.2.2.2.2.1⟩⟩

/-! ## The test `--map->refcnt == 0` -/

/-- Unregistering through a slot whose mapping has `refcnt` 0: the decrement wraps
to `2^32 - 1`, the test `--map->refcnt == 0` fails, and the call returns true
having changed nothing but that `refcnt`. -/
theorem unregister_refcnt_zero (st : registry) (mapptr a : Nat) (flags : mcdb_flags)
    (lock_ok : Bool) (hdec : flags.use_incr = false)
    (hlock : flags.mutex_unlock_hold = true ∨ lock_ok = true)
    (hs : st.slots mapptr = some a) (h0 : (st.heap a).refcnt = 0) :
    mcdb_mmap_thread_registration st mapptr flags lock_ok
      = some (true, st.modify a fun mp => { mp with refcnt := decr32 mp.refcnt })
    ∧ ((st.modify a fun mp => { mp with refcnt := decr32 mp.refcnt }).heap a).refcnt
        = 4294967295 := by
  rw [registration_unregister_eq st mapptr a flags lock_ok hdec hlock hs]
  have hd : decr32 (st.heap a).refcnt = 4294967295 := by rw [h0]; decide
  constructor
  · unfold registration_release
    simp only [modify_heap_same, hd]
    rw [if_neg (by decide)]
  · rw [modify_heap_same]
    exact hd

/-- C18 fails on the code. On `registry_refcnt0`, where slot 0 holds the mapped
generation 0 with `refcnt` 0, unregistering through slot 0 returns true and
leaves generation 0 mapped, not freed, still in the slot, with `refcnt`
4294967295: `--map->refcnt` wraps and is not 0, so the reclamation branch is
not taken, although the comment on line 361 says the test handles "refcnt
already zero". -/
theorem unregister_refcnt_wraps :
    registry_refcnt0.slots 0 = some 0
    ∧ registry_refcnt0.view 0 = (true, 0, none)
    ∧ registry_refcnt0.freed = [] ∧ registry_refcnt0.munmapped = []
    ∧ (mcdb_mmap_thread_registration registry_refcnt0 0 MCDB_REGISTER_USE_DECR true).map
        (fun r => (r.1, r.2.slots 0, r.2.view 0)) = some (true, some 0, (true, 4294967295, none))
    ∧ (mcdb_mmap_thread_registration registry_refcnt0 0 MCDB_REGISTER_USE_DECR true).map
        (fun r => (r.2.freed, r.2.munmapped)) = some ([], []) := by
  refine ⟨by decide, by decide, by decide, by decide, by decide, by decide⟩
/-! ## Chain integrity -/

/-- C15 fails on the code. After the creator mapped generation 0 (slot 0), a reader
registered on it (slot 1) and the creator published generation 1, the chains
of both slots visit no freed struct. The creator's second
`mcdb_mmap_reopen_threadsafe` publishes generation 2 and frees generation 1,
whose last holder it was; the reader's slot still holds generation 0 with
`refcnt` 1, and its chain is now 0, 1, 2 with 1 freed. The tail walk of the
reader's next registration starts at the freed struct 1. -/
theorem chain_reaches_freed :
    (registry_after [.create 0, .attach 1 0, .register 1, .reopen 0]).slot_chain 1 = [0, 1]
    ∧ (registry_after [.create 0, .attach 1 0, .register 1, .reopen 0]).slot_chain 0 = [1]
    ∧ (registry_after [.create 0, .attach 1 0, .register 1, .reopen 0]).freed = []
    ∧ (run_op (registry_after [.create 0, .attach 1 0, .register 1, .reopen 0])
        (.reopen 0)).map (fun r => (r.1, r.2.slots 0, r.2.slots 1, r.2.freed))
        = some (true, some 2, some 0, [1])
    ∧ (registry_after ops_two_reopens).slots 1 = some 0
    ∧ (registry_after ops_two_reopens).view 0 = (true, 1, some 1)
    ∧ (registry_after ops_two_reopens).slot_chain 1 = [0, 1, 2]
    ∧ (registry_after ops_two_reopens).freed = [1]
    ∧ chain_tail (registry_after ops_two_reopens).heap (registry_after ops_two_reopens).nalloc 1
        = some 2 := by
  refine ⟨by decide, by decide, by decide, by decide, by decide, by decide, by decide, by decide,
    by decide⟩
/-! ## A failed start -/

theorem findtagnext_trace_hslots_zero (m : mcdb) (key : List UInt8) (tagc : UInt8)
    (h : m.hslots = 0) : mcdb_findtagnext_trace m key tagc = some (false, m, []) := by
  unfold mcdb_findtagnext_trace
  rw [findtagnext_loop.eq_def]
  dsimp only
  rw [if_neg (by omega)]

theorem findtagnext_seq_hslots_zero (qs : List (List UInt8 × UInt8)) (m : mcdb)
    (h : m.hslots = 0) : findtagnext_seq m qs = some (qs.map (fun _ => false), m, []) := by
  induction qs with
  | nil => rfl
  | cons q qs ih =>
    rw [findtagnext_seq, findtagnext_trace_hslots_zero m q.1 q.2 h]
    simp only [ih, List.map_cons, List.append_nil]

theorem findtagstart_false_fields (m : mcdb) (key : List UInt8) (tagc : UInt8)
    (h : (mcdb_findtagstart m key tagc).1 = false) :
    (mcdb_findtagstart m key tagc).2.hslots = 0
    ∧ (mcdb_findtagstart m key tagc).2.map = m.map
    ∧ (mcdb_findtagstart m key tagc).2.khash = m.khash
    ∧ (mcdb_findtagstart m key tagc).2.hpos = m.hpos
    ∧ (mcdb_findtagstart m key tagc).2.kpos = m.kpos
    ∧ (mcdb_findtagstart m key tagc).2.loop = m.loop
    ∧ (mcdb_findtagstart m key tagc).2.dpos = m.dpos
    ∧ (mcdb_findtagstart m key tagc).2.dlen = m.dlen := by
  dsimp only [mcdb_findtagstart] at h ⊢
  split
  · rename_i hs
    exact ⟨hs, rfl, rfl, rfl, rfl, rfl, rfl, rfl⟩
  · rename_i hs
    rw [if_neg hs] at h
    simp at h

/-- C20. Whenever `mcdb_findtagstart` returns false, the handle it leaves has
`hslots = 0` and every other field as before the call; and from that handle
every run of following `mcdb_findtagnext` calls, whatever the key and tag of
each call, returns false each time, enters the body of the loop in no call (no
slot is read) and leaves the handle as it was, `dpos` and `dlen` included. -/
theorem failed_start_no_cursor (m : mcdb) (key : List UInt8) (tagc : UInt8)
    (h : (mcdb_findtagstart m key tagc).1 = false) :
    (mcdb_findtagstart m key tagc).2.hslots = 0
    ∧ (mcdb_findtagstart m key tagc).2.map = m.map
    ∧ (mcdb_findtagstart m key tagc).2.khash = m.khash
    ∧ (mcdb_findtagstart m key tagc).2.hpos = m.hpos
    ∧ (mcdb_findtagstart m key tagc).2.kpos = m.kpos
    ∧ (mcdb_findtagstart m key tagc).2.loop = m.loop
    ∧ (mcdb_findtagstart m key tagc).2.dpos = m.dpos
    ∧ (mcdb_findtagstart m key tagc).2.dlen = m.dlen
    ∧ (∀ (key1 : List UInt8) (tagc1 : UInt8),
        mcdb_findtagnext_trace (mcdb_findtagstart m key tagc).2 key1 tagc1
          = some (false, (mcdb_findtagstart m key tagc).2, []))
    ∧ ∀ qs : List (List UInt8 × UInt8),
        findtagnext_seq (mcdb_findtagstart m key tagc).2 qs
          = some (qs.map (fun _ => false), (mcdb_findtagstart m key tagc).2, []) := by
  have hf := findtagstart_false_fields m key tagc h
  obtain ⟨h1, h2, h3, h4, h5, h6, h7, h8⟩ := hf
  exact ⟨h1, h2, h3, h4, h5, h6, h7, h8,
    fun key1 tagc1 => findtagnext_trace_hslots_zero _ key1 tagc1 h1,
    fun qs => findtagnext_seq_hslots_zero qs _ h1⟩

/-- C20, on `file_dup` with the cursor a lookup of "a" left (table 196 of 4 slots,
`kpos = 2086`): the start for "c" fails on the empty table 198, only `hslots`
changes, and the following calls for "a" and for "c" return false from a
handle that stays the same. -/
theorem failed_start_no_cursor_witness :
    (start_dup_a.hslots, start_dup_a.hpos, start_dup_a.kpos) = (4, 2078, 2086)
    ∧ (mcdb_findtagstart start_dup_a [99] 0).1 = false
    ∧ (mcdb_findtagstart start_dup_a [99] 0).2.hslots = 0
    ∧ (mcdb_findtagstart start_dup_a [99] 0).2.kpos = 2086
    ∧ findtagnext_seq (mcdb_findtagstart start_dup_a [99] 0).2 [([97], 0), ([99], 0)]
        = some ([false, false], (mcdb_findtagstart start_dup_a [99] 0).2, []) :=
  ⟨by decide, by decide,
   (failed_start_no_cursor start_dup_a [99] 0 (by decide)).1,
   ((failed_start_no_cursor start_dup_a [99] 0 (by decide)).2.2.2.2.1).trans (by decide),
   (failed_start_no_cursor start_dup_a [99] 0 (by decide)).2.2.2.2.2.2.2.2.2 [([97], 0), ([99], 0)]⟩
/-! ## The cursor invariant -/

theorem findtagnext_trace_cursor (m : mcdb) (key : List UInt8) (tagc : UInt8) (hok : cursor_ok m) :
    ∃ rc m1 tr, mcdb_findtagnext_trace m key tagc = some (rc, m1, tr)
      ∧ loop_run key tagc m rc m1 tr ∧ cursor_ok m1
      ∧ m1.map = m.map ∧ m1.khash = m.khash ∧ m1.hpos = m.hpos ∧ m1.hslots = m.hslots := by
  have hty := cursor_ok_hslots_lt m hok
  obtain ⟨rc, m1, tr, h1, _, h3⟩ := mcdb_findtagnext_run m key tagc hty
  have hb := loop_run_bound key tagc m rc m1 tr h3 hty
  exact ⟨rc, m1, tr, h1, h3, (loop_run_hits key tagc m rc m1 tr h3 hok).1, hb.1, hb.2.1, hb.2.2.1,
    hb.2.2.2.1⟩

/-- Successive calls from a cursor in 32-bit range all return, and leave a cursor
in range on the same table. -/
theorem findtagnext_seq_cursor (qs : List (List UInt8 × UInt8)) :
    ∀ m : mcdb, cursor_ok m →
    ∃ rcs m1 tr, findtagnext_seq m qs = some (rcs, m1, tr) ∧ rcs.length = qs.length
      ∧ cursor_ok m1
      ∧ m1.map = m.map ∧ m1.khash = m.khash ∧ m1.hpos = m.hpos ∧ m1.hslots = m.hslots := by
  induction qs with
  | nil =>
    intro m hok
    exact ⟨[], m, [], rfl, rfl, hok, rfl, rfl, rfl, rfl⟩
  | cons q qs ih =>
    intro m hok
    obtain ⟨rc, m1, tr, h1, _, hok1, e1, e2, e3, e4⟩ := findtagnext_trace_cursor m q.1 q.2 hok
    obtain ⟨rcs, m2, tr2, h2, hlen, hok2, f1, f2, f3, f4⟩ := ih m1 hok1
    refine ⟨rc :: rcs, m2, tr ++ tr2, ?_, by simp [hlen], hok2, f1.trans e1, f2.trans e2,
      f3.trans e3, f4.trans e4⟩
    rw [findtagnext_seq, h1]
    simp only [h2]

theorem cursor_ok_spec (m : mcdb) (hok : cursor_ok m) :
    m.hpos ≤ m.kpos ∧ m.kpos < m.hpos + 8 * m.hslots ∧ 8 ∣ (m.kpos - m.hpos)
    ∧ m.loop ≤ m.hslots
    ∧ m.kpos = m.hpos + 8 * (((m.khash >>> 8) % m.hslots + m.loop) % m.hslots) := by
  obtain ⟨hn, _, hle, hk⟩ := hok
  have hlt := probe_pos_lt m.hpos m.hslots m.khash m.loop hn
  rw [← hk] at hlt
  unfold probe_pos at hk
  refine ⟨hlt.1, by omega, ?_, hle, hk⟩
  rw [hk, Nat.add_sub_cancel_left]
  exact Nat.dvd_mul_right _ _

/-- C17. If `mcdb_findtagstart` returns true and leaves `hpos + 8 * hslots < 2^32`,
then every run of following `mcdb_findtagnext` calls (the empty run included,
and whatever the key and tag of each call) returns, leaves `khash`, `hpos` and
`hslots` as the start set them, and leaves `hpos <= kpos < hpos + 8 * hslots`,
`kpos - hpos` a multiple of 8, `loop <= hslots`, and
`kpos = hpos + 8 * ((s0 + loop) mod hslots)` with `s0 = (khash >> 8) mod hslots`. -/
theorem cursor_invariant (m : mcdb) (key : List UInt8) (tagc : UInt8) (m0 : mcdb)
    (hs : mcdb_findtagstart m key tagc = (true, m0)) (hext : m0.hpos + 8 * m0.hslots < U32)
    (qs : List (List UInt8 × UInt8)) :
    ∃ rcs m1 tr, findtagnext_seq m0 qs = some (rcs, m1, tr) ∧ rcs.length = qs.length
      ∧ m1.khash = m0.khash ∧ m1.hpos = m0.hpos ∧ m1.hslots = m0.hslots
      ∧ m1.hpos ≤ m1.kpos ∧ m1.kpos < m1.hpos + 8 * m1.hslots ∧ 8 ∣ (m1.kpos - m1.hpos)
      ∧ m1.loop ≤ m1.hslots
      ∧ m1.kpos = m1.hpos + 8 * (((m1.khash >>> 8) % m1.hslots + m1.loop) % m1.hslots) := by
  obtain ⟨rcs, m1, tr, h1, hlen, hok1, _, e2, e3, e4⟩ :=
    findtagnext_seq_cursor qs m0 (findtagstart_cursor_ok m key tagc m0 hs hext)
  exact ⟨rcs, m1, tr, h1, hlen, e2, e3, e4, cursor_ok_spec m1 hok1⟩

/-- C17, on `file_dup`: after the start for "a" and three following calls (for "a",
for "b" and for "a" again) the cursor is on table 196 with the invariant
holding. -/
theorem cursor_invariant_witness :
    mcdb_findtagstart (mcdb.of_map file_dup) [97] 0 = (true, start_dup_a)
    ∧ start_dup_a.hpos + 8 * start_dup_a.hslots < U32
    ∧ ∃ rcs m1 tr, findtagnext_seq start_dup_a [([97], 0), ([98], 0), ([97], 0)]
          = some (rcs, m1, tr) ∧ rcs.length = 3
      ∧ m1.khash = start_dup_a.khash ∧ m1.hpos = start_dup_a.hpos
      ∧ m1.hslots = start_dup_a.hslots
      ∧ m1.hpos ≤ m1.kpos ∧ m1.kpos < m1.hpos + 8 * m1.hslots ∧ 8 ∣ (m1.kpos - m1.hpos)
      ∧ m1.loop ≤ m1.hslots
      ∧ m1.kpos = m1.hpos + 8 * (((m1.khash >>> 8) % m1.hslots + m1.loop) % m1.hslots) :=
  ⟨by rfl, by decide,
   cursor_invariant (mcdb.of_map file_dup) [97] 0 start_dup_a (by rfl) (by decide)
     [([97], 0), ([98], 0), ([97], 0)]⟩
/-! ## The unmapped state -/

theorem unmap_fields (st : registry) (map : Nat) :
    ((mcdb_mmap_unmap st map).heap map).ptr = none
    ∧ ((mcdb_mmap_unmap st map).heap map).size = 0 := by
  rw [unmap_heap_same]
  exact ⟨rfl, rfl⟩

theorem unmap_of_unmapped (st : registry) (map : Nat) (hp : (st.heap map).ptr = none)
    (hs : (st.heap map).size = 0) : mcdb_mmap_unmap st map = st := by
  obtain ⟨heap, nalloc, slots, munmapped, freed, nfname, fname_freed, closed⟩ := st
  simp only at hp hs
  dsimp only [mcdb_mmap_unmap, registry.modify]
  simp only [hp, Option.isSome_none, Bool.false_eq_true, if_false]
  have e : upd heap map { heap map with ptr := none, size := 0 } = heap := by
    funext x
    unfold upd
    split
    · rename_i hx
      subst hx
      cases hh : heap x with
      | mk ptr size mtime next fn_malloc fn_free refcnt dfd fname =>
        rw [hh] at hp hs
        simp only at hp hs
        subst hp
        subst hs
        rfl
    · rfl
  simp only [registry.mk.injEq, and_true, true_and]
  exact e

theorem unmap_twice (st : registry) (map : Nat) :
    mcdb_mmap_unmap (mcdb_mmap_unmap st map) map = mcdb_mmap_unmap st map :=
  unmap_of_unmapped _ map (unmap_fields st map).1 (unmap_fields st map).2

theorem init_fails_unmap (st : registry) (map : Nat) (fd : fd_result)
    (h : (mcdb_mmap_init st map fd).1 = false) :
    (mcdb_mmap_init st map fd).2 = mcdb_mmap_unmap st map := by
  cases fd with
  | fstat_fails => rfl
  | mmap_fails => rfl
  | mapped bytes size mtime => simp [mcdb_mmap_init] at h

theorem read_unmapped (m : mcdb) (pos len : Nat) (hs : m.map.size = 0) (h : 0 < pos ∨ 0 < len) :
    mcdb_read m pos len = none := by
  unfold mcdb_read
  simp only [hs, Nat.zero_mod]
  rw [if_neg (by omega)]

/-- C19. Whatever the struct held before, `mcdb_mmap_unmap` leaves it with
`ptr = NULL` and `size = 0`; so does `mcdb_mmap_init` when it returns false,
for the `fstat` failure and for the `mmap` failure, and both of these do fail;
`mcdb_mmap_unmap` applied twice leaves the same memory as applied once; and
`mcdb_read` through a handle on a mapping with `ptr = NULL` and `size = 0`
returns NULL for every request with `pos > 0` or `len > 0`. -/
theorem unmapped_state_safe (st : registry) (map : Nat) :
    ((mcdb_mmap_unmap st map).heap map).ptr = none
    ∧ ((mcdb_mmap_unmap st map).heap map).size = 0
    ∧ (mcdb_mmap_init st map .fstat_fails).1 = false
    ∧ (mcdb_mmap_init st map .mmap_fails).1 = false
    ∧ (∀ fd : fd_result, (mcdb_mmap_init st map fd).1 = false →
        (((mcdb_mmap_init st map fd).2.heap map).ptr = none
          ∧ ((mcdb_mmap_init st map fd).2.heap map).size = 0))
    ∧ mcdb_mmap_unmap (mcdb_mmap_unmap st map) map = mcdb_mmap_unmap st map
    ∧ ∀ (m : mcdb) (pos len : Nat), m.map.ptr = none → m.map.size = 0 → (0 < pos ∨ 0 < len) →
        mcdb_read m pos len = none := by
  refine ⟨(unmap_fields st map).1, (unmap_fields st map).2, rfl, rfl, ?_, unmap_twice st map, ?_⟩
  · intro fd h
    rw [init_fails_unmap st map fd h]
    exact unmap_fields st map
  · intro m pos len _ hs h
    exact read_unmapped m pos len hs h

/-- C19, on the mapping of 2048 bytes a default create leaves at address 0: a
`mcdb_mmap_init` whose `mmap` fails leaves it unmapped, and reads of one byte
at 0 and of no byte at 1 through a handle on the unmapped struct return NULL. -/
theorem unmapped_state_safe_witness :
    (((registry_after [.create 0]).heap 0).ptr.isSome, ((registry_after [.create 0]).heap 0).size)
      = (true, 2048)
    ∧ (mcdb_mmap_init (registry_after [.create 0]) 0 .mmap_fails).1 = false
    ∧ ((mcdb_mmap_init (registry_after [.create 0]) 0 .mmap_fails).2.heap 0).ptr = none
    ∧ ((mcdb_mmap_init (registry_after [.create 0]) 0 .mmap_fails).2.heap 0).size = 0
    ∧ mcdb_read (mcdb.of_map ((mcdb_mmap_unmap (registry_after [.create 0]) 0).heap 0)) 0 1 = none
    ∧ mcdb_read (mcdb.of_map ((mcdb_mmap_unmap (registry_after [.create 0]) 0).heap 0)) 1 0 = none :=
  ⟨by decide, rfl,
   ((unmapped_state_safe (registry_after [.create 0]) 0).2.2.2.2.1 .mmap_fails rfl).1,
   ((unmapped_state_safe (registry_after [.create 0]) 0).2.2.2.2.1 .mmap_fails rfl).2,
   (unmapped_state_safe (registry_after [.create 0]) 0).2.2.2.2.2.2
     (mcdb.of_map ((mcdb_mmap_unmap (registry_after [.create 0]) 0).heap 0)) 0 1
     (unmapped_state_safe (registry_after [.create 0]) 0).1
     (unmapped_state_safe (registry_after [.create 0]) 0).2.1 (Or.inr (by decide)),
   (unmapped_state_safe (registry_after [.create 0]) 0).2.2.2.2.2.2
     (mcdb.of_map ((mcdb_mmap_unmap (registry_after [.create 0]) 0).heap 0)) 1 0
     (unmapped_state_safe (registry_after [.create 0]) 0).1
     (unmapped_state_safe (registry_after [.create 0]) 0).2.1 (Or.inl (by decide))⟩
/-! ## In-bounds lookup -/

theorem findtagstart_in_bounds (m : mcdb) (key : List UInt8) (tagc : UInt8)
    (h1 : 2048 ≤ m.map.size) (h2 : m.map.size < U32)
    (hhdr : ∀ i, i < 256 →
      uint32_strunpack_bigendian m.map (i * 8) + 8 * uint32_strunpack_bigendian m.map (i * 8 + 4)
        ≤ m.map.size) :
    (∀ off ∈ findtagstart_reads m key tagc, off < m.map.size)
    ∧ (∀ x ∈ findtagstart_sums m key tagc, x < U32) := by
  have hlt := uint32_hash_djb_lt _ key (khash_init_lt tagc)
  have hi := and_255_lt (uint32_hash_djb (khash_init tagc) key)
  have hh := hhdr _ hi
  constructor
  · intro off hoff
    simp only [findtagstart_reads, header_offset_eq, List.mem_append, List.mem_range'_1] at hoff
    rcases hoff with hoff | hoff
    · omega
    · split at hoff
      · simp at hoff
      · rw [List.mem_range'_1] at hoff
        omega
  · intro x hx
    simp only [findtagstart_sums, header_offset_eq] at hx
    split at hx
    · simp at hx
    · rename_i hs
      rw [List.mem_singleton, shift_slot_lt _ _ hlt] at hx
      have hmod := Nat.mod_lt (uint32_hash_djb (khash_init tagc) key >>> 8)
        (Nat.pos_of_ne_zero hs)
      omega

theorem key_match_reads_lt (map : mcdb_mmap) (vpos len : Nat) (key : List UInt8) (tagc : UInt8) :
    ∀ off ∈ key_match_reads map vpos len key tagc, off < vpos + 8 + len := by
  intro off hoff
  unfold key_match_reads at hoff
  split at hoff
  · split at hoff
    · rename_i hl
      rcases List.mem_cons.mp hoff with h | h
      · omega
      · split at h
        · rw [List.mem_range'_1] at h
          omega
        · simp at h
    · simp at hoff
  · split at hoff
    · rw [List.mem_range'_1] at hoff
      omega
    · simp at hoff

/-- One pass of the loop on a cursor in range, on a table that lies in the file and
whose non-empty slots point to records that lie in the file: every offset read
is in the file and no 32-bit addition wraps. -/
theorem body_in_bounds (e : mcdb) (key : List UInt8) (tagc : UInt8) (hok : cursor_ok e)
    (hlt : e.loop < e.hslots) (hsz : e.map.size < U32)
    (htab : e.hpos + 8 * e.hslots ≤ e.map.size)
    (hrec : ∀ s, s < e.hslots → slot_vpos e.map (e.hpos + 8 * s) ≠ 0 →
      slot_vpos e.map (e.hpos + 8 * s) + 8
        + uint32_strunpack_bigendian e.map (slot_vpos e.map (e.hpos + 8 * s))
        + uint32_strunpack_bigendian e.map (slot_vpos e.map (e.hpos + 8 * s) + 4) ≤ e.map.size) :
    (∀ off ∈ findtagnext_body_reads e key tagc, off < e.map.size)
    ∧ (∀ x ∈ findtagnext_body_sums e key tagc, x < U32) := by
  obtain ⟨hn, hext, hle, hk⟩ := hok
  have hb := probe_pos_lt e.hpos e.hslots e.khash e.loop hn
  have hr := hrec (((e.khash >>> 8) % e.hslots + e.loop) % e.hslots)
    (Nat.mod_lt _ (Nat.pos_of_ne_zero hn))
  have hk1 : e.hpos + 8 * (((e.khash >>> 8) % e.hslots + e.loop) % e.hslots) = e.kpos := by
    rw [hk]
    rfl
  rw [← hk] at hb
  rw [hk1] at hr
  unfold slot_vpos at hr
  have h8 : e.hslots <<< 3 = 8 * e.hslots := by rw [Nat.shiftLeft_eq]; omega
  constructor
  · intro off hoff
    simp only [findtagnext_body_reads, List.mem_append, List.mem_range'_1] at hoff
    rcases hoff with hoff | hoff
    · omega
    · split at hoff
      · simp at hoff
      · rename_i hv
        have hr1 := hr hv
        rw [List.mem_append] at hoff
        rcases hoff with hoff | hoff
        · rw [List.mem_range'_1] at hoff
          omega
        · split at hoff
          · simp only [List.mem_append, List.mem_range'_1] at hoff
            rcases hoff with (hoff | hoff) | hoff
            · omega
            · have := key_match_reads_lt _ _ _ _ _ off hoff
              omega
            · split at hoff
              · rw [List.mem_range'_1] at hoff
                omega
              · simp at hoff
          · simp at hoff
  · intro x hx
    simp only [findtagnext_body_sums] at hx
    split at hx
    · simp at hx
    · rename_i hv
      have hr1 := hr hv
      rw [List.mem_append] at hx
      rcases hx with hx | hx
      · simp only [List.mem_cons, List.mem_singleton, List.not_mem_nil, or_false] at hx
        rw [h8, Nat.mod_eq_of_lt (by omega : 8 * e.hslots < U32)] at hx
        omega
      · split at hx
        · simp only [List.mem_cons, List.mem_singleton, List.not_mem_nil, or_false] at hx
          rw [Nat.mod_eq_of_lt (by omega :
            uint32_strunpack_bigendian e.map (e.kpos + 4) + 8 < U32)] at hx
          omega
        · simp at hx

theorem probe_hits_slot (m : mcdb) (key : List UInt8) (tagc : UInt8) (p : Nat)
    (hn : m.hslots ≠ 0) (hp : p ∈ probe_hits m key tagc) :
    ∃ s, s < m.hslots ∧ p = m.hpos + 8 * s := by
  unfold probe_hits probe_run at hp
  have h1 := (List.filter_sublist _).subset hp
  have h2 := (List.takeWhile_sublist _).subset h1
  obtain ⟨j, _, hj⟩ := List.mem_map.mp h2
  exact ⟨((m.khash >>> 8) % m.hslots + j) % m.hslots, Nat.mod_lt _ (Nat.pos_of_ne_zero hn),
    hj.symm⟩

/-- One call of `mcdb_findtagnext` on a cursor in range, on a table that lies in
the file and whose non-empty slots point to records that lie in the file: the
call returns, every offset read in its passes is in the file, no 32-bit
addition wraps, and a true return leaves `dpos + dlen` within the file. -/
theorem call_in_bounds (m : mcdb) (key : List UInt8) (tagc : UInt8) (hok : cursor_ok m)
    (hsz : m.map.size < U32) (htab : m.hpos + 8 * m.hslots ≤ m.map.size)
    (hrec : ∀ s, s < m.hslots → slot_vpos m.map (m.hpos + 8 * s) ≠ 0 →
      slot_vpos m.map (m.hpos + 8 * s) + 8
        + uint32_strunpack_bigendian m.map (slot_vpos m.map (m.hpos + 8 * s))
        + uint32_strunpack_bigendian m.map (slot_vpos m.map (m.hpos + 8 * s) + 4) ≤ m.map.size) :
    ∃ rc m1 tr, mcdb_findtagnext_trace m key tagc = some (rc, m1, tr)
      ∧ (∀ e ∈ tr, (∀ off ∈ findtagnext_body_reads e key tagc, off < m.map.size)
          ∧ (∀ x ∈ findtagnext_body_sums e key tagc, x < U32))
      ∧ (rc = true → m1.dpos + m1.dlen ≤ m.map.size) := by
  have hty := cursor_ok_hslots_lt m hok
  obtain ⟨rc, m1, tr, h1, _, hr⟩ := mcdb_findtagnext_run m key tagc hty
  have t1 := (loop_run_trace key tagc m rc m1 tr hr hty).1
  refine ⟨rc, m1, tr, h1, ?_, ?_⟩
  · intro e he
    obtain ⟨j1, j2, j3, j4, _, j6, _, j8⟩ := t1 e he
    have hoke : cursor_ok e := by
      refine ⟨by rw [j4]; exact hok.1, by rw [j3, j4]; exact hok.2.1, by rw [j4]; omega, ?_⟩
      rw [j2, j3, j4]
      exact j8 hok
    have := body_in_bounds e key tagc hoke (by rw [j4]; exact j6) (by rw [j1]; exact hsz)
      (by rw [j1, j3, j4]; exact htab) (by rw [j1, j3, j4]; exact hrec)
    rw [j1] at this
    exact this
  · intro hrc
    obtain ⟨p, hp, hv, hd, hl⟩ := (loop_run_hits key tagc m rc m1 tr hr hok).2.2.1 hrc
    obtain ⟨s, hs, rfl⟩ := probe_hits_slot m key tagc p hok.1 (by rw [hp]; exact List.mem_cons_self _ _)
    have := hrec s hs hv
    rw [hd, hl, Nat.mod_eq_of_lt (by omega)]
    exact this

/-- C16. On a mapping with `2048 <= size < 2^32` whose 256 header pairs satisfy
`hpos + 8 * hslots <= size` and whose non-empty slots (of the tables the header
pairs give) hold a `vpos` with `vpos + 8 + klen + dlen <= size` for the lengths
of the record at `vpos`: for every key and tag, every offset
`mcdb_findtagstart` reads is below `size` and its 32-bit addition does not
wrap; and after any run of following `mcdb_findtagnext` calls, the next call,
for any key and tag, returns, reads in each pass of its loop only offsets below
`size` (slot, record header, tag byte, compared key bytes), evaluates no
32-bit addition that wraps, and on a true return leaves `dpos + dlen <= size`.
The additions are those of lines 57-62 and 77-96; the hash of the key is
computed before, by `uint32_hash_djb`, in 32-bit arithmetic that wraps by
design. -/
theorem lookup_in_bounds (m : mcdb) (key : List UInt8) (tagc : UInt8)
    (h1 : 2048 ≤ m.map.size) (h2 : m.map.size < U32)
    (hhdr : ∀ i, i < 256 →
      uint32_strunpack_bigendian m.map (i * 8) + 8 * uint32_strunpack_bigendian m.map (i * 8 + 4)
        ≤ m.map.size)
    (hrec : ∀ i, i < 256 → ∀ s, s < uint32_strunpack_bigendian m.map (i * 8 + 4) →
      slot_vpos m.map (uint32_strunpack_bigendian m.map (i * 8) + 8 * s) ≠ 0 →
      slot_vpos m.map (uint32_strunpack_bigendian m.map (i * 8) + 8 * s) + 8
        + uint32_strunpack_bigendian m.map
            (slot_vpos m.map (uint32_strunpack_bigendian m.map (i * 8) + 8 * s))
        + uint32_strunpack_bigendian m.map
            (slot_vpos m.map (uint32_strunpack_bigendian m.map (i * 8) + 8 * s) + 4)
        ≤ m.map.size) :
    (∀ off ∈ findtagstart_reads m key tagc, off < m.map.size)
    ∧ (∀ x ∈ findtagstart_sums m key tagc, x < U32)
    ∧ ∀ qs : List (List UInt8 × UInt8),
        ∃ rcs m1 tr, findtagnext_seq (mcdb_findtagstart m key tagc).2 qs = some (rcs, m1, tr)
          ∧ ∀ (key1 : List UInt8) (tagc1 : UInt8),
              ∃ rc m2 tr2, mcdb_findtagnext_trace m1 key1 tagc1 = some (rc, m2, tr2)
                ∧ (∀ e ∈ tr2, (∀ off ∈ findtagnext_body_reads e key1 tagc1, off < m.map.size)
                    ∧ (∀ x ∈ findtagnext_body_sums e key1 tagc1, x < U32))
                ∧ (rc = true → m2.dpos + m2.dlen ≤ m.map.size) := by
  obtain ⟨r1, r2⟩ := findtagstart_in_bounds m key tagc h1 h2 hhdr
  refine ⟨r1, r2, ?_⟩
  intro qs
  cases hb : (mcdb_findtagstart m key tagc).1 with
  | false =>
    have h0 := (findtagstart_false_fields m key tagc hb).1
    refine ⟨_, _, _, findtagnext_seq_hslots_zero qs _ h0, ?_⟩
    intro key1 tagc1
    exact ⟨_, _, _, findtagnext_trace_hslots_zero _ key1 tagc1 h0, by simp, by simp⟩
  | true =>
    have hs : mcdb_findtagstart m key tagc = (true, (mcdb_findtagstart m key tagc).2) :=
      Prod.ext hb rfl
    obtain ⟨_, _, f3, f4, _, _, _⟩ := findtagstart_true_fields m key tagc _ hs
    have hmap := (findtagstart_true_same m key tagc _ hs).1
    have hi := and_255_lt (mcdb_findtagstart m key tagc).2.khash
    have hh := hhdr _ hi
    rw [← f3, ← f4] at hh
    have hok := findtagstart_cursor_ok m key tagc _ hs (by omega)
    obtain ⟨rcs, m1, tr, q1, _, hok1, e1, _, e3, e4⟩ := findtagnext_seq_cursor qs _ hok
    refine ⟨rcs, m1, tr, q1, ?_⟩
    intro key1 tagc1
    have hm1 : m1.map = m.map := e1.trans hmap
    have hr := hrec _ hi
    rw [← f3, ← f4] at hr
    have := call_in_bounds m1 key1 tagc1 hok1 (by rw [hm1]; exact h2)
      (by rw [hm1, e3, e4]; exact hh) (by rw [hm1, e3, e4]; exact hr)
    rw [hm1] at this
    exact this

set_option maxRecDepth 100000 in
/-- Every header pair of `file_dup` gives a table within its 2126 bytes. -/
theorem file_dup_headers : ∀ i, i < 256 →
    uint32_strunpack_bigendian file_dup (i * 8) + 8 * uint32_strunpack_bigendian file_dup (i * 8 + 4)
      ≤ file_dup.size := by
  decide

set_option maxRecDepth 100000 in
/-- Every non-empty slot of the tables of `file_dup` points to a record within its
2126 bytes. -/
theorem file_dup_records : ∀ i, i < 256 → ∀ s, s < uint32_strunpack_bigendian file_dup (i * 8 + 4) →
    slot_vpos file_dup (uint32_strunpack_bigendian file_dup (i * 8) + 8 * s) ≠ 0 →
    slot_vpos file_dup (uint32_strunpack_bigendian file_dup (i * 8) + 8 * s) + 8
      + uint32_strunpack_bigendian file_dup
          (slot_vpos file_dup (uint32_strunpack_bigendian file_dup (i * 8) + 8 * s))
      + uint32_strunpack_bigendian file_dup
          (slot_vpos file_dup (uint32_strunpack_bigendian file_dup (i * 8) + 8 * s) + 4)
      ≤ file_dup.size := by
  decide

/-- C16, on `file_dup` (2126 bytes) and the key "a": the start reads the header pair
at 1568 and adds `2078 + 8`; the first pass of the first call reads the slot
at 2086, the record header at 2048 and the key byte at 2056; and after the
first call every next call stays in bounds. -/
theorem lookup_in_bounds_witness :
    2048 ≤ file_dup.size ∧ file_dup.size < U32
    ∧ findtagstart_reads (mcdb.of_map file_dup) [97] 0
        = [1572, 1573, 1574, 1575, 1568, 1569, 1570, 1571]
    ∧ findtagstart_sums (mcdb.of_map file_dup) [97] 0 = [2086]
    ∧ findtagnext_body_reads start_dup_a [97] 0
        = [2090, 2091, 2092, 2093, 2086, 2087, 2088, 2089, 2048, 2049, 2050, 2051, 2056,
           2052, 2053, 2054, 2055]
    ∧ findtagnext_body_sums start_dup_a [97] 0 = [2094, 2110, 1, 2056, 2057]
    ∧ (∀ off ∈ findtagstart_reads (mcdb.of_map file_dup) [97] 0, off < file_dup.size)
    ∧ (∀ x ∈ findtagstart_sums (mcdb.of_map file_dup) [97] 0, x < U32)
    ∧ ∃ rcs m1 tr, findtagnext_seq start_dup_a [([97], 0)] = some (rcs, m1, tr)
        ∧ ∀ (key1 : List UInt8) (tagc1 : UInt8),
            ∃ rc m2 tr2, mcdb_findtagnext_trace m1 key1 tagc1 = some (rc, m2, tr2)
              ∧ (∀ e ∈ tr2, (∀ off ∈ findtagnext_body_reads e key1 tagc1, off < file_dup.size)
                  ∧ (∀ x ∈ findtagnext_body_sums e key1 tagc1, x < U32))
              ∧ (rc = true → m2.dpos + m2.dlen ≤ file_dup.size) :=
  ⟨by decide, by decide, by decide, by decide, by decide, by decide,
   (lookup_in_bounds (mcdb.of_map file_dup) [97] 0 (by decide) (by decide) file_dup_headers
      file_dup_records).1,
   (lookup_in_bounds (mcdb.of_map file_dup) [97] 0 (by decide) (by decide) file_dup_headers
      file_dup_records).2.1,
   (lookup_in_bounds (mcdb.of_map file_dup) [97] 0 (by decide) (by decide) file_dup_headers
      file_dup_records).2.2 [([97], 0)]⟩
end Mcdb
